import Mathlib

/-!
Verification of the task-graph optimizer in `flash/core/serve/dag`
(`task.py` and `optimization.py`).

The Python code manipulates dynamically-typed values: graph keys are strings
or tuples, node values are literals, bare keys, lists, or "tasks" (tuples
whose first element is a callable).  We shallowly embed this value universe
as the inductive type `PyVal`; callables are represented by an identifier
(`PyVal.fn`) interpreted by an explicit application function, mirroring that
Python functions are opaque values compared by identity.

Python dictionaries are embedded as insertion-ordered association lists
(`Dict`), Python sets as insertion-ordered duplicate-free lists (`SSet`);
iteration order over Python sets is unspecified by the source (see the
specification, "Heuristic reproducibility"), so the embedding fixes one
deterministic order.  Operations that can raise (`d[k]`, `del d[k]`,
`set.remove`) return `Option`/`Except` so that a `KeyError` is never
silently ignored.  Loops whose termination is not structural are given
explicit fuel and return `none` on exhaustion; every theorem about such a
loop is stated for runs that return `some`.
-/

namespace Dag

/-- Embedded Python values: strings, integer numbers, tuples, lists and
callables.  A callable is a function identifier; `PyVal.tup` with a callable
head is a task. -/
inductive PyVal where
  | str (s : String)
  | int (n : Int)
  | tup (elems : List PyVal)
  | list (elems : List PyVal)
  | fn (id : Nat)
  deriving Repr

mutual

/-- Structural (and, on this universe, Python `==`) equality test. -/
def PyVal.beq : PyVal → PyVal → Bool
  | .str a, .str b => a == b
  | .int a, .int b => a == b
  | .tup a, .tup b => PyVal.beqList a b
  | .list a, .list b => PyVal.beqList a b
  | .fn a, .fn b => a == b
  | _, _ => false

/-- Elementwise equality of value lists. -/
def PyVal.beqList : List PyVal → List PyVal → Bool
  | [], [] => true
  | a :: as, b :: bs => PyVal.beq a b && PyVal.beqList as bs
  | _, _ => false

end

mutual

theorem PyVal.beq_iff : ∀ a b : PyVal, PyVal.beq a b = true ↔ a = b
  | .str _, .str _ => by simp [PyVal.beq]
  | .str _, .int _ => by simp [PyVal.beq]
  | .str _, .tup _ => by simp [PyVal.beq]
  | .str _, .list _ => by simp [PyVal.beq]
  | .str _, .fn _ => by simp [PyVal.beq]
  | .int _, .str _ => by simp [PyVal.beq]
  | .int _, .int _ => by simp [PyVal.beq]
  | .int _, .tup _ => by simp [PyVal.beq]
  | .int _, .list _ => by simp [PyVal.beq]
  | .int _, .fn _ => by simp [PyVal.beq]
  | .tup _, .str _ => by simp [PyVal.beq]
  | .tup _, .int _ => by simp [PyVal.beq]
  | .tup a, .tup b => by simp [PyVal.beq, PyVal.beqList_iff a b]
  | .tup _, .list _ => by simp [PyVal.beq]
  | .tup _, .fn _ => by simp [PyVal.beq]
  | .list _, .str _ => by simp [PyVal.beq]
  | .list _, .int _ => by simp [PyVal.beq]
  | .list _, .tup _ => by simp [PyVal.beq]
  | .list a, .list b => by simp [PyVal.beq, PyVal.beqList_iff a b]
  | .list _, .fn _ => by simp [PyVal.beq]
  | .fn _, .str _ => by simp [PyVal.beq]
  | .fn _, .int _ => by simp [PyVal.beq]
  | .fn _, .tup _ => by simp [PyVal.beq]
  | .fn _, .list _ => by simp [PyVal.beq]
  | .fn _, .fn _ => by simp [PyVal.beq]

theorem PyVal.beqList_iff : ∀ a b : List PyVal, PyVal.beqList a b = true ↔ a = b
  | [], [] => by simp [PyVal.beqList]
  | [], _ :: _ => by simp [PyVal.beqList]
  | _ :: _, [] => by simp [PyVal.beqList]
  | a :: as, b :: bs => by
      simp [PyVal.beqList, PyVal.beq_iff a b, PyVal.beqList_iff as bs]

end

instance : DecidableEq PyVal := fun a b => decidable_of_iff _ (PyVal.beq_iff a b)

/-- Graph keys are (hashable) Python values. -/
abbrev Key := PyVal

/-- Tag of the Python runtime type of a value (`type(x)`). -/
def PyVal.typeOf : PyVal → Nat
  | .str _ => 0
  | .int _ => 1
  | .tup _ => 2
  | .list _ => 3
  | .fn _ => 4

/-- Python `callable(x)`: in this universe only `fn` values are callable. -/
def pycallable : PyVal → Bool
  | .fn _ => true
  | _ => false

/-- Source `istask(x)`: a nonempty tuple whose first element is callable. -/
def istask : PyVal → Bool
  | .tup (f :: _) => pycallable f
  | _ => false

mutual

/-- Source `ishashable(x)`: lists are unhashable, tuples are hashable iff all
their elements are. -/
def ishashable : PyVal → Bool
  | .list _ => false
  | .tup es => ishashableList es
  | _ => true

/-- Hashability of every element of a list. -/
def ishashableList : List PyVal → Bool
  | [] => true
  | a :: l => ishashable a && ishashableList l

end

end Dag

namespace Dag

/-! Association-list embedding of Python `dict` (insertion ordered). -/

/-- Python `dict` lookup `d.get(k)`. -/
def dlookup {α : Type} : List (Key × α) → Key → Option α
  | [], _ => none
  | (k1, v) :: rest, k => if k1 = k then some v else dlookup rest k

/-- Python `k in d`. -/
def dmem {α : Type} (d : List (Key × α)) (k : Key) : Bool :=
  (dlookup d k).isSome

/-- Python dict assignment `d[k] = v`: updates in place, else appends. -/
def dinsert {α : Type} : List (Key × α) → Key → α → List (Key × α)
  | [], k, v => [(k, v)]
  | (k1, v1) :: rest, k, v =>
      if k1 = k then (k, v) :: rest else (k1, v1) :: dinsert rest k v

/-- Python `del d[k]`; `none` models the `KeyError` on a missing key. -/
def derase {α : Type} : List (Key × α) → Key → Option (List (Key × α))
  | [], _ => none
  | (k1, v1) :: rest, k =>
      if k1 = k then some rest else (derase rest k).map ((k1, v1) :: ·)

/-- Python `d.pop(k, default)`: removes the entry when present, never raises. -/
def dpopD {α : Type} : List (Key × α) → Key → List (Key × α)
  | [], _ => []
  | (k1, v1) :: rest, k => if k1 = k then rest else (k1, v1) :: dpopD rest k

/-- Keys of a dict in insertion order. -/
def dkeys {α : Type} (d : List (Key × α)) : List Key := d.map Prod.fst

/-! Embedding of Python `set` over keys: duplicate-free list, one fixed
iteration order standing for Python's unspecified set order. -/

abbrev SSet := List Key

/-- Deduplication keeping the first occurrence of each element, i.e. the
insertion order of `set(xs)`. -/
def sdedup {α : Type} [DecidableEq α] : List α → List α
  | [] => []
  | a :: l => a :: (sdedup l).filter (· ≠ a)

/-- Python set difference `a - b`. -/
def sdiff (a b : SSet) : SSet := a.filter (· ∉ b)

/-- Python set intersection `a & b`. -/
def sinter (a b : SSet) : SSet := a.filter (· ∈ b)

/-- Python in-place set union `a |= b`. -/
def sunion (a b : SSet) : SSet := a ++ b.filter (· ∉ a)

/-- Python `s.add(x)`. -/
def sadd (s : SSet) (x : Key) : SSet := if x ∈ s then s else s ++ [x]

/-- Python `s.remove(x)`; `none` models the `KeyError` on a missing element. -/
def sremove (s : SSet) (x : Key) : Option SSet :=
  if x ∈ s then some (s.filter (· ≠ x)) else none

/-- Python `s.discard(x)`. -/
def sdiscard (s : SSet) (x : Key) : SSet := s.filter (· ≠ x)

/-- A task graph: a dict from keys to values. -/
abbrev Graph := List (Key × PyVal)

end Dag

namespace Dag

/-! Source `get_dependencies` (task.py lines 145-198): a breadth-first work
list.  Task tuples contribute their arguments (not the callable), lists
contribute their elements, anything else is a candidate key and is collected
iff it is hashable and a key of the graph (the `TypeError` on unhashable
values is swallowed).  There are no dict values in this universe. -/

/-- Candidate-key test of the work loop's `else` branch. -/
def depsLeaf (dsk : Graph) (w : PyVal) : List Key :=
  if ishashable w && dmem dsk w then [w] else []

/-- One work item's immediate contribution: collected keys and new work. -/
def depsStep (dsk : Graph) : PyVal → List Key × List PyVal
  | .tup (f :: args) =>
      if pycallable f then ([], args) else (depsLeaf dsk (.tup (f :: args)), [])
  | .list es => ([], es)
  | w => (depsLeaf dsk w, [])

mutual

/-- Structural size of a value (the derived `sizeOf` of the nested inductive
is not executable, so a hand-rolled measure is used). -/
def psize : PyVal → Nat
  | .str _ => 1
  | .int _ => 1
  | .fn _ => 1
  | .tup es => 1 + psizeList es
  | .list es => 1 + psizeList es

/-- Combined structural size of a list of values. -/
def psizeList : List PyVal → Nat
  | [] => 0
  | a :: l => psize a + psizeList l

end

/-- Combined size of a work list, the termination measure. -/
def sizeW (l : List PyVal) : Nat := (l.map psize).sum

theorem sizeW_eq_psizeList (l : List PyVal) : sizeW l = psizeList l := by
  induction l with
  | nil => simp [sizeW, psizeList]
  | cons a l ih => simp only [sizeW, psizeList, List.map, List.sum_cons] at *; omega

theorem psize_pos (v : PyVal) : 0 < psize v := by
  cases v <;> simp [psize]

theorem depsStep_snd_size (dsk : Graph) (w : PyVal) :
    sizeW (depsStep dsk w).2 + 1 ≤ psize w := by
  match w with
  | .tup (f :: args) =>
      by_cases hf : pycallable f
      · have h1 := sizeW_eq_psizeList args
        have h2 := psize_pos f
        simp only [depsStep, hf, if_pos, psize, psizeList]
        omega
      · simp only [depsStep, hf, Bool.false_eq_true, if_neg, not_false_iff,
          sizeW, List.map, List.sum_nil]
        have := psize_pos (PyVal.tup (f :: args))
        omega
  | .tup [] => simp [depsStep, sizeW, psize, psizeList]
  | .list es =>
      have h1 := sizeW_eq_psizeList es
      simp only [depsStep, psize]
      omega
  | .str s => simp [depsStep, sizeW, psize]
  | .int n => simp [depsStep, sizeW, psize]
  | .fn i => simp [depsStep, sizeW, psize]

theorem sizeW_round_le (dsk : Graph) (work : List PyVal) :
    sizeW ((work.map fun x => (depsStep dsk x).2).flatten) + work.length ≤ sizeW work := by
  induction work with
  | nil => simp [sizeW]
  | cons w rest ih =>
      have hw := depsStep_snd_size dsk w
      simp only [List.map, List.flatten, List.length] at *
      have : sizeW ((depsStep dsk w).2 ++ (rest.map fun x => (depsStep dsk x).2).flatten)
          = sizeW (depsStep dsk w).2 + sizeW ((rest.map fun x => (depsStep dsk x).2).flatten) := by
        simp [sizeW]
      rw [this]
      simp only [sizeW, List.map, List.sum_cons] at *
      omega

/-- Source `get_dependencies` work loop with explicit fuel (one unit per
round); `sizeW work + 1` rounds always suffice, so the fuel never runs out
at the use sites below.  Fuel keeps the definition structurally recursive,
hence executable by the kernel. -/
def getDepsWorkF (dsk : Graph) : Nat → List PyVal → List Key
  | 0, _ => []
  | _ + 1, [] => []
  | fuel + 1, w :: rest =>
      (((w :: rest).map fun x => (depsStep dsk x).1).flatten) ++
        getDepsWorkF dsk fuel (((w :: rest).map fun x => (depsStep dsk x).2).flatten)

theorem getDepsWorkF_fuel (dsk : Graph) :
    ∀ fuel fuel2 work, sizeW work < fuel → sizeW work < fuel2 →
      getDepsWorkF dsk fuel work = getDepsWorkF dsk fuel2 work := by
  intro fuel
  induction fuel with
  | zero => intro fuel2 work h; omega
  | succ n ih =>
      intro fuel2 work h h2
      match fuel2, work with
      | 0, _ => omega
      | m + 1, [] => rfl
      | m + 1, w :: rest =>
          have hr := sizeW_round_le dsk (w :: rest)
          simp only [getDepsWorkF]
          congr 1
          exact ih m (((w :: rest).map fun x => (depsStep dsk x).2).flatten)
            (by simp only [List.length] at hr; omega) (by simp only [List.length] at hr; omega)

/-- Source `get_dependencies(dsk, task=v, as_list=True)`. -/
def getDepsL (dsk : Graph) (v : PyVal) : List Key :=
  getDepsWorkF dsk (sizeW [v] + 1) [v]

/-- Source `get_dependencies(dsk, task=v)` (set result, first-occurrence
order standing for Python's set order). -/
def getDepsS (dsk : Graph) (v : PyVal) : SSet := sdedup (getDepsL dsk v)

/-- Source `get_dependencies(dsk, key, as_list=True)`; `none` models the
`KeyError` when `key` is not in the graph. -/
def get_dependencies (dsk : Graph) (k : Key) : Option (List Key) :=
  (dlookup dsk k).map (getDepsL dsk)

end Dag

namespace Dag

/-! Evaluator primitives from task.py. -/

mutual

/-- Source `_execute_task(arg, cache)` (task.py lines 65-98), parameterized by
the interpretation `app` of callables.  Lists map elementwise; tasks evaluate
their arguments and apply the function; any other hashable value present in
the cache resolves to its cached result; everything else passes through. -/
def execute_task (app : Nat → List PyVal → PyVal) (cache : Graph) : PyVal → PyVal
  | .list es => .list (executeList app cache es)
  | .tup (.fn i :: args) => app i (executeList app cache args)
  | v =>
      if ishashable v then
        match dlookup cache v with
        | some r => r
        | none => v
      else v

/-- Elementwise evaluation of a list of values. -/
def executeList (app : Nat → List PyVal → PyVal) (cache : Graph) :
    List PyVal → List PyVal
  | [] => []
  | a :: l => execute_task app cache a :: executeList app cache l

end

mutual

/-- Contribution of one item to `flatten`: lists recurse, all else is a
leaf. -/
def flattenV : PyVal → List PyVal
  | .list es => flattenL es
  | x => [x]

/-- Source `flatten(seq)` restricted to its use sites: leaves of nested
lists; strings and tuples are leaves. -/
def flattenL : List PyVal → List PyVal
  | [] => []
  | a :: l => flattenV a ++ flattenL l

end

mutual

/-- Source `lists_to_tuples(res, keys)` (task.py lines 59-62). -/
def lists_to_tuples : PyVal → PyVal → PyVal
  | res, .list ks =>
      (match res with
       | .list rs => .tup (listsToTuplesZip rs ks)
       | r => r)
  | res, _ => res

/-- Pairwise `lists_to_tuples` over `zip(res, keys)`. -/
def listsToTuplesZip : List PyVal → List PyVal → List PyVal
  | r :: rs, k :: ks => lists_to_tuples r k :: listsToTuplesZip rs ks
  | _, _ => []

end

end Dag

namespace Dag

/-! Source `_toposort` (task.py lines 305-373): iterative depth-first search
with a node stack (modelled head-as-top), a `seen` set of open nodes and a
`completed` set. -/

/-- Dependency map in set form. -/
abbrev DepsS := List (Key × SSet)

/-- Cycle reconstruction (task.py lines 351-355): pop the stack down to the
re-encountered node and reverse.  In every reachable state `nxt` occurs in
`nodes` (it is an open node), which the source implicitly assumes. -/
def buildCycle (nxt : Key) (nodes : List Key) : List Key :=
  nxt :: (nodes.takeWhile (· ≠ nxt)).reverse ++ [nxt]

/-- Scan of `dependencies[cur]` (task.py lines 346-360): skip completed
dependencies, raise on a seen one, collect the rest as the next nodes. -/
def scanDeps (completed seen : SSet) (nodes : List Key) :
    List Key → Except (List Key) (List Key)
  | [] => .ok []
  | nxt :: rest =>
      if nxt ∈ completed then scanDeps completed seen nodes rest
      else if nxt ∈ seen then .error (buildCycle nxt nodes)
      else
        match scanDeps completed seen nodes rest with
        | .error c => .error c
        | .ok ns => .ok (nxt :: ns)

/-- State of the traversal. -/
structure TopoSt where
  ordered : List Key
  completed : SSet
  seen : SSet
  deriving Repr

/-- Inner `while nodes` loop of `_toposort`.  The stack is head-as-top;
`none` models fuel exhaustion or a `KeyError` on `dependencies[cur]`. -/
def topoLoop (deps : DepsS) : Nat → TopoSt → List Key → Option (Except (List Key) TopoSt)
  | 0, _, _ => none
  | _ + 1, st, [] => some (.ok st)
  | fuel + 1, st, cur :: rest =>
      if cur ∈ st.completed then topoLoop deps fuel st rest
      else
        let seen1 := sadd st.seen cur
        match dlookup deps cur with
        | none => none
        | some dc =>
            match scanDeps st.completed seen1 (cur :: rest) dc with
            | .error cyc => some (.error cyc)
            | .ok next =>
                if next.isEmpty then
                  topoLoop deps fuel
                    { ordered := st.ordered ++ [cur],
                      completed := sadd st.completed cur,
                      seen := sdiscard seen1 cur } rest
                else topoLoop deps fuel { st with seen := seen1 } (next.reverse ++ cur :: rest)

/-- Outer `for key in keys` loop of `_toposort`. -/
def topoKeys (deps : DepsS) (fuel : Nat) : TopoSt → List Key → Option (Except (List Key) TopoSt)
  | st, [] => some (.ok st)
  | st, k :: ks =>
      if k ∈ st.completed then topoKeys deps fuel st ks
      else
        match topoLoop deps fuel st [k] with
        | none => none
        | some (.error c) => some (.error c)
        | some (.ok st2) => topoKeys deps fuel st2 ks

/-- Set-form dependencies of every graph key, as built by `_toposort` when
`dependencies` is not supplied. -/
def graphDepsS (dsk : Graph) : DepsS :=
  dsk.map fun kv => (kv.1, getDepsS dsk kv.2)

/-- Source `toposort(dsk, dependencies)`: the ordered key list, or the
detected cycle as the error payload of the raised `RuntimeError`. -/
def toposortF (fuel : Nat) (dsk : Graph) (depsOpt : Option DepsS) :
    Option (Except (List Key) (List Key)) :=
  (topoKeys (depsOpt.getD (graphDepsS dsk)) fuel ⟨[], [], []⟩ (dkeys dsk)).map
    (·.map TopoSt.ordered)

/-- Source `getcycle(d, keys)`: first detected cycle, `[]` when none. -/
def getcycleF (fuel : Nat) (d : Graph) (keys : List Key) : Option (List Key) :=
  match topoKeys (graphDepsS d) fuel ⟨[], [], []⟩ keys with
  | none => none
  | some (.error c) => some c
  | some (.ok _) => some []

/-- Source `isdag(d, keys)`. -/
def isdagF (fuel : Nat) (d : Graph) (keys : List Key) : Option Bool :=
  (getcycleF fuel d keys).map List.isEmpty

end Dag

namespace Dag

/-! Source `get` (task.py lines 101-142). -/

/-- Errors surfaced by the evaluator: the explicit missing-output
`KeyError`, the cycle `RuntimeError` raised by `_toposort`, and a `KeyError`
from `dsk[key]` over caller-supplied sort keys. -/
inductive PyErr where
  | missingOutput (k : Key)
  | cycle (path : List Key)
  | keyError (k : Key)
  deriving Repr, DecidableEq

/-- Cache-filling loop `for key in sortkeys: ...`. -/
def evalKeys (app : Nat → List PyVal → PyVal) (dsk : Graph) :
    List Key → Graph → Except PyErr Graph
  | [], cache => .ok cache
  | k :: ks, cache =>
      match dlookup dsk k with
      | none => .error (.keyError k)
      | some task => evalKeys app dsk ks (dinsert cache k (execute_task app cache task))

/-- Source `get(dsk, out, cache, sortkeys)`: checks that every requested
output is a key of the graph, topologically sorts when no `sortkeys` are
supplied, fills the cache in order, evaluates `out` and restores tuple
shape for list-shaped requests.  `none` is fuel exhaustion (only the
topological sort consumes fuel). -/
def getF (app : Nat → List PyVal → PyVal) (fuel : Nat) (dsk : Graph) (out : PyVal)
    (cacheOpt : Option Graph) (sortkeysOpt : Option (List Key)) :
    Option (Except PyErr PyVal) :=
  let outKeys := match out with
    | .list es => flattenL es
    | v => [v]
  match outKeys.find? (fun k => ! dmem dsk k) with
  | some k => some (.error (.missingOutput k))
  | none =>
      let cache := cacheOpt.getD []
      let sortRes : Option (Except (List Key) (List Key)) :=
        match sortkeysOpt with
        | some sk => some (.ok sk)
        | none => toposortF fuel dsk none
      match sortRes with
      | none => none
      | some (.error c) => some (.error (.cycle c))
      | some (.ok sortkeys) =>
          match evalKeys app dsk sortkeys cache with
          | .error e => some (.error e)
          | .ok cache2 =>
              let result := execute_task app cache2 out
              some (.ok (match out with
                | .list _ => lists_to_tuples result out
                | _ => result))

/-- Standard interpretation of the callables used in concrete examples:
`fn 0` is `inc`, `fn 1` is `add`; anything else collects its arguments. -/
def applyStd : Nat → List PyVal → PyVal
  | 0, [.int n] => .int (n + 1)
  | 1, [.int a, .int b] => .int (a + b)
  | _, args => .list args

end Dag

namespace Dag

/-! Source `subs(task, key, val)` (task.py lines 262-302).  On this value
universe Python's comparison machinery collapses: `type(arg) is type(key)`
plus elementwise type-equal comparison (for sized keys) or the
`TypeError`-fallback plain `==` (for unsized ones) is exactly structural
equality.  The embedding keeps the runtime-type test explicit where the
source performs it. -/

mutual

/-- Source `subs` with an explicit position mode.  `argPos = false` is the
top level of `subs(task, key, val)`; `argPos = true` is a task-argument
position.  On this value universe Python's two comparison routes (plain
`==` at the top level and for unsized keys via the `TypeError` fallback;
elementwise type-equal comparison for sized keys in argument position)
coincide with structural equality, so the two modes differ only in one
place the source also distinguishes: a *list* in argument position is
mapped over without first being compared against the key, whereas the top
level compares it first. -/
def subsM (argPos : Bool) (task key val : PyVal) : PyVal :=
  match task with
  | .tup es =>
      if istask (.tup es) then .tup (subsL 1 es key val)
      else if PyVal.typeOf (.tup es) = key.typeOf ∧ PyVal.tup es = key then val
      else .tup es
  | .list es =>
      if argPos = false ∧ PyVal.typeOf (.list es) = key.typeOf ∧ PyVal.list es = key then val
      else .list (subsL 0 es key val)
  | t => if t.typeOf = key.typeOf ∧ t = key then val else t

/-- List traversals of `subs`: mode `1` is `task[1:]` with the function
slot still at the head (kept untouched, then arguments in mode `2`); mode
`2` walks task arguments; mode `0` maps full `subs` over list elements. -/
def subsL (m : Nat) : List PyVal → PyVal → PyVal → List PyVal
  | [], _, _ => []
  | x :: rest, key, val =>
      match m with
      | 1 => x :: subsL 2 rest key val
      | 2 => subsM true x key val :: subsL 2 rest key val
      | _ => subsM false x key val :: subsL 0 rest key val

end

/-- Source `subs(task, key, val)` (the top-level entry point). -/
def subs (task key val : PyVal) : PyVal := subsM false task key val

/-- List test used to state that a key is not a (unhashable) Python list. -/
def PyVal.isList : PyVal → Bool
  | .list _ => true
  | _ => false

mutual

/-- Modelled from the specification's description of substitution, as
amended: an occurrence is replaced iff it is not itself a task and equals
the key (equal value of identical runtime type); task-shaped occurrences
are traversed (function slot untouched), never compared; lists are
traversed elementwise; everything else is unchanged. -/
def specSubs (t key val : PyVal) : PyVal :=
  if istask t = false ∧ t = key then val
  else
    match t with
    | .tup es => if istask (.tup es) then .tup (specSubsL true es key val) else .tup es
    | .list es => .list (specSubsL false es key val)
    | t => t

/-- Elementwise `specSubs`; `skipHead` protects the function slot of a
task. -/
def specSubsL (skipHead : Bool) : List PyVal → PyVal → PyVal → List PyVal
  | [], _, _ => []
  | x :: rest, key, val =>
      (if skipHead then x else specSubs x key val) :: specSubsL false rest key val

end

end Dag

namespace Dag

/-! Source `cull(dsk, keys)` (optimization.py lines 14-58): breadth-first
work list over `list(set(flatten(keys)))`. -/

/-- State of the cull loop. -/
structure CullSt where
  seen : SSet
  out : Graph
  depsD : List (Key × List Key)

/-- Inner `for d in dependencies_k` loop: returns the grown `seen` set and
the freshly discovered keys in discovery order. -/
def collectFresh (seen : SSet) : List Key → SSet × List Key
  | [] => (seen, [])
  | d :: ds =>
      if d ∈ seen then collectFresh seen ds
      else
        let p := collectFresh (seen ++ [d]) ds
        (p.1, d :: p.2)

/-- Inner `for k in work` loop: absorbs each work key, recording its value
and dependency list, and accumulates the next work list. -/
def cullInner (dsk : Graph) : List Key → CullSt → Option (CullSt × List Key)
  | [], st => some (st, [])
  | k :: rest, st =>
      match dlookup dsk k with
      | none => none
      | some v =>
          let dk := getDepsL dsk v
          let p := collectFresh st.seen dk
          match cullInner dsk rest
              { seen := p.1, out := dinsert st.out k v, depsD := dinsert st.depsD k dk } with
          | none => none
          | some (st2, nw) => some (st2, p.2 ++ nw)

/-- Outer `while work` loop. -/
def cullLoop (dsk : Graph) : Nat → List Key → CullSt → Option (Graph × List (Key × List Key))
  | 0, _, _ => none
  | _ + 1, [], st => some (st.out, st.depsD)
  | fuel + 1, work, st =>
      match cullInner dsk work st with
      | none => none
      | some (st2, nw) => cullLoop dsk fuel nw st2

/-- Source `cull(dsk, keys)`. -/
def cull (fuel : Nat) (dsk : Graph) (keys : List Key) :
    Option (Graph × List (Key × List Key)) :=
  cullLoop dsk fuel (sdedup (flattenL keys)) ⟨[], [], []⟩

end Dag

namespace Dag

/-! Key renamers.  `key_split` lives in `flash/core/serve/dag/utils.py`,
which is not part of the supplied sources, so it is modelled from the
specification. -/

mutual

/-- Modelled from the spec: `key_split(k)` returns, for strings, the portion
before the first `-`/`#`/numeric suffix; for tuples, `key_split(k[0])`;
other key shapes do not reach it through the renamers. -/
def key_split : Key → String
  | .str s => String.mk (s.toList.takeWhile fun c => c ≠ '-' ∧ c ≠ '#' ∧ ¬ c.isDigit)
  | .tup es => key_splitHead es
  | _ => ""

/-- Split of the head of a tuple key. -/
def key_splitHead : List PyVal → String
  | x :: _ => key_split x
  | [] => ""

end

/-- Modelled from the spec: a fixed stand-in for Python's process-randomized
string hash; it only selects the truncation suffix of over-long fused key
names and no theorem depends on its values. -/
def pyHashStr (s : String) : Nat :=
  s.foldl (fun h c => h * 31 + c.toNat) 7

/-- First four hex digits of the hash (`f"{hash(key_name):x}"[:4]`). -/
def hexPrefix4 (n : Nat) : String := String.mk ((Nat.toDigits 16 n).take 4)

/-- Source `_enforce_max_key_limit` with the 5-character hash-suffix
allowance already subtracted from the limit. -/
def enforceMaxKeyLimit (maxLen : Nat) (name : String) : String :=
  if name.length > maxLen then name.take maxLen ++ "-" ++ hexPrefix4 (pyHashStr name)
  else name

/-- Python string comparison (code-point lexicographic), phrased on the
character lists so that it evaluates inside the kernel. -/
def pyStrLe (a b : String) : Prop := ¬ b.data < a.data

instance : DecidableRel pyStrLe := fun _ _ => instDecidableNot

/-- Source `default_fused_keys_renamer(keys)` (optimization.py lines
366-401) at its default `max_fused_key_length=120`:  `first_key` is the last
element (the surviving root); the sorted set of split names of the other
absorbed keys, minus the root's split name, is joined with `-` and the raw
root name appended; tuple roots keep their coordinates; `None` for other key
shapes (and for the empty list, on which the source raises
`StopIteration`). -/
def default_fused_keys_renamer (keys : List Key) : Option Key :=
  match keys.getLast? with
  | none => none
  | some first =>
      let it := keys.dropLast.reverse
      match first with
      | .str s =>
          let firstName := key_split first
          let names := (sdedup (it.map key_split)).filter (· ≠ firstName)
          let sortedNames := (names.insertionSort pyStrLe) ++ [s]
          some (.str (enforceMaxKeyLimit 115 (String.intercalate "-" sortedNames)))
      | .tup (.str s0 :: restT) =>
          let firstName := key_split first
          let names := (sdedup (it.map key_split)).filter (· ≠ firstName)
          let sortedNames := (names.insertionSort pyStrLe) ++ [s0]
          some (.tup (.str (enforceMaxKeyLimit 115 (String.intercalate "-" sortedNames)) :: restT))
      | _ => none

end Dag

namespace Dag

/-! Source `fuse` (optimization.py lines 416-798).  The embedding fixes
`fuse_subgraphs=False` (the default); the subgraph pass is embedded
separately.  Heuristic parameters are exact rationals; the float
`math.log` used only to *default* `max_height`/`max_width` is passed in as
an abstract function `logA`, since no theorem below depends on its values
beyond coarse bounds. -/

/-- Exact rational arithmetic on unnormalized fractions.  The standard-
library rationals normalize through `Nat.gcd`, whose kernel reduction is
blocked, so the heuristic parameters of `fuse` use this executable fraction
type instead.  Invariant at every use site: positive denominators (heights
are at least 1; caller-supplied parameters are built with `Frac.ofInt` or
explicit positive denominators). -/
structure Frac where
  num : Int
  den : Int
  deriving Repr, DecidableEq

/-- Embeds an integer. -/
def Frac.ofInt (n : Int) : Frac := ⟨n, 1⟩

/-- Fraction addition (no normalization). -/
def Frac.add (a b : Frac) : Frac := ⟨a.num * b.den + b.num * a.den, a.den * b.den⟩

/-- Fraction multiplication. -/
def Frac.mul (a b : Frac) : Frac := ⟨a.num * b.num, a.den * b.den⟩

/-- Fraction division, keeping the denominator positive when the divisor is
negative. -/
def Frac.div (a b : Frac) : Frac :=
  if b.num < 0 then ⟨-(a.num * b.den), a.den * (-b.num)⟩ else ⟨a.num * b.den, a.den * b.num⟩

/-- Comparison `a ≤ b` (valid for positive denominators). -/
def Frac.le (a b : Frac) : Bool := a.num * b.den ≤ b.num * a.den

/-- Strict comparison `a < b`. -/
def Frac.lt (a b : Frac) : Bool := a.num * b.den < b.num * a.den

/-- Python falsiness of a float: `not x` iff `x == 0.0`. -/
def Frac.isZero (a : Frac) : Bool := a.num == 0

/-- Value equality of fractions (cross multiplication). -/
def Frac.veq (a b : Frac) : Bool := a.num * b.den == b.num * a.den

/-- Python `int(x)`: truncation toward zero (`Int` division truncates
toward zero for the positive denominators maintained here). -/
def pyInt (q : Frac) : Int := q.num / q.den

/-- Per-node fusion metrics: the tuples pushed on `info_stack`
(`(key, task, fused_keys, height, width, num_nodes, fudge, edges)`).
`width` is rational because a rejected subtree's width is clamped to the
float `max_width`. -/
structure FInfo where
  key : Key
  task : PyVal
  fkeys : Option (List Key)
  height : Nat
  width : Frac
  numNodes : Nat
  fudge : Int
  edges : SSet
  deriving Repr

/-- State threaded through `fuse`'s main loop: the working graph `rv`, the
set-form dependency dict, the reducible set, the fused-tree registry and the
two traversal stacks (head = top). -/
structure FuseSt where
  rv : Graph
  deps : DepsS
  reducible : SSet
  fusedTrees : List (Key × List Key)
  infoStack : List FInfo
  childrenStack : List Key
  deriving Repr

/-- Resolved heuristic parameters. -/
structure FuseParams where
  aw : Frac
  mw : Frac
  mh : Frac
  mdne : Frac
  rename : Bool
  deriving Repr

/-- Climb to the top of the reducible chain:
`while parent in reducible: parent = rdeps[parent][0]`. -/
def fuseClimb (rdeps : List (Key × List Key)) : Nat → SSet → Key → Option Key
  | 0, _, _ => none
  | fuel + 1, reducible, k =>
      if k ∈ reducible then
        match dlookup rdeps k with
        | some (p :: _) => fuseClimb rdeps fuel reducible p
        | _ => none
      else some k

/-- Depth-first descent (`while children` at optimization.py 560-566): from
the stack top, repeatedly push the reducible children until a leaf of the
candidate region is reached; returns the updated `parent` variable, the leaf
(already popped) and the remaining stack. -/
def fuseDescend (deps : DepsS) (reducible : SSet) :
    Nat → Key → List Key → Option (Key × Key × List Key)
  | 0, _, _ => none
  | _ + 1, _, [] => none
  | fuel + 1, parent, child :: rest =>
      match dlookup deps child with
      | none => none
      | some dc =>
          let children := sinter reducible dc
          if children.isEmpty then some (parent, child, rest)
          else fuseDescend deps reducible fuel child (children.reverse ++ child :: rest)

/-- Accumulator of the multi-child metrics loop (optimization.py 677-706). -/
structure MultiAcc where
  height : Nat
  width : Frac
  numSingle : Nat
  numNodes : Nat
  fudge : Int
  childrenEdges : SSet
  maxNumEdges : Nat
  deriving Repr

/-- Metrics aggregation over the popped children info entries, in stack
order. -/
def multiMetrics : List FInfo → MultiAcc → MultiAcc
  | [], acc => acc
  | i :: rest, acc =>
      multiMetrics rest
        { height := if i.height = 1 then acc.height else max acc.height i.height,
          numSingle := if i.height = 1 then acc.numSingle + 1 else acc.numSingle,
          width := Frac.add acc.width i.width,
          numNodes := acc.numNodes + i.numNodes,
          fudge := acc.fudge + i.fudge,
          childrenEdges := sunion acc.childrenEdges i.edges,
          maxNumEdges := max acc.maxNumEdges i.edges.length }

/-- State of the multi-child acceptance loop (optimization.py 722-732). -/
structure MAccSt where
  val : PyVal
  childrenDeps : SSet
  rv : Graph
  deps : DepsS
  reducible : SSet
  ft : List (Key × List Key)
  childKeys : List Key

/-- Multi-child acceptance: substitute each child into the parent value,
delete it from the working graph, pop its dependency entry and absorb it,
remove it from the reducible set, and collect its fused keys. -/
def multiAcceptFold (rename : Bool) : List FInfo → MAccSt → Option MAccSt
  | [], s => some s
  | i :: rest, s =>
      match derase s.rv i.key, dlookup s.deps i.key, sremove s.reducible i.key with
      | some rv2, some di, some red2 =>
          multiAcceptFold rename rest
            { val := subs s.val i.key i.task,
              childrenDeps := sunion s.childrenDeps di,
              rv := rv2,
              deps := dpopD s.deps i.key,
              reducible := red2,
              ft := if rename then dpopD s.ft i.key else s.ft,
              childKeys := if rename then s.childKeys ++ i.fkeys.getD [] else s.childKeys }
      | _, _, _ => none

/-- Multi-child rejection: restore each child to the working graph and drop
it from the reducible set. -/
def multiRejectFold : List FInfo → Graph → SSet → Option (Graph × SSet)
  | [], rv, red => some (rv, red)
  | i :: rest, rv, red =>
      match sremove red i.key with
      | some red2 => multiRejectFold rest (dinsert rv i.key i.task) red2
      | none => none

/-- The `while True` region loop of `fuse` (optimization.py 556-784),
carrying the loop variable `parent`. -/
def fuseRegion (dsk : Graph) (rdeps : List (Key × List Key)) (P : FuseParams) :
    Nat → Key → FuseSt → Option FuseSt
  | 0, _, _ => none
  | fuel + 1, parent, st =>
      match st.childrenStack with
      | [] => none
      | child :: csRest =>
        if child ≠ parent then
          match fuseDescend st.deps st.reducible (fuel + 1) parent st.childrenStack with
          | none => none
          | some (parent2, leaf, cs2) =>
              match dlookup st.rv leaf, dlookup st.deps leaf with
              | some task, some dleaf =>
                  let info : FInfo :=
                    { key := leaf, task := task,
                      fkeys := if P.rename then some [leaf] else none,
                      height := 1, width := Frac.ofInt 1, numNodes := 1, fudge := 0,
                      edges := sdiff dleaf st.reducible }
                  fuseRegion dsk rdeps P fuel parent2
                    { st with childrenStack := cs2, infoStack := info :: st.infoStack }
              | _, _ => none
        else
          match dlookup st.deps parent with
          | none => none
          | some depsParent =>
            let edges0 := sdiff depsParent st.reducible
            let children := sdiff depsParent edges0
            if children.length = 1 then
              match st.infoStack with
              | [] => none
              | info :: infoRest =>
                let nce : Nat := info.edges.length
                let fudge1 : Int :=
                  if info.fudge > (nce : Int) - 1 ∧ (nce : Int) - 1 ≥ 0 then (nce : Int) - 1
                  else info.fudge
                let edges2 := sunion edges0 info.edges
                let noNew := edges2.length = nce
                let fudge2 : Int := if noNew then fudge1 else fudge1 + 1
                if Frac.le (Frac.div (Frac.ofInt ((info.numNodes : Int) + fudge2))
                      (Frac.ofInt (info.height : Int))) P.aw
                    ∧ (noNew ∨ Frac.lt (Frac.ofInt (info.height : Int)) P.mdne = true) then
                  match dlookup dsk parent, dlookup st.deps info.key, derase st.rv info.key,
                        sremove st.reducible info.key, sremove depsParent info.key with
                  | some parentVal, some childDeps, some rv2, some red2, some dp1 =>
                    let val := subs parentVal info.key info.task
                    let depsParent2 := sunion dp1 childDeps
                    let deps2 := dpopD (dinsert st.deps parent depsParent2) info.key
                    let childKeys := info.fkeys.getD [] ++ [parent]
                    let ft2 :=
                      if P.rename then dpopD (dinsert st.fusedTrees parent childKeys) info.key
                      else st.fusedTrees
                    match csRest with
                    | [] =>
                        some { rv := dinsert rv2 parent val, deps := deps2, reducible := red2,
                               fusedTrees := ft2, infoStack := infoRest, childrenStack := [] }
                    | _ =>
                        let info2 : FInfo :=
                          if noNew then
                            { key := parent, task := val,
                              fkeys := if P.rename then some childKeys else none,
                              height := info.height, width := info.width,
                              numNodes := info.numNodes, fudge := fudge2, edges := edges2 }
                          else
                            { key := parent, task := val,
                              fkeys := if P.rename then some childKeys else none,
                              height := info.height + 1, width := info.width,
                              numNodes := info.numNodes + 1, fudge := fudge2, edges := edges2 }
                        match dlookup rdeps parent with
                        | some (pnext :: _) =>
                            fuseRegion dsk rdeps P fuel pnext
                              { rv := rv2, deps := deps2, reducible := red2, fusedTrees := ft2,
                                infoStack := info2 :: infoRest, childrenStack := csRest }
                        | _ => none
                  | _, _, _, _, _ => none
                else
                  let rv2 := dinsert st.rv info.key info.task
                  match sremove st.reducible info.key with
                  | none => none
                  | some red2 =>
                    match csRest with
                    | [] =>
                        some { st with rv := rv2, reducible := red2,
                                       infoStack := infoRest, childrenStack := [] }
                    | _ =>
                        let fudge3 : Int :=
                          if fudge2 > pyInt (Frac.add P.aw (Frac.ofInt (-1))) then
                            pyInt (Frac.add P.aw (Frac.ofInt (-1)))
                          else fudge2
                        match dlookup rv2 parent, dlookup rdeps parent with
                        | some pv, some (pnext :: _) =>
                            let info2 : FInfo :=
                              { key := parent, task := pv,
                                fkeys := if P.rename then some [parent] else none,
                                height := 1, width := info.width, numNodes := 1,
                                fudge := fudge3, edges := edges2 }
                            fuseRegion dsk rdeps P fuel pnext
                              { st with rv := rv2, reducible := red2,
                                        infoStack := info2 :: infoRest, childrenStack := csRest }
                        | _, _ => none
            else
              let numChildren := children.length
              let childrenInfo :=
                if numChildren = 0 then st.infoStack.reverse
                else (st.infoStack.take numChildren).reverse
              let infoRest :=
                if numChildren = 0 then [] else st.infoStack.drop numChildren
              let A := multiMetrics childrenInfo
                { height := 1, width := Frac.ofInt 0, numSingle := 0, numNodes := 0,
                  fudge := 0, childrenEdges := [], maxNumEdges := 0 }
              let nce : Nat := A.childrenEdges.length
              let fudgeA : Int :=
                A.fudge + min ((numChildren : Int) - 1) (max 0 ((nce : Int) - (A.maxNumEdges : Int)))
              let fudgeB : Int :=
                if fudgeA > (nce : Int) - 1 ∧ (nce : Int) - 1 ≥ 0 then (nce : Int) - 1 else fudgeA
              let edges2 := sunion edges0 A.childrenEdges
              let noNew := edges2.length = nce
              let fudgeC : Int := if noNew then fudgeB else fudgeB + 1
              if Frac.le (Frac.div (Frac.ofInt ((A.numNodes : Int) + fudgeC))
                    (Frac.ofInt (A.height : Int))) P.aw
                  ∧ (Frac.le (Frac.ofInt (A.numSingle : Int)) P.aw ∧ Frac.le A.width P.mw)
                  ∧ (Frac.le (Frac.ofInt (A.height : Int)) P.mh
                     ∧ (noNew ∨ Frac.lt (Frac.ofInt (A.height : Int)) P.mdne = true)) then
                match dlookup dsk parent with
                | none => none
                | some parentVal0 =>
                  match multiAcceptFold P.rename childrenInfo
                      { val := parentVal0, childrenDeps := [], rv := st.rv, deps := st.deps,
                        reducible := st.reducible, ft := st.fusedTrees, childKeys := [] } with
                  | none => none
                  | some s =>
                    let depsParent2 := sunion (sdiff depsParent children) s.childrenDeps
                    let deps2 := dinsert s.deps parent depsParent2
                    let childKeys := s.childKeys ++ [parent]
                    let ft2 := if P.rename then dinsert s.ft parent childKeys else s.ft
                    match csRest with
                    | [] =>
                        some { rv := dinsert s.rv parent s.val, deps := deps2,
                               reducible := s.reducible, fusedTrees := ft2,
                               infoStack := infoRest, childrenStack := [] }
                    | _ =>
                        let info2 : FInfo :=
                          { key := parent, task := s.val,
                            fkeys := if P.rename then some childKeys else none,
                            height := A.height + 1, width := A.width,
                            numNodes := A.numNodes + 1, fudge := fudgeC, edges := edges2 }
                        match dlookup rdeps parent with
                        | some (pnext :: _) =>
                            fuseRegion dsk rdeps P fuel pnext
                              { rv := s.rv, deps := deps2, reducible := s.reducible,
                                fusedTrees := ft2, infoStack := info2 :: infoRest,
                                childrenStack := csRest }
                        | _ => none
              else
                match multiRejectFold childrenInfo st.rv st.reducible with
                | none => none
                | some (rv2, red2) =>
                  match csRest with
                  | [] =>
                      some { st with rv := rv2, reducible := red2,
                                     infoStack := infoRest, childrenStack := [] }
                  | _ =>
                      let width2 : Frac := if Frac.lt P.mw A.width then P.mw else A.width
                      let fudgeD : Int :=
                        if fudgeC > pyInt (Frac.add P.aw (Frac.ofInt (-1))) then
                          pyInt (Frac.add P.aw (Frac.ofInt (-1)))
                        else fudgeC
                      match dlookup rv2 parent, dlookup rdeps parent with
                      | some pv, some (pnext :: _) =>
                          let info2 : FInfo :=
                            { key := parent, task := pv,
                              fkeys := if P.rename then some [parent] else none,
                              height := 1, width := width2, numNodes := 1,
                              fudge := fudgeD, edges := edges2 }
                          fuseRegion dsk rdeps P fuel pnext
                            { st with rv := rv2, reducible := red2,
                                      infoStack := info2 :: infoRest, childrenStack := csRest }
                      | _, _ => none

/-- Outer `while reducible` loop (optimization.py 548-554): peek a reducible
key (`pop` immediately followed by `add`), climb to the region root, seed the
children stack and run the region. -/
def fuseOuter (dsk : Graph) (rdeps : List (Key × List Key)) (P : FuseParams) :
    Nat → FuseSt → Option FuseSt
  | 0, _ => none
  | fuel + 1, st =>
      match st.reducible with
      | [] => some st
      | k :: _ =>
          match fuseClimb rdeps (fuel + 1) st.reducible k with
          | none => none
          | some root =>
              match dlookup st.deps root with
              | none => none
              | some dr =>
                  let cs := (sinter st.reducible dr).reverse ++ [root]
                  match fuseRegion dsk rdeps P (fuel + 1) root { st with childrenStack := cs } with
                  | none => none
                  | some st2 => fuseOuter dsk rdeps P fuel st2

/-- Key-renaming pass (optimization.py 789-796): for each fused tree, insert
the renamed alias when it is fresh and redirect the root to it. -/
def fuseRenameFold (renamer : List Key → Option Key) :
    List (Key × List Key) → Graph → DepsS → Option (Graph × DepsS)
  | [], rv, deps => some (rv, deps)
  | (root, fkeys) :: rest, rv, deps =>
      match renamer fkeys with
      | some aliasKey =>
          if dmem rv aliasKey then fuseRenameFold renamer rest rv deps
          else
            match dlookup rv root, dlookup deps root with
            | some rootVal, some rootDeps =>
                fuseRenameFold renamer rest
                  (dinsert (dinsert rv aliasKey rootVal) root aliasKey)
                  (dinsert (dinsert deps aliasKey rootDeps) root [aliasKey])
            | _, _ => none
      | none => fuseRenameFold renamer rest rv deps

/-- The dependency payload of `fuse`'s return value: `None` (early return
without a caller-supplied mapping), the caller's list-form mapping (early
return), or the set-form mapping. -/
inductive DepsOut where
  | noneD
  | listForm (d : List (Key × List Key))
  | setForm (d : DepsS)
  deriving Repr, DecidableEq

/-- The `rename_keys` argument: a boolean or a callable. -/
inductive RenameArg where
  | bool (b : Bool)
  | func (f : List Key → Option Key)

/-- Value shapes admissible for fusion (optimization.py 523-525): the code
keeps any tuple (task or not), any number, and any string. -/
def fusibleShape : PyVal → Bool
  | .tup _ => true
  | .int _ => true
  | .str _ => true
  | _ => false

/-- Reverse-dependency build (optimization.py 510-517), list values keeping
multiplicity. -/
def addRdeps (k : Key) : List Key → List (Key × List Key) → List (Key × List Key)
  | [], rd => rd
  | v :: vs, rd =>
      addRdeps k vs
        (match dlookup rd v with
         | none => dinsert rd v [k]
         | some l => dinsert rd v (l ++ [k]))

/-- Reverse-dependency dict of a list-form dependency dict. -/
def buildRdeps : List (Key × List Key) → List (Key × List Key) → List (Key × List Key)
  | [], rd => rd
  | (k, vals) :: rest, rd => buildRdeps rest (addRdeps k vals rd)

/-- The reducible set as constructed at optimization.py 519-525: keys with a
single reverse-dependency entry, minus the protected keys (when nonempty),
minus keys whose value shape is not fusible. -/
def fuseReducible (dsk : Graph) (depsL : List (Key × List Key))
    (keysSet : Option SSet) : SSet :=
  let rdeps := buildRdeps depsL []
  let r0 := (rdeps.filter fun kv => kv.2.length = 1).map Prod.fst
  let r1 := match keysSet with
    | some ks => if ks.isEmpty then r0 else sdiff r0 ks
    | none => r0
  dsk.foldl (fun red kv => if fusibleShape kv.2 then red else sdiscard red kv.1) r1

/-- Source `fuse(dsk, keys, dependencies, ave_width, max_width, max_height,
max_depth_new_edges, rename_keys)` with `fuse_subgraphs=False` (the
default).  `logA` abstracts the float `math.log` used when defaulting
`max_height`/`max_width`. -/
def fuseF (logA : Frac → Frac) (fuel : Nat) (dsk : Graph) (keysOpt : Option (List Key))
    (depsOpt : Option (List (Key × List Key))) (awOpt mwOpt mhOpt mdneOpt : Option Frac)
    (renameKeys : RenameArg) : Option (Graph × DepsOut) :=
  let keysSet : Option SSet := keysOpt.map fun ks => sdedup (flattenL ks)
  let aw := awOpt.getD (Frac.ofInt 1)
  let mh := mhOpt.getD (Frac.add ⟨3, 2⟩ (Frac.mul aw (logA (Frac.add aw (Frac.ofInt 1)))))
  let mdne := mdneOpt.getD (Frac.mul aw ⟨3, 2⟩)
  let mw := mwOpt.getD (Frac.add ⟨3, 2⟩ (Frac.mul aw (logA (Frac.add aw (Frac.ofInt 1)))))
  if aw.isZero ∨ mh.isZero then
    some (dsk, match depsOpt with | none => .noneD | some d => .listForm d)
  else
    let keyRenamer : Option (List Key → Option Key) :=
      match renameKeys with
      | .bool true => some default_fused_keys_renamer
      | .bool false => none
      | .func f => some f
    let depsL := depsOpt.getD (dsk.map fun kv => (kv.1, getDepsL dsk kv.2))
    let rdeps := buildRdeps depsL []
    let depsS : DepsS := depsL.map fun kv => (kv.1, sdedup kv.2)
    let reducible := fuseReducible dsk depsL keysSet
    if reducible.isEmpty then some (dsk, .setForm depsS)
    else
      let P : FuseParams :=
        { aw := aw, mw := mw, mh := mh, mdne := mdne, rename := keyRenamer.isSome }
      let st0 : FuseSt :=
        { rv := dsk, deps := depsS, reducible := reducible, fusedTrees := [],
          infoStack := [], childrenStack := [] }
      match fuseOuter dsk rdeps P fuel st0 with
      | none => none
      | some st1 =>
          match keyRenamer with
          | none => some (st1.rv, .setForm st1.deps)
          | some f =>
              match fuseRenameFold f st1.fusedTrees st1.rv st1.deps with
              | none => none
              | some (rv2, deps2) => some (rv2, .setForm deps2)

/-- Rational standing for the Python float `math.log(2)`; only its coarse
bounds ever matter. -/
def log2Q : Frac := ⟨6931471805599453, 10000000000000000⟩

/-- Stand-in for the float `math.log` at the argument values reached in the
concrete runs below (`log(1) = 0`, `log(2)` as a float). -/
def logStd : Frac → Frac := fun q => if Frac.veq q (Frac.ofInt 2) then log2Q else Frac.ofInt 0

end Dag

namespace Dag

/-! Source `SubgraphCallable` (optimization.py lines 870-913) and the chain
selection of `_inplace_fuse_subgraphs` (lines 801-867). -/

/-- Source `SubgraphCallable`: a self-contained graph, an output key, the
ordered input keys, and a display name. -/
structure SubgraphCallable where
  dsk : Graph
  outkey : Key
  inkeys : List Key
  name : String
  deriving Repr

/-- Python set equality `set(a) == set(b)` over key lists. -/
def ssetEq (a b : List Key) : Bool := a.all (· ∈ b) && b.all (· ∈ a)

/-- Source `SubgraphCallable.__eq__`: the type test always holds in the
embedding; names compare as strings, output keys by `==`, input keys as
sets. -/
def SubgraphCallable.eqPy (a b : SubgraphCallable) : Bool :=
  (a.name == b.name) && decide (a.outkey = b.outkey) && ssetEq a.inkeys b.inkeys

/-- Source `SubgraphCallable.__hash__` hashes the triple
`(outkey, tuple(inkeys), name)`; the triple itself is the embedding of the
hash input (Python's integer hash is a fixed function of this triple). -/
def SubgraphCallable.hashFields (a : SubgraphCallable) : Key × List Key × String :=
  (a.outkey, a.inkeys, a.name)

/-- Python `dict(zip(inkeys, args))`. -/
def dictOfZip : List Key → List PyVal → Graph
  | k :: ks, v :: vs => dinsert (dictOfZip ks vs) k v
  | _, _ => []

/-- Source `SubgraphCallable.__call__`: arity check (`ValueError`, modelled
as `none`), then `get(self.dsk, self.outkey, dict(zip(self.inkeys, args)))`. -/
def SubgraphCallable.call (app : Nat → List PyVal → PyVal) (fuel : Nat)
    (a : SubgraphCallable) (args : List PyVal) : Option (Except PyErr PyVal) :=
  if args.length ≠ a.inkeys.length then none
  else getF app fuel a.dsk a.outkey (some (dictOfZip a.inkeys args)) none

/-- Chain discovery shared by `fuse_linear` and `_inplace_fuse_subgraphs`
(optimization.py 804-818): build the `child2parent` map and the
`unfusible` set by scanning every parent's dependency set. -/
def chainScanDeps (keysSet : Option SSet) (parent : Key) (manyChildren : Bool) :
    List Key → List (Key × Key) → SSet → List (Key × Key) × SSet
  | [], c2p, unf => (c2p, unf)
  | child :: rest, c2p, unf =>
      if (match keysSet with | some ks => decide (child ∈ ks) | none => false) then
        chainScanDeps keysSet parent manyChildren rest c2p (sadd unf child)
      else if dmem c2p child then
        chainScanDeps keysSet parent manyChildren rest (dpopD c2p child) (sadd unf child)
      else if manyChildren then
        chainScanDeps keysSet parent manyChildren rest c2p (sadd unf child)
      else if child ∈ unf then
        chainScanDeps keysSet parent manyChildren rest c2p unf
      else chainScanDeps keysSet parent manyChildren rest (dinsert c2p child parent) unf

/-- The `for parent in dsk` loop of the chain scan. -/
def chainScan (dependencies : DepsS) (keysSet : Option SSet) :
    List Key → List (Key × Key) → SSet → Option (List (Key × Key) × SSet)
  | [], c2p, unf => some (c2p, unf)
  | parent :: rest, c2p, unf =>
      match dlookup dependencies parent with
      | none => none
      | some deps =>
          let p := chainScanDeps keysSet parent (deps.length > 1) deps c2p unf
          chainScan dependencies keysSet rest p.1 p.2

/-- Upward chain extension (`while parent in child2parent`, optimization.py
826-829): follow `child2parent`, deleting the traversed entries. -/
def chainUp : Nat → List (Key × Key) → List (Key × Key) → Key → List Key →
    Option (List Key × List (Key × Key) × List (Key × Key))
  | 0, _, _, _, _ => none
  | fuel + 1, c2p, p2c, parent, chain =>
      match dlookup c2p parent with
      | none => some (chain, c2p, p2c)
      | some gp =>
          match derase p2c gp with
          | none => none
          | some p2c2 => chainUp fuel (dpopD c2p parent) p2c2 gp (chain ++ [gp])

/-- Downward chain extension (`while child in parent2child`, optimization.py
831-834). -/
def chainDown : Nat → List (Key × Key) → List (Key × Key) → Key → List Key →
    Option (List Key × List (Key × Key) × List (Key × Key))
  | 0, _, _, _, _ => none
  | fuel + 1, c2p, p2c, child, chain =>
      match dlookup p2c child with
      | none => some (chain, c2p, p2c)
      | some ch2 =>
          match derase c2p ch2 with
          | none => none
          | some c2p2 => chainDown fuel c2p2 (dpopD p2c child) ch2 (chain ++ [ch2])

/-- Main chain-construction loop (`while child2parent`, optimization.py
823-834); `popitem` removes the most recently inserted entry. -/
def buildChains : Nat → List (Key × Key) → List (Key × Key) → List (List Key) →
    Option (List (List Key))
  | 0, _, _, _ => none
  | fuel + 1, c2p, p2c, acc =>
      match c2p.getLast? with
      | none => some acc
      | some (child, parent) =>
          match chainUp fuel c2p.dropLast p2c parent [child, parent] with
          | none => none
          | some (chain1, c2p1, p2c1) =>
              match chainDown fuel c2p1 p2c1 child chain1.reverse with
              | none => none
              | some (chain3, c2p2, p2c2) => buildChains fuel c2p2 p2c2 (acc ++ [chain3])

/-- Chain filter (optimization.py 835-841): keep chains containing at least
two executable tasks. -/
def chainHasTwoTasks (dsk : Graph) : List Key → Nat → Option Bool
  | [], _ => some false
  | k :: rest, n =>
      match dlookup dsk k with
      | none => none
      | some v =>
          let n2 := n + (if istask v then 1 else 0)
          if n2 > 1 then some true else chainHasTwoTasks dsk rest n2

/-- Application of the chain filter to every discovered chain. -/
def filterChains (dsk : Graph) : List (List Key) → Option (List (List Key))
  | [] => some []
  | c :: rest =>
      match chainHasTwoTasks dsk c 0 with
      | none => none
      | some b => (filterChains dsk rest).map fun l => if b then c :: l else l

/-- The chains selected by `_inplace_fuse_subgraphs` on graph `dsk` with
protected keys `keysSet` and dependency sets `dependencies`. -/
def subgraphChains (fuel : Nat) (dsk : Graph) (keysSet : Option SSet)
    (dependencies : DepsS) : Option (List (List Key)) :=
  match chainScan dependencies keysSet (dkeys dsk) [] [] with
  | none => none
  | some (c2p, _) =>
      let p2c := c2p.foldl (fun acc kv => dinsert acc kv.2 kv.1) []
      match buildChains fuel c2p p2c [] with
      | none => none
      | some allChains => filterChains dsk allChains

/-- Python dict comprehension `{k: dsk[k] for k in chain}`. -/
def buildSubgraphAcc (dsk : Graph) : List Key → Graph → Option Graph
  | [], acc => some acc
  | k :: rest, acc =>
      match dlookup dsk k with
      | some v => buildSubgraphAcc dsk rest (dinsert acc k v)
      | none => none

/-- The `SubgraphCallable` built for one chain (optimization.py 844-856):
subgraph over the chain, output at the chain's first key, input keys taken
from the terminal chain key's dependency set. -/
def chainCallable (dsk : Graph) (dependencies : DepsS) (chain : List Key) :
    Option SubgraphCallable :=
  match chain with
  | [] => none
  | outkey :: _ =>
      match chain.getLast? with
      | none => none
      | some term =>
          match dlookup dependencies term, buildSubgraphAcc dsk chain [] with
          | some inkeysSet, some sub =>
              some ⟨sub, outkey, inkeysSet, "subgraph_callable"⟩
          | _, _ => none

end Dag

namespace Dag

/-! Specification-side notions used to state the claims, and the concrete
graphs appearing in counterexamples.  `fn 0` plays `inc`, `fn 1` plays
`add` under `applyStd`. -/

/-- Dependency list of a key (empty when the key is absent). -/
def depsOfKey (dsk : Graph) (k : Key) : List Key :=
  ((dlookup dsk k).map (getDepsL dsk)).getD []

/-- One dependency edge: `v` is a dependency of `u`. -/
def Edge (dsk : Graph) (u v : Key) : Prop := v ∈ depsOfKey dsk u

/-- Reachability along dependency edges (reflexive-transitive). -/
def Reaches (dsk : Graph) (u v : Key) : Prop := Relation.ReflTransGen (Edge dsk) u v

/-- A dependency cycle through `k`. -/
def OnCycle (dsk : Graph) (k : Key) : Prop := Relation.TransGen (Edge dsk) k k

/-- A topological order of the whole graph: a permutation of the keys in
which every key appears after each of its dependencies. -/
def TopoOrder (dsk : Graph) (l : List Key) : Prop :=
  l.Perm (dkeys dsk) ∧
    ∀ i j : Fin l.length, l.get i ∈ depsOfKey dsk (l.get j) → (i : Nat) < (j : Nat)

mutual

/-- Specification-side reference list of a value: the keys referenced
anywhere inside it (depth-first, preserving multiplicity), where a
reference is a hashable leaf that is a key of the graph. -/
def refsD (dsk : Graph) : PyVal → List Key
  | .tup es =>
      if istask (.tup es) then refsDList dsk true es else depsLeaf dsk (.tup es)
  | .list es => refsDList dsk false es
  | w => depsLeaf dsk w

/-- References of a list of values, in order; `skipHead` drops a task's
function slot. -/
def refsDList (dsk : Graph) (skipHead : Bool) : List PyVal → List Key
  | [] => []
  | a :: l => (if skipHead then [] else refsD dsk a) ++ refsDList dsk false l

end

/-- Distinct dependents of a key: the graph keys whose value references it. -/
def dependents (dsk : Graph) (k : Key) : List Key :=
  (dsk.filter fun kv => decide (k ∈ getDepsS dsk kv.2)).map Prod.fst

/-- The claim's candidate-value shapes: a task, a literal number, or a
literal string. -/
def claimedShape : PyVal → Bool
  | v => istask v || (match v with | .int _ => true | .str _ => true | _ => false)

/-- The fusion-candidate set exactly as claim C6 words it: one dependent,
not protected, value a task / number / string. -/
def claimedCandidate (dsk : Graph) (keysSet : Option SSet) (k : Key) : Bool :=
  decide ((dependents dsk k).length = 1) &&
    (match keysSet with | some ks => decide (k ∉ ks) | none => true) &&
    (match dlookup dsk k with
     | some v => claimedShape v
     | none => false)

/-- Graph of claim C1's failing input: `{'q': 7, 'p': (inc, 'q'),
'r': 'q-p'}` — the value of `r` is a plain string that collides with the
name the fused `q`-`p` chain will receive. -/
def exG1 : Graph :=
  [(.str "q", .int 7), (.str "p", .tup [.fn 0, .str "q"]), (.str "r", .str "q-p")]

/-- Graph of claim C6's counterexample: `a` is referenced twice by a single
dependent, `t` holds a non-task tuple, `r` holds an (opaque) list. -/
def exG6 : Graph :=
  [(.str "a", .int 1), (.str "b", .tup [.fn 1, .str "a", .str "a"]),
   (.str "t", .tup [.str "u", .str "v"]), (.str "r", .list [.str "t"])]

/-- Graph of claim C4's counterexample: `b` depends on both `c1` and `c`,
and `c` depends back on `b`; the cycle is `b → c → b`, and `c1` is a plain
leaf not on it. -/
def exGc : Graph :=
  [(.str "b", .tup [.fn 7, .str "c1", .str "c"]),
   (.str "c", .tup [.fn 8, .str "b"]), (.str "c1", .int 1)]

/-- Cyclic graph of claim C9's counterexample. -/
def exG9 : Graph := [(.str "x", .tup [.fn 0, .str "x"])]

/-- List-form dependency dict of a graph, as `fuse` computes it when none is
supplied. -/
def graphDepsL (dsk : Graph) : List (Key × List Key) :=
  dsk.map fun kv => (kv.1, getDepsL dsk kv.2)

end Dag

namespace Dag

/-! Characterization of `subs` (claim C5). -/

theorem list_ne_of_isList_false {k : Key} (hk : PyVal.isList k = false)
    (es : List PyVal) : PyVal.list es ≠ k := by
  cases k <;> simp_all [PyVal.isList]

mutual

theorem subsM_eq_spec : ∀ (mode : Bool) (t k v : PyVal), PyVal.isList k = false →
    subsM mode t k v = specSubs t k v
  | mode, .tup es, k, v, hk => by
      by_cases h : istask (.tup es)
      · have hl := subsL_eq_spec 1 es k v hk
        simp only [subsM, specSubs, h, if_pos, Bool.true_eq_false, false_and, if_neg,
          not_false_iff, hl]
        rfl
      · by_cases he : PyVal.tup es = k
        · subst he
          simp [subsM, specSubs, h]
        · simp [subsM, specSubs, h, he]
  | mode, .list es, k, v, hk => by
      have h2 := list_ne_of_isList_false hk es
      have hl := subsL_eq_spec 0 es k v hk
      simp [subsM, specSubs, istask, h2, hl]
  | mode, .str s, k, v, hk => by
      by_cases he : PyVal.str s = k
      · subst he
        simp [subsM, specSubs, istask]
      · simp [subsM, specSubs, istask, he]
  | mode, .int n, k, v, hk => by
      by_cases he : PyVal.int n = k
      · subst he
        simp [subsM, specSubs, istask]
      · simp [subsM, specSubs, istask, he]
  | mode, .fn i, k, v, hk => by
      by_cases he : PyVal.fn i = k
      · subst he
        simp [subsM, specSubs, istask]
      · simp [subsM, specSubs, istask, he]

theorem subsL_eq_spec : ∀ (m : Nat) (l : List PyVal) (k v : PyVal), PyVal.isList k = false →
    subsL m l k v = specSubsL (m == 1) l k v
  | _, [], _, _, _ => rfl
  | 0, x :: rest, k, v, hk => by
      have h1 := subsM_eq_spec false x k v hk
      have h2 := subsL_eq_spec 0 rest k v hk
      simp [subsL, specSubsL, h1, h2]
  | 1, x :: rest, k, v, hk => by
      have h2 := subsL_eq_spec 2 rest k v hk
      simp [subsL, specSubsL, h2]
  | 2, x :: rest, k, v, hk => by
      have h1 := subsM_eq_spec true x k v hk
      have h2 := subsL_eq_spec 2 rest k v hk
      simp [subsL, specSubsL, h1, h2]
  | n + 3, x :: rest, k, v, hk => by
      have h1 := subsM_eq_spec false x k v hk
      have h2 := subsL_eq_spec 0 rest k v hk
      simp [subsL, specSubsL, h1, h2]

end

end Dag

namespace Dag

/-! Regression checks: the embedding reproduces the source doctests. -/

example : getF applyStd 20 [(.str "x", .int 1), (.str "y", .tup [.fn 0, .str "x"])]
    (.str "y") none none = some (.ok (.int 2)) := by rfl

example : cull 10 [(.str "x", .int 1), (.str "y", .tup [.fn 0, .str "x"]),
      (.str "out", .tup [.fn 1, .str "x", .int 10])] [.str "out"]
    = some ([(.str "out", .tup [.fn 1, .str "x", .int 10]), (.str "x", .int 1)],
        [(.str "out", [.str "x"]), (.str "x", [])]) := by rfl

example : getcycleF 20 [(.str "x", .tup [.fn 0, .str "z"]), (.str "y", .tup [.fn 0, .str "x"]),
      (.str "z", .tup [.fn 0, .str "y"])] [.str "x"]
    = some [.str "x", .str "z", .str "y", .str "x"] := by rfl

set_option maxHeartbeats 1000000 in
example : fuseF logStd 50
    [(.str "a", .int 1), (.str "b", .tup [.fn 0, .str "a"]), (.str "c", .tup [.fn 0, .str "b"])]
    none none none none none none (.bool true)
  = some ([(.str "c", .str "a-b-c"), (.str "a-b-c", .tup [.fn 0, .tup [.fn 0, .int 1]])],
      .setForm [(.str "c", [.str "a-b-c"]), (.str "a-b-c", [])]) := by rfl

set_option maxHeartbeats 1000000 in
example : fuseF logStd 50
    [(.str "a", .int 1), (.str "b", .tup [.fn 0, .str "a"]), (.str "c", .tup [.fn 0, .str "b"])]
    (some [.str "b"]) none none none none none (.bool false)
  = some ([(.str "b", .tup [.fn 0, .int 1]), (.str "c", .tup [.fn 0, .str "b"])],
      .setForm [(.str "b", []), (.str "c", [.str "b"])]) := by rfl

/-- Claim C1 (code bug): semantic preservation for protected outputs fails on
`exG1 = {'q': 7, 'p': (inc, 'q'), 'r': 'q-p'}` with protected set
`{'r'}`.  Before fusion `r` evaluates to the plain string `"q-p"` (not a key
of the graph); `fuse` collapses `q` into `p` and installs the renamed alias
key `'q-p'`, which captures the string literal: afterwards `r` evaluates to
`inc 7 = 8`.  The code's only guard is `alias not in rv`, which does not
protect string *values*. -/
theorem C1_fuse_rename_changes_protected_output :
    dlookup exG1 (.str "r") = some (.str "q-p")
    ∧ getF applyStd 50 exG1 (.str "r") none none = some (.ok (.str "q-p"))
    ∧ (fuseF logStd 50 exG1 (some [.str "r"]) none none none none none (.bool true)).map
        (fun p => getF applyStd 50 p.1 (.str "r") none none)
      = some (some (.ok (.int 8))) := by
  refine ⟨by rfl, by rfl, by rfl⟩

/-- Claim C4, counterexample: on `exGc` (`b` depends on `c1` and `c`; `c`
depends back on `b`) the cycle is `b → c → b`, but the raised error's path
is `[b, c1, c, b]`: the reconstruction pops the pending sibling `c1` off the
traversal stack although `c1` is not on the cycle, and indeed `c` is not a
dependency of `c1`, so the reported sequence is not a dependency path. -/
theorem C4_counterexample :
    toposortF 50 exGc none = some (.error [.str "b", .str "c1", .str "c", .str "b"])
    ∧ (.str "c") ∉ depsOfKey exGc (.str "c1")
    ∧ (.str "c") ∈ depsOfKey exGc (.str "b")
    ∧ (.str "b") ∈ depsOfKey exGc (.str "c") := by
  refine ⟨by rfl, by decide, by decide, by decide⟩

/-- Claim C5 (amended): for keys that are not (unhashable) Python lists,
`subs` replaces exactly the non-task occurrences structurally equal to the
key — task-shaped occurrences are traversed, never compared — with the
function slot untouched and recursion through task arguments and lists
only; this is the refinement of `subs` by the spec-side `specSubs`. -/
theorem C5_subs_matches_spec (t key val : PyVal) (hk : PyVal.isList key = false) :
    subs t key val = specSubs t key val :=
  subsM_eq_spec false t key val hk

theorem C5_witness :
    PyVal.isList (.str "x") = false
    ∧ subs (.tup [.fn 0, .str "x"]) (.str "x") (.int 5)
        = specSubs (.tup [.fn 0, .str "x"]) (.str "x") (.int 5) :=
  ⟨rfl, C5_subs_matches_spec (.tup [.fn 0, .str "x"]) (.str "x") (.int 5) rfl⟩

/-- Claim C5, counterexample to the claim as stated: the argument occurrence
`(inc, 1)` is identical in type and value to the key `(inc, 1)`, yet `subs`
does not replace it (the result is unchanged rather than `(add, 99)`),
because a task-shaped occurrence is recursed into instead of compared. -/
theorem C5_counterexample :
    subs (.tup [.fn 1, .tup [.fn 0, .int 1]]) (.tup [.fn 0, .int 1]) (.int 99)
        = .tup [.fn 1, .tup [.fn 0, .int 1]]
    ∧ PyVal.tup [.fn 1, .tup [.fn 0, .int 1]] ≠ .tup [.fn 1, .int 99] := by
  refine ⟨by rfl, by decide⟩

/-- Claim C6, counterexample: on `exG6`, the code's reducible set is `{t}`
although `t`'s value `('u', 'v')` is a non-task tuple (neither task, number
nor string — `claimedShape` is false), while `a` — which has exactly one
dependent and a literal-number value, i.e. is a candidate per the claim — is
excluded (it is referenced twice by `b`, and the code counts references,
not dependents); moreover the opaque (list-valued) key `r` does not retain
its original binding: fusion rewrites it to the alias `'t-r'`. -/
theorem C6_counterexample :
    fuseReducible exG6 (graphDepsL exG6) none = [.str "t"]
    ∧ claimedShape (.tup [.str "u", .str "v"]) = false
    ∧ claimedCandidate exG6 none (.str "a") = true
    ∧ dlookup exG6 (.str "r") = some (.list [.str "t"])
    ∧ (fuseF logStd 50 exG6 none none none none none none (.bool true)).map
        (fun p => dlookup p.1 (.str "r")) = some (some (.str "t-r")) := by
  refine ⟨by rfl, by rfl, by decide, by rfl, by rfl⟩

/-- Claim C7, counterexample: two `SubgraphCallable`s that differ only in
the order of their input keys are equal under `__eq__` (input keys compare
as sets), but the data hashed by `__hash__` — `(outkey, tuple(inkeys),
name)` — differs, so the hash is *not* computed from the input-key set and
equal instances are not guaranteed equal hashes. -/
theorem C7_counterexample :
    SubgraphCallable.eqPy ⟨[], .str "o", [.str "a", .str "b"], "subgraph_callable"⟩
        ⟨[], .str "o", [.str "b", .str "a"], "subgraph_callable"⟩ = true
    ∧ SubgraphCallable.hashFields ⟨[], .str "o", [.str "a", .str "b"], "subgraph_callable"⟩
        ≠ SubgraphCallable.hashFields ⟨[], .str "o", [.str "b", .str "a"], "subgraph_callable"⟩ := by
  refine ⟨by decide, by decide⟩

/-- Claim C7 (amended): equality of `SubgraphCallable`s is agreement of
name, output key and input-key *set* (order-insensitive), while the hashed
data agrees exactly when name, output key and the input-key *list* (order
included) agree; so equal hashes are guaranteed only for equal instances
whose input-key lists coincide. -/
theorem C7_eq_set_hash_tuple (a b : SubgraphCallable) :
    (SubgraphCallable.eqPy a b = true ↔
      a.name = b.name ∧ a.outkey = b.outkey ∧ ∀ x, x ∈ a.inkeys ↔ x ∈ b.inkeys)
    ∧ (a.hashFields = b.hashFields ↔
      a.outkey = b.outkey ∧ a.inkeys = b.inkeys ∧ a.name = b.name) := by
  constructor
  · simp only [SubgraphCallable.eqPy, ssetEq, Bool.and_eq_true, List.all_eq_true,
      beq_iff_eq, decide_eq_true_eq]
    constructor
    · rintro ⟨⟨h1, h2⟩, h3, h4⟩
      exact ⟨h1, h2, fun x => ⟨fun hx => h3 x hx, fun hx => h4 x hx⟩⟩
    · rintro ⟨h1, h2, h3⟩
      exact ⟨⟨h1, h2⟩, fun x hx => (h3 x).1 hx, fun x hx => (h3 x).2 hx⟩
  · unfold SubgraphCallable.hashFields
    constructor
    · intro h
      exact ⟨congrArg Prod.fst h, congrArg (fun t => t.2.1) h, congrArg (fun t => t.2.2) h⟩
    · rintro ⟨h1, h2, h3⟩
      simp [h1, h2, h3]

/-- Claim C9, counterexample to the final clause as stated: on the cyclic
graph `exG9 = {'x': (inc, 'x')}` the single requested output `x` *is*
present, yet `get` does not return a computed value — the topological sort
raises the cycle error first. -/
theorem C9_counterexample :
    dmem exG9 (.str "x") = true
    ∧ getF applyStd 10 exG9 (.str "x") none none
        = some (.error (.cycle [.str "x", .str "x"])) := by
  refine ⟨by rfl, by rfl⟩

/-- Claim C10: calling `fuse` with `ave_width = 0` or `max_height = 0`
returns immediately with the input graph and the dependencies argument
exactly as supplied (`None` when none was given), regardless of every other
parameter — no fusion, no renaming, before even validating `rename_keys`. -/
theorem C10_fuse_zero_param_identity (logA : Frac → Frac) (fuel : Nat) (dsk : Graph)
    (keysOpt : Option (List Key)) (depsOpt : Option (List (Key × List Key)))
    (mwOpt mdneOpt : Option Frac) (renameKeys : RenameArg) (awOpt mhOpt : Option Frac)
    (h : (∃ q, awOpt = some q ∧ q.num = 0) ∨ (∃ q, mhOpt = some q ∧ q.num = 0)) :
    fuseF logA fuel dsk keysOpt depsOpt awOpt mwOpt mhOpt mdneOpt renameKeys
      = some (dsk, match depsOpt with | none => DepsOut.noneD | some d => DepsOut.listForm d) := by
  rcases h with ⟨q, h1, h2⟩ | ⟨q, h1, h2⟩ <;> subst h1 <;> simp [fuseF, Frac.isZero, h2]

theorem C10_witness :
    fuseF logStd 0 exG1 none none (some (Frac.ofInt 0)) none none none (.bool true)
      = some (exG1, DepsOut.noneD) :=
  C10_fuse_zero_param_identity logStd 0 exG1 none none none none (.bool true)
    (some (Frac.ofInt 0)) none (Or.inl ⟨Frac.ofInt 0, rfl, rfl⟩)

end Dag

namespace Dag

/-! Lemmas about the dict and set primitives. -/

theorem dlookup_dinsert_self {α : Type} (d : List (Key × α)) (k : Key) (v : α) :
    dlookup (dinsert d k v) k = some v := by
  induction d with
  | nil => simp [dinsert, dlookup]
  | cons kv rest ih =>
      obtain ⟨k1, v1⟩ := kv
      by_cases h : k1 = k
      · subst h
        simp [dinsert, dlookup]
      · simp [dinsert, dlookup, h, ih]

theorem dlookup_dinsert_ne {α : Type} (d : List (Key × α)) (k k2 : Key) (v : α)
    (h : k2 ≠ k) : dlookup (dinsert d k v) k2 = dlookup d k2 := by
  have hne : ¬ (k = k2) := fun hc => h hc.symm
  induction d with
  | nil =>
      simp only [dinsert, dlookup]
      rw [if_neg hne]
  | cons kv rest ih =>
      obtain ⟨k1, v1⟩ := kv
      by_cases h1 : k1 = k
      · subst h1
        simp only [dinsert, if_pos rfl, dlookup]
        rw [if_neg hne, if_neg hne]
      · simp only [dinsert, if_neg h1, dlookup]
        by_cases h2 : k1 = k2
        · rw [if_pos h2, if_pos h2]
        · rw [if_neg h2, if_neg h2, ih]

theorem dkeys_cons {α : Type} (k1 : Key) (v1 : α) (rest : List (Key × α)) :
    dkeys ((k1, v1) :: rest) = k1 :: dkeys rest := rfl

theorem mem_dkeys_dinsert {α : Type} (d : List (Key × α)) (k k2 : Key) (v : α) :
    k2 ∈ dkeys (dinsert d k v) ↔ k2 ∈ dkeys d ∨ k2 = k := by
  induction d with
  | nil => simp [dinsert, dkeys]
  | cons kv rest ih =>
      obtain ⟨k1, v1⟩ := kv
      by_cases h : k1 = k
      · subst h
        have hstep : dkeys (dinsert ((k1, v1) :: rest) k1 v) = k1 :: dkeys rest := by
          simp [dinsert, dkeys]
        rw [hstep, dkeys_cons]
        simp only [List.mem_cons]
        tauto
      · have hstep : dkeys (dinsert ((k1, v1) :: rest) k v)
            = k1 :: dkeys (dinsert rest k v) := by
          simp only [dinsert, if_neg h]
          exact dkeys_cons k1 v1 (dinsert rest k v)
        rw [hstep, dkeys_cons]
        simp only [List.mem_cons]
        rw [ih]
        tauto

theorem dmem_iff_mem_dkeys {α : Type} (d : List (Key × α)) (k : Key) :
    dmem d k = true ↔ k ∈ dkeys d := by
  induction d with
  | nil => simp [dmem, dlookup, dkeys]
  | cons kv rest ih =>
      obtain ⟨k1, v1⟩ := kv
      rw [dkeys_cons]
      by_cases h : k1 = k
      · subst h
        simp [dmem, dlookup]
      · simp only [dmem, dlookup, if_neg h, List.mem_cons]
        simp only [dmem] at ih
        rw [ih]
        constructor
        · exact Or.inr
        · rintro (h2 | h2)
          · exact absurd h2.symm h
          · exact h2

theorem dlookup_isSome_iff_mem {α : Type} (d : List (Key × α)) (k : Key) :
    (dlookup d k).isSome = true ↔ k ∈ dkeys d := dmem_iff_mem_dkeys d k

theorem depsOfKey_of_lookup {dsk : Graph} {k : Key} {v : PyVal}
    (h : dlookup dsk k = some v) : depsOfKey dsk k = getDepsL dsk v := by
  simp [depsOfKey, h]

/-! Properties of the `cull` loops (claim C2). -/

theorem collectFresh_spec (ds : List Key) : ∀ seen : SSet,
    (collectFresh seen ds).1 = seen ++ (collectFresh seen ds).2
    ∧ (∀ d ∈ ds, d ∈ (collectFresh seen ds).1)
    ∧ (∀ d ∈ (collectFresh seen ds).2, d ∈ ds) := by
  induction ds with
  | nil => intro seen; simp [collectFresh]
  | cons d rest ih =>
      intro seen
      by_cases h : d ∈ seen
      · simp only [collectFresh, if_pos h]
        obtain ⟨h1, h2, h3⟩ := ih seen
        refine ⟨h1, ?_, ?_⟩
        · intro x hx
          rcases List.mem_cons.mp hx with rfl | hx
          · rw [h1] at *
            exact List.mem_append_left _ h
          · exact h2 x hx
        · intro x hx
          exact List.mem_cons_of_mem _ (h3 x hx)
      · simp only [collectFresh, if_neg h]
        obtain ⟨h1, h2, h3⟩ := ih (seen ++ [d])
        refine ⟨?_, ?_, ?_⟩
        · simp only [h1, List.append_assoc, List.cons_append, List.nil_append]
        · intro x hx
          rcases List.mem_cons.mp hx with rfl | hx
          · rw [h1]
            exact List.mem_append_left _ (List.mem_append_right _ (List.mem_singleton.mpr rfl))
          · exact h2 x hx
        · intro x hx
          rcases List.mem_cons.mp hx with rfl | hx
          · exact List.mem_cons_self _ _
          · exact List.mem_cons_of_mem _ (h3 x hx)

end Dag

namespace Dag

theorem mem_sdedup {α : Type} [DecidableEq α] (l : List α) (a : α) :
    a ∈ sdedup l ↔ a ∈ l := by
  induction l with
  | nil => simp [sdedup]
  | cons b rest ih =>
      simp only [sdedup, List.mem_cons, List.mem_filter]
      constructor
      · rintro (h | ⟨h, _⟩)
        · exact Or.inl h
        · exact Or.inr (ih.mp h)
      · rintro (h | h)
        · exact Or.inl h
        · by_cases hb : a = b
          · exact Or.inl hb
          · exact Or.inr ⟨ih.mpr h, by simpa using hb⟩

theorem cullInner_cons_inv (dsk : Graph) (k : Key) (rest : List Key) (st st2 : CullSt)
    (nw : List Key) (hres : cullInner dsk (k :: rest) st = some (st2, nw)) :
    ∃ v nw1, dlookup dsk k = some v
      ∧ cullInner dsk rest ⟨(collectFresh st.seen (getDepsL dsk v)).1,
          dinsert st.out k v, dinsert st.depsD k (getDepsL dsk v)⟩ = some (st2, nw1)
      ∧ nw = (collectFresh st.seen (getDepsL dsk v)).2 ++ nw1 := by
  cases hv : dlookup dsk k with
  | none => simp [cullInner, hv] at hres
  | some v =>
      cases hrec : cullInner dsk rest ⟨(collectFresh st.seen (getDepsL dsk v)).1,
          dinsert st.out k v, dinsert st.depsD k (getDepsL dsk v)⟩ with
      | none => simp [cullInner, hv, hrec] at hres
      | some pr =>
          obtain ⟨st2x, nw1⟩ := pr
          simp only [cullInner, hv, hrec, Option.some.injEq, Prod.mk.injEq] at hres
          refine ⟨v, nw1, rfl, ?_, hres.2.symm⟩
          rw [hrec, hres.1]

theorem cullInner_spec (dsk : Graph) : ∀ (work : List Key) (st st2 : CullSt) (nw : List Key),
    cullInner dsk work st = some (st2, nw) →
    (∀ k, k ∈ dkeys st2.out ↔ (k ∈ dkeys st.out ∨ k ∈ work))
    ∧ (∀ k, k ∈ dkeys st2.depsD ↔ (k ∈ dkeys st.depsD ∨ k ∈ work))
    ∧ (∀ k ∈ work, dlookup st2.out k = dlookup dsk k)
    ∧ (∀ k, k ∉ work → dlookup st2.out k = dlookup st.out k)
    ∧ (∀ k ∈ work, dlookup st2.depsD k = some (depsOfKey dsk k))
    ∧ (∀ k, k ∉ work → dlookup st2.depsD k = dlookup st.depsD k)
    ∧ st2.seen = st.seen ++ nw
    ∧ (∀ k ∈ work, ∀ d ∈ depsOfKey dsk k, d ∈ st2.seen)
    ∧ (∀ d ∈ nw, ∃ k2, k2 ∈ work ∧ d ∈ depsOfKey dsk k2) := by
  intro work
  induction work with
  | nil =>
      intro st st2 nw hres
      simp only [cullInner, Option.some.injEq, Prod.mk.injEq] at hres
      obtain ⟨rfl, rfl⟩ := hres
      exact ⟨fun k0 => by simp, fun k0 => by simp,
        fun k0 hk => absurd hk (List.not_mem_nil k0),
        fun k0 _ => rfl,
        fun k0 hk => absurd hk (List.not_mem_nil k0),
        fun k0 _ => rfl,
        (List.append_nil _).symm,
        fun k0 hk => absurd hk (List.not_mem_nil k0),
        fun d hd => absurd hd (List.not_mem_nil d)⟩
  | cons k rest ih =>
      intro st st2 nw hres
      obtain ⟨v, nw1, hv, hrec, hnw⟩ := cullInner_cons_inv dsk k rest st st2 nw hres
      obtain ⟨ih1, ih2, ih3, ih4, ih5, ih6, ih7, ih8, ih9⟩ := ih _ _ _ hrec
      have hdeps : depsOfKey dsk k = getDepsL dsk v := depsOfKey_of_lookup hv
      obtain ⟨hp1, hp2, hp3⟩ := collectFresh_spec (getDepsL dsk v) st.seen
      refine ⟨?_, ?_, ?_, ?_, ?_, ?_, ?_, ?_, ?_⟩
      · intro k0
        have h1 : k0 ∈ dkeys st2.out ↔ (k0 ∈ dkeys st.out ∨ k0 = k) ∨ k0 ∈ rest :=
          (ih1 k0).trans (or_congr_left (mem_dkeys_dinsert st.out k k0 v))
        rw [h1, List.mem_cons]
        tauto
      · intro k0
        have h1 : k0 ∈ dkeys st2.depsD ↔ (k0 ∈ dkeys st.depsD ∨ k0 = k) ∨ k0 ∈ rest :=
          (ih2 k0).trans (or_congr_left (mem_dkeys_dinsert st.depsD k k0 (getDepsL dsk v)))
        rw [h1, List.mem_cons]
        tauto
      · intro k0 hk
        by_cases hr : k0 ∈ rest
        · exact ih3 k0 hr
        · have hkk : k0 = k := by
            rcases List.mem_cons.mp hk with h | h
            · exact h
            · exact absurd h hr
          have h4 := ih4 k0 hr
          rw [hkk] at h4 ⊢
          exact h4.trans ((dlookup_dinsert_self st.out k v).trans hv.symm)
      · intro k0 hk0
        have hne : k0 ≠ k := fun hc => hk0 (by rw [hc]; exact List.mem_cons_self k rest)
        have hnr : k0 ∉ rest := fun hc => hk0 (List.mem_cons_of_mem k hc)
        exact (ih4 k0 hnr).trans (dlookup_dinsert_ne st.out k k0 v hne)
      · intro k0 hk
        by_cases hr : k0 ∈ rest
        · exact ih5 k0 hr
        · have hkk : k0 = k := by
            rcases List.mem_cons.mp hk with h | h
            · exact h
            · exact absurd h hr
          have h6 := ih6 k0 hr
          rw [hkk] at h6 ⊢
          exact h6.trans ((dlookup_dinsert_self st.depsD k (getDepsL dsk v)).trans
            (congrArg some hdeps).symm)
      · intro k0 hk0
        have hne : k0 ≠ k := fun hc => hk0 (by rw [hc]; exact List.mem_cons_self k rest)
        have hnr : k0 ∉ rest := fun hc => hk0 (List.mem_cons_of_mem k hc)
        exact (ih6 k0 hnr).trans (dlookup_dinsert_ne st.depsD k k0 (getDepsL dsk v) hne)
      · rw [hnw]
        calc st2.seen = (collectFresh st.seen (getDepsL dsk v)).1 ++ nw1 := ih7
          _ = (st.seen ++ (collectFresh st.seen (getDepsL dsk v)).2) ++ nw1 := by rw [hp1]
          _ = st.seen ++ ((collectFresh st.seen (getDepsL dsk v)).2 ++ nw1) :=
              List.append_assoc _ _ _
      · intro k0 hk d hd
        by_cases hr : k0 ∈ rest
        · exact ih8 k0 hr d hd
        · have hkk : k0 = k := by
            rcases List.mem_cons.mp hk with h | h
            · exact h
            · exact absurd h hr
          rw [hkk, hdeps] at hd
          rw [ih7]
          exact List.mem_append_left _ (hp2 d hd)
      · intro d hd
        rw [hnw] at hd
        rcases List.mem_append.mp hd with h | h
        · refine ⟨k, List.mem_cons_self k rest, ?_⟩
          rw [hdeps]
          exact hp3 d h
        · obtain ⟨k2, hk2, hdk2⟩ := ih9 d h
          exact ⟨k2, List.mem_cons_of_mem k hk2, hdk2⟩

/-- Loop invariant of `cull`: `T` is the initial (flattened, deduplicated)
target list, `work` the pending keys, `st` the accumulated state. -/
def CullInv (dsk : Graph) (T work : List Key) (st : CullSt) : Prop :=
  (∀ k ∈ work, ∃ t, t ∈ T ∧ Reaches dsk t k)
  ∧ (∀ k ∈ dkeys st.out, ∃ t, t ∈ T ∧ Reaches dsk t k)
  ∧ (∀ k ∈ dkeys st.out, dlookup st.out k = dlookup dsk k)
  ∧ (∀ k ∈ dkeys st.out, dlookup st.depsD k = some (depsOfKey dsk k))
  ∧ (∀ k, k ∈ dkeys st.depsD ↔ k ∈ dkeys st.out)
  ∧ (∀ k ∈ st.seen, k ∈ dkeys st.out ∨ k ∈ work)
  ∧ (∀ k ∈ dkeys st.out, ∀ d ∈ depsOfKey dsk k, d ∈ st.seen)
  ∧ (∀ t ∈ T, t ∈ dkeys st.out ∨ t ∈ work)

theorem cullInner_preserves (dsk : Graph) (T work : List Key) (st st2 : CullSt)
    (nw : List Key) (hinv : CullInv dsk T work st)
    (hres : cullInner dsk work st = some (st2, nw)) : CullInv dsk T nw st2 := by
  obtain ⟨inv1, inv2, inv3, inv4, inv5, inv6, inv7, inv8⟩ := hinv
  obtain ⟨c1, c2, c3, c4, c5, c6, c7, c8, c9⟩ := cullInner_spec dsk work st st2 nw hres
  refine ⟨?_, ?_, ?_, ?_, ?_, ?_, ?_, ?_⟩
  · intro d hd
    obtain ⟨k2, hk2, hdk2⟩ := c9 d hd
    obtain ⟨t, ht, hre⟩ := inv1 k2 hk2
    exact ⟨t, ht, Relation.ReflTransGen.tail hre hdk2⟩
  · intro k hk
    rcases (c1 k).mp hk with h | h
    · exact inv2 k h
    · exact inv1 k h
  · intro k hk
    by_cases hw : k ∈ work
    · exact c3 k hw
    · have hko : k ∈ dkeys st.out := by
        rcases (c1 k).mp hk with h | h
        · exact h
        · exact absurd h hw
      exact (c4 k hw).trans (inv3 k hko)
  · intro k hk
    by_cases hw : k ∈ work
    · exact c5 k hw
    · have hko : k ∈ dkeys st.out := by
        rcases (c1 k).mp hk with h | h
        · exact h
        · exact absurd h hw
      exact (c6 k hw).trans (inv4 k hko)
  · intro k
    rw [c2 k, c1 k, inv5 k]
  · intro k hk
    rw [c7] at hk
    rcases List.mem_append.mp hk with h | h
    · rcases inv6 k h with h2 | h2
      · exact Or.inl ((c1 k).mpr (Or.inl h2))
      · exact Or.inl ((c1 k).mpr (Or.inr h2))
    · exact Or.inr h
  · intro k hk d hd
    rcases (c1 k).mp hk with h | h
    · have hds := inv7 k h d hd
      rw [c7]
      exact List.mem_append_left _ hds
    · exact c8 k h d hd
  · intro t ht
    rcases inv8 t ht with h | h
    · exact Or.inl ((c1 t).mpr (Or.inl h))
    · exact Or.inl ((c1 t).mpr (Or.inr h))

theorem cullLoop_succ_cons_inv (dsk : Graph) (fuel : Nat) (k : Key) (rest : List Key)
    (st : CullSt) (g2 : Graph) (d2 : List (Key × List Key))
    (hres : cullLoop dsk (fuel + 1) (k :: rest) st = some (g2, d2)) :
    ∃ st2 nw, cullInner dsk (k :: rest) st = some (st2, nw)
      ∧ cullLoop dsk fuel nw st2 = some (g2, d2) := by
  cases hinner : cullInner dsk (k :: rest) st with
  | none => simp [cullLoop, hinner] at hres
  | some pr =>
      obtain ⟨st2, nw⟩ := pr
      refine ⟨st2, nw, rfl, ?_⟩
      simpa [cullLoop, hinner] using hres

theorem cullLoop_spec (dsk : Graph) (T : List Key) : ∀ (fuel : Nat) (work : List Key)
    (st : CullSt) (g2 : Graph) (d2 : List (Key × List Key)),
    CullInv dsk T work st → cullLoop dsk fuel work st = some (g2, d2) →
    (∀ k, k ∈ dkeys g2 ↔ ∃ t, t ∈ T ∧ Reaches dsk t k)
    ∧ (∀ k ∈ dkeys g2, dlookup g2 k = dlookup dsk k)
    ∧ (∀ k ∈ dkeys g2, dlookup d2 k = some (depsOfKey dsk k))
    ∧ (∀ k, k ∈ dkeys d2 ↔ k ∈ dkeys g2) := by
  intro fuel
  induction fuel with
  | zero =>
      intro work st g2 d2 _ hres
      simp [cullLoop] at hres
  | succ fuel ih =>
      intro work st g2 d2 hinv hres
      cases work with
      | nil =>
          have heq : cullLoop dsk (fuel + 1) ([] : List Key) st
              = some (st.out, st.depsD) := rfl
          rw [heq, Option.some.injEq, Prod.mk.injEq] at hres
          obtain ⟨rfl, rfl⟩ := hres
          obtain ⟨inv1, inv2, inv3, inv4, inv5, inv6, inv7, inv8⟩ := hinv
          have hclosed : ∀ u k, Reaches dsk u k → u ∈ dkeys st.out → k ∈ dkeys st.out := by
            intro u k hre
            have hre2 : Relation.ReflTransGen (Edge dsk) u k := hre
            clear hre
            induction hre2 with
            | refl => exact fun h => h
            | tail hab hbc ih2 =>
                intro hu
                have hb := ih2 hu
                have hd := inv7 _ hb _ hbc
                rcases inv6 _ hd with h | h
                · exact h
                · exact absurd h (List.not_mem_nil _)
          refine ⟨?_, inv3, inv4, inv5⟩
          intro k
          constructor
          · exact inv2 k
          · rintro ⟨t, ht, hre⟩
            have hto : t ∈ dkeys st.out := by
              rcases inv8 t ht with h | h
              · exact h
              · exact absurd h (List.not_mem_nil _)
            exact hclosed t k hre hto
      | cons k rest =>
          obtain ⟨st2, nw, hinner, hloop⟩ :=
            cullLoop_succ_cons_inv dsk fuel k rest st g2 d2 hres
          exact ih nw st2 g2 d2
            (cullInner_preserves dsk T (k :: rest) st st2 nw hinv hinner) hloop

end Dag

namespace Dag

/-- Graph of the `cull` doctest: `{'x': 1, 'y': (inc, 'x'), 'out': (add, 'x', 10)}`. -/
def exCull : Graph :=
  [(.str "x", .int 1), (.str "y", .tup [.fn 0, .str "x"]),
   (.str "out", .tup [.fn 1, .str "x", .int 10])]

/-- The graph `cull` retains from `exCull` for target `out`. -/
def exCullG : Graph :=
  [(.str "out", .tup [.fn 1, .str "x", .int 10]), (.str "x", .int 1)]

/-- The dependency dict `cull` returns alongside `exCullG`. -/
def exCullD : List (Key × List Key) :=
  [(.str "out", [.str "x"]), (.str "x", [])]

/-- Claim C2: whenever `cull(dsk, keys)` returns a pair `(g2, d2)`, the key
set of `g2` is exactly the set of keys reachable from some (flattened)
target along dependency edges; every retained key keeps its original value;
`d2` maps each retained key to its dependency list (as a list, multiplicity
preserved); and `d2` covers exactly the retained keys. -/
theorem C2_cull_transitive_closure (fuel : Nat) (dsk : Graph) (keys : List Key)
    (g2 : Graph) (d2 : List (Key × List Key))
    (hres : cull fuel dsk keys = some (g2, d2)) :
    (∀ k, k ∈ dkeys g2 ↔ ∃ t, t ∈ flattenL keys ∧ Reaches dsk t k)
    ∧ (∀ k ∈ dkeys g2, dlookup g2 k = dlookup dsk k)
    ∧ (∀ k ∈ dkeys g2, dlookup d2 k = some (depsOfKey dsk k))
    ∧ (∀ k, k ∈ dkeys d2 ↔ k ∈ dkeys g2) := by
  have hinv : CullInv dsk (sdedup (flattenL keys)) (sdedup (flattenL keys)) ⟨[], [], []⟩ := by
    refine ⟨?_, ?_, ?_, ?_, ?_, ?_, ?_, ?_⟩
    · intro k hk
      exact ⟨k, hk, Relation.ReflTransGen.refl⟩
    · intro k hk
      exact absurd hk (List.not_mem_nil k)
    · intro k hk
      exact absurd hk (List.not_mem_nil k)
    · intro k hk
      exact absurd hk (List.not_mem_nil k)
    · intro k
      exact Iff.rfl
    · intro k hk
      exact absurd hk (List.not_mem_nil k)
    · intro k hk
      exact absurd hk (List.not_mem_nil k)
    · intro t ht
      exact Or.inr ht
  obtain ⟨h1, h2, h3, h4⟩ := cullLoop_spec dsk (sdedup (flattenL keys)) fuel
    (sdedup (flattenL keys)) ⟨[], [], []⟩ g2 d2 hinv hres
  refine ⟨?_, h2, h3, h4⟩
  intro k
  rw [h1 k]
  constructor
  · rintro ⟨t, ht, hre⟩
    exact ⟨t, (mem_sdedup _ t).mp ht, hre⟩
  · rintro ⟨t, ht, hre⟩
    exact ⟨t, (mem_sdedup _ t).mpr ht, hre⟩

/-- Witness for claim C2: the `cull` doctest graph with target `out`. -/
theorem C2_witness :
    (∀ k, k ∈ dkeys exCullG ↔ ∃ t, t ∈ flattenL [PyVal.str "out"] ∧ Reaches exCull t k)
    ∧ (∀ k ∈ dkeys exCullG, dlookup exCullG k = dlookup exCull k)
    ∧ (∀ k ∈ dkeys exCullG, dlookup exCullD k = some (depsOfKey exCull k))
    ∧ (∀ k, k ∈ dkeys exCullD ↔ k ∈ dkeys exCullG) :=
  C2_cull_transitive_closure 5 exCull [PyVal.str "out"] exCullG exCullD (by rfl)

end Dag

namespace Dag

/-! Key-preservation lemmas for the fuse loops (claims C3 and C6). -/

theorem mem_dkeys_derase_ne {α : Type} : ∀ (d d2 : List (Key × α)) (k : Key),
    derase d k = some d2 → ∀ k2, k2 ∈ dkeys d → k2 ≠ k → k2 ∈ dkeys d2 := by
  intro d
  induction d with
  | nil => intro d2 k h; simp [derase] at h
  | cons kv rest ih =>
      intro d2 k h k2 hmem hne
      obtain ⟨k1, v1⟩ := kv
      by_cases h1 : k1 = k
      · subst h1
        simp only [derase, if_pos, Option.some.injEq] at h
        subst h
        rw [dkeys_cons] at hmem
        rcases List.mem_cons.mp hmem with h2 | h2
        · exact absurd h2 hne
        · exact h2
      · simp only [derase, if_neg h1] at h
        cases h2 : derase rest k with
        | none => rw [h2] at h; simp at h
        | some r2 =>
            rw [h2] at h
            simp at h
            subst h
            rw [dkeys_cons] at hmem ⊢
            rcases List.mem_cons.mp hmem with h3 | h3
            · rw [h3]
              exact List.mem_cons_self k1 _
            · exact List.mem_cons_of_mem k1 (ih r2 k h2 k2 h3 hne)

theorem mem_dkeys_dinsert_of_mem {α : Type} (d : List (Key × α)) (k k2 : Key) (v : α)
    (h : k2 ∈ dkeys d) : k2 ∈ dkeys (dinsert d k v) :=
  (mem_dkeys_dinsert d k k2 v).mpr (Or.inl h)

theorem sremove_sub (s : SSet) (x : Key) (s2 : SSet) (h : sremove s x = some s2) :
    (∀ y ∈ s2, y ∈ s) ∧ x ∈ s := by
  simp only [sremove] at h
  by_cases hx : x ∈ s
  · rw [if_pos hx] at h
    simp only [Option.some.injEq] at h
    subst h
    exact ⟨fun y hy => (List.mem_filter.mp hy).1, hx⟩
  · rw [if_neg hx] at h
    simp at h

/-- The set-level invariant of claim C6's deletion clause: the live reducible
set stays inside the initial one, and no graph key outside the initial
reducible set ever leaves the working graph. -/
def NDkeep (dsk : Graph) (red0 : SSet) (st : FuseSt) : Prop :=
  (∀ k ∈ st.reducible, k ∈ red0) ∧ (∀ k, k ∈ dkeys dsk → k ∉ red0 → k ∈ dkeys st.rv)

theorem multiAcceptFold_ND (dsk : Graph) (red0 : SSet) (rename : Bool) :
    ∀ (infos : List FInfo) (s s2 : MAccSt),
      multiAcceptFold rename infos s = some s2 →
      (∀ k ∈ s.reducible, k ∈ red0) →
      (∀ k, k ∈ dkeys dsk → k ∉ red0 → k ∈ dkeys s.rv) →
      (∀ k ∈ s2.reducible, k ∈ red0)
      ∧ (∀ k, k ∈ dkeys dsk → k ∉ red0 → k ∈ dkeys s2.rv) := by
  intro infos
  induction infos with
  | nil =>
      intro s s2 h hred hrv
      simp only [multiAcceptFold, Option.some.injEq] at h
      subst h
      exact ⟨hred, hrv⟩
  | cons i rest ih =>
      intro s s2 h hred hrv
      simp only [multiAcceptFold] at h
      cases h1 : derase s.rv i.key with
      | none => rw [h1] at h; simp at h
      | some rv2 =>
        cases h2 : dlookup s.deps i.key with
        | none => rw [h1, h2] at h; simp at h
        | some di =>
          cases h3 : sremove s.reducible i.key with
          | none => rw [h1, h2, h3] at h; simp at h
          | some red2 =>
              rw [h1, h2, h3] at h
              obtain ⟨hsub, hkey⟩ := sremove_sub _ _ _ h3
              refine ih _ s2 h (fun k hk => hred k (hsub k hk)) ?_
              intro k hk hk0
              have hki : k ≠ i.key := fun hc => hk0 (hred _ (hc ▸ hkey))
              exact mem_dkeys_derase_ne s.rv rv2 i.key h1 k (hrv k hk hk0) hki

theorem multiRejectFold_ND : ∀ (infos : List FInfo) (rv : Graph) (red : SSet)
    (rv2 : Graph) (red2 : SSet), multiRejectFold infos rv red = some (rv2, red2) →
    (∀ y ∈ red2, y ∈ red) ∧ (∀ k ∈ dkeys rv, k ∈ dkeys rv2) := by
  intro infos
  induction infos with
  | nil =>
      intro rv red rv2 red2 h
      simp only [multiRejectFold, Option.some.injEq, Prod.mk.injEq] at h
      obtain ⟨rfl, rfl⟩ := h
      exact ⟨fun y hy => hy, fun k hk => hk⟩
  | cons i rest ih =>
      intro rv red rv2 red2 h
      simp only [multiRejectFold] at h
      cases h1 : sremove red i.key with
      | none => rw [h1] at h; simp at h
      | some redx =>
          rw [h1] at h
          obtain ⟨hsub, _⟩ := sremove_sub _ _ _ h1
          obtain ⟨ha, hb⟩ := ih _ _ _ _ h
          exact ⟨fun y hy => hsub y (ha y hy),
            fun k hk => hb k (mem_dkeys_dinsert_of_mem rv i.key k i.task hk)⟩

end Dag

namespace Dag

theorem fuseRegion_ND (dsk : Graph) (rdeps : List (Key × List Key)) (P : FuseParams)
    (red0 : SSet) : ∀ (fuel : Nat) (parent : Key) (st st2 : FuseSt),
    NDkeep dsk red0 st → fuseRegion dsk rdeps P fuel parent st = some st2 →
    NDkeep dsk red0 st2 := by
  intro fuel
  induction fuel with
  | zero => intro parent st st2 _ h; simp [fuseRegion] at h
  | succ fuel ih =>
      intro parent st st2 hinv hres
      obtain ⟨hred, hrv⟩ := hinv
      cases hcs : st.childrenStack with
      | nil => simp [fuseRegion, hcs] at hres
      | cons child csRest =>
          simp only [fuseRegion, hcs] at hres
          by_cases hcp : child = parent
          · rw [if_neg (not_not_intro hcp)] at hres
            cases hdp : dlookup st.deps parent with
            | none => rw [hdp] at hres; simp at hres
            | some depsParent =>
                rw [hdp] at hres
                simp only [] at hres
                by_cases hone : (sdiff depsParent (sdiff depsParent st.reducible)).length = 1
                · rw [if_pos hone] at hres
                  cases his : st.infoStack with
                  | nil => rw [his] at hres; simp at hres
                  | cons info infoRest =>
                      rw [his] at hres
                      simp only [] at hres
                      generalize hf1 : (if info.fudge > ((info.edges.length : Int)) - 1
                          ∧ ((info.edges.length : Int)) - 1 ≥ 0 then
                          ((info.edges.length : Int)) - 1 else info.fudge) = f1 at hres
                      generalize hf2 : (if (sunion (sdiff depsParent st.reducible)
                            info.edges).length = info.edges.length then f1 else f1 + 1)
                          = f2 at hres
                      split at hres
                      · -- single-child accept
                        split at hres
                        next parentVal childDeps rv2 red2 dp1 hpv hcd hde hsr hsp =>
                          obtain ⟨hsub, hkey⟩ := sremove_sub _ _ _ hsr
                          have hrv2 : ∀ k, k ∈ dkeys dsk → k ∉ red0 → k ∈ dkeys rv2 := by
                            intro k hk hk0
                            have hki : k ≠ info.key := fun hc => hk0 (hred _ (hc ▸ hkey))
                            exact mem_dkeys_derase_ne st.rv rv2 info.key hde k (hrv k hk hk0) hki
                          have hred2 : ∀ k ∈ red2, k ∈ red0 := fun k hk => hred k (hsub k hk)
                          cases csRest with
                          | nil =>
                              simp only [] at hres
                              injection hres with h2
                              subst h2
                              exact ⟨hred2, fun k hk hk0 =>
                                mem_dkeys_dinsert_of_mem _ _ _ _ (hrv2 k hk hk0)⟩
                          | cons c3 cs3 =>
                              simp only [] at hres
                              split at hres
                              next pnext prest hrd =>
                                refine ih pnext _ st2 ?_ hres
                                exact ⟨hred2, hrv2⟩
                              next => simp at hres
                        next => simp at hres
                      · -- single-child reject
                        cases hsr2 : sremove st.reducible info.key with
                        | none => rw [hsr2] at hres; simp at hres
                        | some red2 =>
                            rw [hsr2] at hres
                            simp only [] at hres
                            obtain ⟨hsub, hkey⟩ := sremove_sub _ _ _ hsr2
                            have hred2 : ∀ k ∈ red2, k ∈ red0 := fun k hk => hred k (hsub k hk)
                            have hrv2 : ∀ k, k ∈ dkeys dsk → k ∉ red0 →
                                k ∈ dkeys (dinsert st.rv info.key info.task) := fun k hk hk0 =>
                              mem_dkeys_dinsert_of_mem _ _ _ _ (hrv k hk hk0)
                            cases csRest with
                            | nil =>
                                simp only [] at hres
                                injection hres with h2
                                subst h2
                                exact ⟨hred2, hrv2⟩
                            | cons c3 cs3 =>
                                simp only [] at hres
                                split at hres
                                next pv pnext prest hpv hrd =>
                                  refine ih pnext _ st2 ?_ hres
                                  exact ⟨hred2, hrv2⟩
                                next => simp at hres

                · -- multi-child branch
                  rw [if_neg hone] at hres
                  generalize hg1 : (if (sdiff depsParent (sdiff depsParent st.reducible)).length = 0
                      then st.infoStack.reverse
                      else (st.infoStack.take
                        ((sdiff depsParent (sdiff depsParent st.reducible)).length)).reverse)
                      = cInfo at hres
                  generalize hg2 : (if (sdiff depsParent (sdiff depsParent st.reducible)).length = 0
                      then ([] : List FInfo)
                      else st.infoStack.drop
                        ((sdiff depsParent (sdiff depsParent st.reducible)).length))
                      = iRest at hres
                  generalize hg3 : multiMetrics cInfo
                      { height := 1, width := Frac.ofInt 0, numSingle := 0, numNodes := 0,
                        fudge := 0, childrenEdges := [], maxNumEdges := 0 } = A at hres
                  generalize hg4 : A.fudge + min
                      (((sdiff depsParent (sdiff depsParent st.reducible)).length : Int) - 1)
                      (max 0 ((A.childrenEdges.length : Int) - (A.maxNumEdges : Int)))
                      = fA at hres
                  generalize hg5 : (if fA > (A.childrenEdges.length : Int) - 1
                      ∧ (A.childrenEdges.length : Int) - 1 ≥ 0
                      then (A.childrenEdges.length : Int) - 1 else fA) = fB at hres
                  generalize hg6 : (if (sunion (sdiff depsParent st.reducible)
                        A.childrenEdges).length = A.childrenEdges.length
                      then fB else fB + 1) = fC at hres
                  split at hres
                  · -- multi accept
                    cases hpv : dlookup dsk parent with
                    | none => rw [hpv] at hres; simp at hres
                    | some parentVal0 =>
                        rw [hpv] at hres
                        simp only [] at hres
                        split at hres
                        next => simp at hres
                        next s hmf =>
                          obtain ⟨hreds, hrvs⟩ :=
                            multiAcceptFold_ND dsk red0 P.rename _ _ s hmf hred hrv
                          cases csRest with
                          | nil =>
                              simp only [] at hres
                              injection hres with h2
                              subst h2
                              exact ⟨hreds, fun k hk hk0 =>
                                mem_dkeys_dinsert_of_mem _ _ _ _ (hrvs k hk hk0)⟩
                          | cons c3 cs3 =>
                              simp only [] at hres
                              split at hres
                              next pnext prest hrd =>
                                refine ih pnext _ st2 ?_ hres
                                exact ⟨hreds, hrvs⟩
                              next => simp at hres
                  · -- multi reject
                    split at hres
                    next => simp at hres
                    next rv2 red2 hmr =>
                      obtain ⟨hsub, hgrow⟩ := multiRejectFold_ND _ _ _ _ _ hmr
                      have hred2 : ∀ k ∈ red2, k ∈ red0 := fun k hk => hred k (hsub k hk)
                      have hrv2 : ∀ k, k ∈ dkeys dsk → k ∉ red0 → k ∈ dkeys rv2 :=
                        fun k hk hk0 => hgrow k (hrv k hk hk0)
                      cases csRest with
                      | nil =>
                          simp only [] at hres
                          injection hres with h2
                          subst h2
                          exact ⟨hred2, hrv2⟩
                      | cons c3 cs3 =>
                          simp only [] at hres
                          split at hres
                          next pv pnext prest hpv2 hrd =>
                            refine ih pnext _ st2 ?_ hres
                            exact ⟨hred2, hrv2⟩
                          next => simp at hres
          · rw [if_pos hcp] at hres
            cases hd : fuseDescend st.deps st.reducible (fuel + 1) parent (child :: csRest) with
            | none => rw [hd] at hres; simp at hres
            | some trip =>
                obtain ⟨parent2, leaf, cs2⟩ := trip
                rw [hd] at hres
                simp only [] at hres
                cases hl : dlookup st.rv leaf with
                | none => rw [hl] at hres; simp at hres
                | some task =>
                    cases hdl : dlookup st.deps leaf with
                    | none => rw [hl, hdl] at hres; simp at hres
                    | some dleaf =>
                        rw [hl, hdl] at hres
                        simp only [] at hres
                        refine ih parent2 _ st2 ?_ hres
                        exact ⟨hred, hrv⟩

theorem fuseOuter_ND (dsk : Graph) (rdeps : List (Key × List Key)) (P : FuseParams)
    (red0 : SSet) : ∀ (fuel : Nat) (st st2 : FuseSt),
    NDkeep dsk red0 st → fuseOuter dsk rdeps P fuel st = some st2 → NDkeep dsk red0 st2 := by
  intro fuel
  induction fuel with
  | zero => intro st st2 _ h; simp [fuseOuter] at h
  | succ fuel ih =>
      intro st st2 hinv hres
      cases hr : st.reducible with
      | nil =>
          simp only [fuseOuter, hr] at hres
          injection hres with h
          subst h
          exact hinv
      | cons k krest =>
          simp only [fuseOuter, hr] at hres
          cases hc : fuseClimb rdeps (fuel + 1) (k :: krest) k with
          | none => rw [hc] at hres; simp at hres
          | some root =>
              rw [hc] at hres
              simp only [] at hres
              cases hdr : dlookup st.deps root with
              | none => rw [hdr] at hres; simp at hres
              | some dr =>
                  rw [hdr] at hres
                  simp only [] at hres
                  split at hres
                  next => simp at hres
                  next stR hreg =>
                    have hkeepR : NDkeep dsk red0 stR := by
                      refine fuseRegion_ND dsk rdeps P red0 (fuel + 1) root _ stR ?_ hreg
                      obtain ⟨hred, hrv⟩ := hinv
                      exact ⟨fun k2 hk2 => hred k2 (hr ▸ hk2), hrv⟩
                    exact ih stR st2 hkeepR hres

theorem fuseRenameFold_keys (renamer : List Key → Option Key) :
    ∀ (ft : List (Key × List Key)) (rv : Graph) (deps : DepsS) (rv2 : Graph) (deps2 : DepsS),
    fuseRenameFold renamer ft rv deps = some (rv2, deps2) →
    ∀ k ∈ dkeys rv, k ∈ dkeys rv2 := by
  intro ft
  induction ft with
  | nil =>
      intro rv deps rv2 deps2 h k hk
      simp only [fuseRenameFold, Option.some.injEq, Prod.mk.injEq] at h
      obtain ⟨rfl, rfl⟩ := h
      exact hk
  | cons e rest ih =>
      obtain ⟨root, fkeys⟩ := e
      intro rv deps rv2 deps2 h k hk
      simp only [fuseRenameFold] at h
      cases hrn : renamer fkeys with
      | none =>
          rw [hrn] at h
          exact ih _ _ _ _ h k hk
      | some aliasKey =>
          rw [hrn] at h
          simp only [] at h
          by_cases hm : dmem rv aliasKey = true
          · rw [if_pos hm] at h
            exact ih _ _ _ _ h k hk
          · rw [if_neg hm] at h
            cases hrl : dlookup rv root with
            | none => rw [hrl] at h; simp at h
            | some rootVal =>
                cases hrd : dlookup deps root with
                | none => rw [hrl, hrd] at h; simp at h
                | some rootDeps =>
                    rw [hrl, hrd] at h
                    simp only [] at h
                    exact ih _ _ _ _ h k
                      (mem_dkeys_dinsert_of_mem _ _ _ _ (mem_dkeys_dinsert_of_mem _ _ _ _ hk))

theorem fuseF_no_delete (logA : Frac → Frac) (fuel : Nat) (dsk : Graph)
    (keysOpt : Option (List Key)) (depsOpt : Option (List (Key × List Key)))
    (awOpt mwOpt mhOpt mdneOpt : Option Frac) (rk : RenameArg) (rv : Graph) (dout : DepsOut)
    (hres : fuseF logA fuel dsk keysOpt depsOpt awOpt mwOpt mhOpt mdneOpt rk = some (rv, dout))
    (k : Key) (hk : k ∈ dkeys dsk)
    (hk0 : k ∉ fuseReducible dsk (depsOpt.getD (dsk.map fun kv => (kv.1, getDepsL dsk kv.2)))
        (keysOpt.map fun ks => sdedup (flattenL ks))) :
    k ∈ dkeys rv := by
  simp only [fuseF] at hres
  split at hres
  · injection hres with h
    injection h with h1 h2
    subst h1
    exact hk
  · split at hres
    · injection hres with h
      injection h with h1 h2
      subst h1
      exact hk
    · split at hres
      next => simp at hres
      next st1 hout =>
        have hkeep : NDkeep dsk
            (fuseReducible dsk (depsOpt.getD (dsk.map fun kv => (kv.1, getDepsL dsk kv.2)))
              (keysOpt.map fun ks => sdedup (flattenL ks))) st1 := by
          refine fuseOuter_ND dsk _ _ _ fuel _ st1 ?_ hout
          exact ⟨fun k2 hk2 => hk2, fun k2 hk2 _ => hk2⟩
        split at hres
        · injection hres with h
          injection h with h1 h2
          subst h1
          exact hkeep.2 k hk hk0
        · split at hres
          next => simp at hres
          next rv2 deps2 hrf =>
            injection hres with h
            injection h with h1 h2
            subst h1
            exact fuseRenameFold_keys _ _ _ _ _ _ hrf k (hkeep.2 k hk hk0)

/-- Total number of references to `k` across all dependency lists, counting
multiplicity. -/
def refCountL (depsL : List (Key × List Key)) (k : Key) : Nat :=
  (depsL.map fun kv => kv.2.countP fun x => decide (x = k)).sum

/-- Entry length of a reverse-dependency dict at `k` (`0` when absent). -/
def rdLen (rd : List (Key × List Key)) (k : Key) : Nat :=
  ((dlookup rd k).map List.length).getD 0

/-- The candidate set exactly as the amended claim C6 words it: referenced
exactly once in total, not protected (when the protected set is nonempty),
and fusible value shape. -/
def amendedCandidate (dsk : Graph) (keysSet : Option SSet) (k : Key) : Bool :=
  decide (refCountL (dsk.map fun kv => (kv.1, getDepsL dsk kv.2)) k = 1)
    && (match keysSet with
        | some ks => ks.isEmpty || decide (k ∉ ks)
        | none => true)
    && (match dlookup dsk k with
        | some v => fusibleShape v
        | none => false)

theorem addRdeps_rdLen (u : Key) : ∀ (vals : List Key) (rd : List (Key × List Key)) (k : Key),
    rdLen (addRdeps u vals rd) k = rdLen rd k + vals.countP fun x => decide (x = k) := by
  intro vals
  induction vals with
  | nil => intro rd k; simp [addRdeps, List.countP_nil]
  | cons v vs ih =>
      intro rd k
      have hstep : ∀ rd2 : List (Key × List Key),
          addRdeps u (v :: vs) rd2 = addRdeps u vs
            (match dlookup rd2 v with
             | none => dinsert rd2 v [u]
             | some l => dinsert rd2 v (l ++ [u])) := fun rd2 => rfl
      rw [hstep rd, ih]
      have hupd : rdLen (match dlookup rd v with
          | none => dinsert rd v [u]
          | some l => dinsert rd v (l ++ [u])) k
          = rdLen rd k + (if v = k then 1 else 0) := by
        cases hlv : dlookup rd v with
        | none =>
            by_cases hvk : v = k
            · subst hvk
              simp [rdLen, dlookup_dinsert_self, hlv]
            · simp [rdLen, dlookup_dinsert_ne rd v k [u] (fun hc => hvk hc.symm), hvk]
        | some l =>
            by_cases hvk : v = k
            · subst hvk
              simp [rdLen, dlookup_dinsert_self, hlv]
            · simp [rdLen, dlookup_dinsert_ne rd v k (l ++ [u]) (fun hc => hvk hc.symm), hvk]
      rw [hupd]
      have hcnt : (v :: vs).countP (fun x => decide (x = k))
          = vs.countP (fun x => decide (x = k)) + (if v = k then 1 else 0) := by
        rw [List.countP_cons]
        by_cases hvk : v = k <;> simp [hvk]
      rw [hcnt]
      omega

theorem buildRdeps_rdLen : ∀ (depsL rd : List (Key × List Key)) (k : Key),
    rdLen (buildRdeps depsL rd) k = rdLen rd k + refCountL depsL k := by
  intro depsL
  induction depsL with
  | nil => intro rd k; simp [buildRdeps, refCountL]
  | cons e rest ih =>
      obtain ⟨u, vals⟩ := e
      intro rd k
      have : buildRdeps ((u, vals) :: rest) rd = buildRdeps rest (addRdeps u vals rd) := rfl
      rw [this, ih, addRdeps_rdLen]
      simp only [refCountL, List.map, List.sum_cons]
      omega

theorem dkeys_dinsert_of_mem {α : Type} : ∀ (d : List (Key × α)) (k : Key) (v : α),
    k ∈ dkeys d → dkeys (dinsert d k v) = dkeys d := by
  intro d
  induction d with
  | nil => intro k v h; simp [dkeys] at h
  | cons kv rest ih =>
      intro k v h
      obtain ⟨k1, v1⟩ := kv
      by_cases h1 : k1 = k
      · subst h1
        simp [dinsert, dkeys]
      · rw [dkeys_cons] at h
        rcases List.mem_cons.mp h with h2 | h2
        · exact absurd h2.symm h1
        · simp only [dinsert, if_neg h1]
          rw [dkeys_cons, dkeys_cons, ih k v h2]

theorem dkeys_dinsert_of_not_mem {α : Type} : ∀ (d : List (Key × α)) (k : Key) (v : α),
    k ∉ dkeys d → dkeys (dinsert d k v) = dkeys d ++ [k] := by
  intro d
  induction d with
  | nil => intro k v h; simp [dinsert, dkeys]
  | cons kv rest ih =>
      intro k v h
      obtain ⟨k1, v1⟩ := kv
      rw [dkeys_cons] at h
      have h1 : k1 ≠ k := fun hc => h (by rw [hc]; exact List.mem_cons_self _ _)
      have h2 : k ∉ dkeys rest := fun hc => h (List.mem_cons_of_mem _ hc)
      simp only [dinsert, if_neg h1]
      rw [dkeys_cons, dkeys_cons, ih k v h2, List.cons_append]

theorem nodup_dkeys_dinsert {α : Type} (d : List (Key × α)) (k : Key) (v : α)
    (h : (dkeys d).Nodup) : (dkeys (dinsert d k v)).Nodup := by
  by_cases hm : k ∈ dkeys d
  · rw [dkeys_dinsert_of_mem d k v hm]
    exact h
  · rw [dkeys_dinsert_of_not_mem d k v hm]
    rw [List.nodup_append]
    exact ⟨h, List.nodup_singleton k, fun a ha hb => hm (by
      rw [List.mem_singleton] at hb
      rw [← hb]
      exact ha)⟩

theorem addRdeps_nodup (u : Key) : ∀ (vals : List Key) (rd : List (Key × List Key)),
    (dkeys rd).Nodup → (dkeys (addRdeps u vals rd)).Nodup := by
  intro vals
  induction vals with
  | nil => intro rd h; exact h
  | cons v vs ih =>
      intro rd h
      have hstep : addRdeps u (v :: vs) rd = addRdeps u vs
          (match dlookup rd v with
           | none => dinsert rd v [u]
           | some l => dinsert rd v (l ++ [u])) := rfl
      rw [hstep]
      refine ih _ ?_
      cases hlv : dlookup rd v with
      | none => exact nodup_dkeys_dinsert rd v [u] h
      | some l => exact nodup_dkeys_dinsert rd v (l ++ [u]) h

theorem buildRdeps_nodup : ∀ (depsL rd : List (Key × List Key)),
    (dkeys rd).Nodup → (dkeys (buildRdeps depsL rd)).Nodup := by
  intro depsL
  induction depsL with
  | nil => intro rd h; exact h
  | cons e rest ih =>
      obtain ⟨u, vals⟩ := e
      intro rd h
      exact ih _ (addRdeps_nodup u vals rd h)

theorem dlookup_eq_some_iff_mem {α : Type} : ∀ (d : List (Key × α)), (dkeys d).Nodup →
    ∀ (k : Key) (v : α), dlookup d k = some v ↔ (k, v) ∈ d := by
  intro d
  induction d with
  | nil => intro _ k v; simp [dlookup]
  | cons kv rest ih =>
      intro hnd k v
      obtain ⟨k1, v1⟩ := kv
      rw [dkeys_cons, List.nodup_cons] at hnd
      obtain ⟨hk1, hnd2⟩ := hnd
      by_cases h1 : k1 = k
      · rw [h1]
        have hl : dlookup ((k, v1) :: rest) k = some v1 := by simp [dlookup]
        rw [hl]
        simp only [List.mem_cons, Option.some.injEq, Prod.mk.injEq]
        constructor
        · rintro rfl
          exact Or.inl ⟨trivial, rfl⟩
        · rintro (⟨_, hv⟩ | h2)
          · rw [hv]
          · exact absurd (List.mem_map.mpr ⟨(k, v), h2, rfl⟩) (h1 ▸ hk1)
      · simp only [dlookup, if_neg h1, List.mem_cons, Prod.mk.injEq]
        rw [ih hnd2 k v]
        constructor
        · exact Or.inr
        · rintro (⟨h2, _⟩ | h2)
          · exact absurd h2.symm h1
          · exact h2

theorem mem_dkeys_of_pair_mem {α : Type} (d : List (Key × α)) (k : Key) (v : α)
    (h : (k, v) ∈ d) : k ∈ dkeys d := List.mem_map.mpr ⟨(k, v), h, rfl⟩

theorem mem_sdiscard (s : SSet) (x k : Key) : k ∈ sdiscard s x ↔ k ∈ s ∧ k ≠ x := by
  simp [sdiscard, List.mem_filter]

theorem mem_sdiff2 (a b : SSet) (k : Key) : k ∈ sdiff a b ↔ k ∈ a ∧ k ∉ b := by
  simp [sdiff, List.mem_filter]

theorem mem_fold_discard : ∀ (entries : Graph) (r : SSet) (k : Key),
    k ∈ entries.foldl (fun red kv => if fusibleShape kv.2 then red else sdiscard red kv.1) r
    ↔ k ∈ r ∧ ∀ kv ∈ entries, kv.1 = k → fusibleShape kv.2 = true := by
  intro entries
  induction entries with
  | nil => intro r k; simp
  | cons kv0 rest ih =>
      intro r k
      rw [List.foldl_cons, ih]
      by_cases hs : fusibleShape kv0.2 = true
      · rw [if_pos hs]
        simp only [List.forall_mem_cons]
        constructor
        · rintro ⟨h1, h2⟩
          exact ⟨h1, fun _ => hs, h2⟩
        · rintro ⟨h1, _, h3⟩
          exact ⟨h1, h3⟩
      · rw [if_neg hs]
        simp only [List.forall_mem_cons, mem_sdiscard]
        constructor
        · rintro ⟨⟨h1, h2⟩, h3⟩
          exact ⟨h1, fun hc => absurd hc.symm h2, h3⟩
        · rintro ⟨h1, h2, h3⟩
          refine ⟨⟨h1, fun hc => hs (h2 hc.symm)⟩, h3⟩

theorem depsLeaf_mem (dsk : Graph) (w : PyVal) (k : Key) (h : k ∈ depsLeaf dsk w) :
    k ∈ dkeys dsk := by
  simp only [depsLeaf] at h
  split at h
  next hcond =>
    rw [List.mem_singleton] at h
    subst h
    rw [Bool.and_eq_true] at hcond
    exact (dmem_iff_mem_dkeys dsk k).mp hcond.2
  next => simp at h

theorem depsStep_fst_mem (dsk : Graph) (v : PyVal) (k : Key)
    (h : k ∈ (depsStep dsk v).1) : k ∈ dkeys dsk := by
  cases v with
  | str s => exact depsLeaf_mem dsk _ k h
  | int n => exact depsLeaf_mem dsk _ k h
  | fn i => exact depsLeaf_mem dsk _ k h
  | list es => simp [depsStep] at h
  | tup es =>
      cases es with
      | nil => exact depsLeaf_mem dsk _ k h
      | cons f args =>
          simp only [depsStep] at h
          split at h
          · simp at h
          · exact depsLeaf_mem dsk _ k h

theorem getDepsWorkF_mem (dsk : Graph) : ∀ (fuel : Nat) (work : List PyVal) (k : Key),
    k ∈ getDepsWorkF dsk fuel work → k ∈ dkeys dsk := by
  intro fuel
  induction fuel with
  | zero => intro work k h; simp [getDepsWorkF] at h
  | succ n ih =>
      intro work k h
      cases work with
      | nil => simp [getDepsWorkF] at h
      | cons w rest =>
          simp only [getDepsWorkF] at h
          rcases List.mem_append.mp h with h1 | h1
          · rw [List.mem_flatten] at h1
            obtain ⟨l, hl, hkl⟩ := h1
            rw [List.mem_map] at hl
            obtain ⟨x, hx, rfl⟩ := hl
            exact depsStep_fst_mem dsk x k hkl
          · exact ih _ k h1

theorem getDepsL_mem (dsk : Graph) (v : PyVal) (k : Key) (h : k ∈ getDepsL dsk v) :
    k ∈ dkeys dsk := getDepsWorkF_mem dsk _ _ k h

theorem refCountL_graph_eq_zero (dsk : Graph) (k : Key) (hk : k ∉ dkeys dsk) :
    refCountL (dsk.map fun kv => (kv.1, getDepsL dsk kv.2)) k = 0 := by
  simp only [refCountL]
  refine List.sum_eq_zero ?_
  intro x hx
  rw [List.mem_map] at hx
  obtain ⟨kv2, hkv2, rfl⟩ := hx
  rw [List.mem_map] at hkv2
  obtain ⟨kv, hkv, rfl⟩ := hkv2
  rw [List.countP_eq_zero]
  intro a ha
  simp only [decide_eq_true_eq]
  intro hak
  subst hak
  exact hk (getDepsL_mem dsk kv.2 a ha)

theorem mem_filter_len_one (rd : List (Key × List Key)) (hnd : (dkeys rd).Nodup) (k : Key) :
    k ∈ (rd.filter fun kv => kv.2.length = 1).map Prod.fst ↔ rdLen rd k = 1 := by
  constructor
  · intro h
    rw [List.mem_map] at h
    obtain ⟨kv, hkv, hfst⟩ := h
    rw [List.mem_filter] at hkv
    obtain ⟨hmem, hlen⟩ := hkv
    obtain ⟨k1, l⟩ := kv
    have hfst2 : k1 = k := hfst
    subst hfst2
    have hl := (dlookup_eq_some_iff_mem rd hnd k1 l).mpr hmem
    simp only [decide_eq_true_eq] at hlen
    simp [rdLen, hl, hlen]
  · intro h
    cases hl : dlookup rd k with
    | none => simp [rdLen, hl] at h
    | some l =>
        rw [rdLen, hl] at h
        simp at h
        have hmem := (dlookup_eq_some_iff_mem rd hnd k l).mp hl
        exact List.mem_map.mpr ⟨(k, l), List.mem_filter.mpr ⟨hmem, by simp [h]⟩, rfl⟩

theorem shape_cond_iff (dsk : Graph) (hnd : (dkeys dsk).Nodup) (k : Key) (hk : k ∈ dkeys dsk) :
    (∀ kv ∈ dsk, kv.1 = k → fusibleShape kv.2 = true)
    ↔ (match dlookup dsk k with | some v => fusibleShape v | none => false) = true := by
  obtain ⟨v, hv⟩ : ∃ v, dlookup dsk k = some v :=
    Option.isSome_iff_exists.mp ((dlookup_isSome_iff_mem dsk k).mpr hk)
  rw [hv]
  constructor
  · intro hC
    exact hC (k, v) ((dlookup_eq_some_iff_mem dsk hnd k v).mp hv) rfl
  · intro hS kv hkv hfst
    have h2 : dlookup dsk kv.1 = some kv.2 :=
      (dlookup_eq_some_iff_mem dsk hnd kv.1 kv.2).mpr hkv
    rw [hfst, hv] at h2
    injection h2 with h3
    rw [← h3]
    exact hS

theorem fuseReducible_mem (dsk : Graph) (hnd : (dkeys dsk).Nodup) (keysSet : Option SSet)
    (k : Key) :
    k ∈ fuseReducible dsk (dsk.map fun kv => (kv.1, getDepsL dsk kv.2)) keysSet
      ↔ amendedCandidate dsk keysSet k = true := by
  have hrdn : (dkeys (buildRdeps (dsk.map fun kv => (kv.1, getDepsL dsk kv.2)) [])).Nodup :=
    buildRdeps_nodup _ [] List.nodup_nil
  have hr0 : ∀ k2 : Key,
      (k2 ∈ ((buildRdeps (dsk.map fun kv => (kv.1, getDepsL dsk kv.2)) []).filter
        fun kv => kv.2.length = 1).map Prod.fst)
      ↔ refCountL (dsk.map fun kv => (kv.1, getDepsL dsk kv.2)) k2 = 1 := by
    intro k2
    rw [mem_filter_len_one _ hrdn, buildRdeps_rdLen]
    have h0 : rdLen [] k2 = 0 := rfl
    rw [h0]
    omega
  have hknd : refCountL (dsk.map fun kv => (kv.1, getDepsL dsk kv.2)) k = 1 →
      k ∈ dkeys dsk := by
    intro h1
    by_contra hkn
    rw [refCountL_graph_eq_zero dsk k hkn] at h1
    exact absurd h1 (by omega)
  cases keysSet with
  | none =>
      simp only [fuseReducible, amendedCandidate]
      rw [mem_fold_discard]
      constructor
      · rintro ⟨hA, hC⟩
        have hR := (hr0 k).mp hA
        have hkd := hknd hR
        simp only [Bool.and_eq_true, decide_eq_true_eq, Bool.and_true]
        exact ⟨hR, (shape_cond_iff dsk hnd k hkd).mp hC⟩
      · intro hB
        simp only [Bool.and_eq_true, decide_eq_true_eq, Bool.and_true] at hB
        obtain ⟨hR, hS⟩ := hB
        exact ⟨(hr0 k).mpr hR, (shape_cond_iff dsk hnd k (hknd hR)).mpr hS⟩
  | some ks =>
      by_cases he : ks.isEmpty = true
      · simp only [fuseReducible, amendedCandidate, he, if_pos, Bool.true_or]
        rw [mem_fold_discard]
        constructor
        · rintro ⟨hA, hC⟩
          have hR := (hr0 k).mp hA
          have hkd := hknd hR
          simp only [Bool.and_eq_true, decide_eq_true_eq, Bool.and_true]
          exact ⟨hR, (shape_cond_iff dsk hnd k hkd).mp hC⟩
        · intro hB
          simp only [Bool.and_eq_true, decide_eq_true_eq, Bool.and_true] at hB
          obtain ⟨hR, hS⟩ := hB
          exact ⟨(hr0 k).mpr hR, (shape_cond_iff dsk hnd k (hknd hR)).mpr hS⟩
      · have he2 : ks.isEmpty = false := Bool.eq_false_iff.mpr he
        simp only [fuseReducible, amendedCandidate]
        rw [if_neg he]
        simp only [he2, Bool.false_or]
        rw [mem_fold_discard, mem_sdiff2]
        constructor
        · rintro ⟨⟨hA, hks⟩, hC⟩
          have hR := (hr0 k).mp hA
          have hkd := hknd hR
          simp only [Bool.and_eq_true, decide_eq_true_eq]
          exact ⟨⟨hR, hks⟩, (shape_cond_iff dsk hnd k hkd).mp hC⟩
        · intro hB
          simp only [Bool.and_eq_true, decide_eq_true_eq] at hB
          obtain ⟨⟨hR, hks⟩, hS⟩ := hB
          exact ⟨⟨(hr0 k).mpr hR, hks⟩, (shape_cond_iff dsk hnd k (hknd hR)).mpr hS⟩

/-- Claim C6 (amended): in `fuse`, the candidate (reducible) set is exactly
the set of keys that are referenced exactly once in total across all
dependency lists, are not in the caller's protected keys when that set is
nonempty, and whose value is a tuple (task or not), a number, or a string;
and no graph key outside the candidate set is ever deleted by a successful
run of `fuse`. -/
theorem C6_reducible_characterization (dsk : Graph) (hnd : (dkeys dsk).Nodup) :
    (∀ (keysSet : Option SSet) (k : Key),
      k ∈ fuseReducible dsk (dsk.map fun kv => (kv.1, getDepsL dsk kv.2)) keysSet
        ↔ amendedCandidate dsk keysSet k = true)
    ∧ (∀ (logA : Frac → Frac) (fuel : Nat) (keysOpt : Option (List Key))
        (depsOpt : Option (List (Key × List Key))) (awOpt mwOpt mhOpt mdneOpt : Option Frac)
        (rk : RenameArg) (rv : Graph) (dout : DepsOut),
        fuseF logA fuel dsk keysOpt depsOpt awOpt mwOpt mhOpt mdneOpt rk = some (rv, dout) →
        ∀ k, k ∈ dkeys dsk →
          k ∉ fuseReducible dsk (depsOpt.getD (dsk.map fun kv => (kv.1, getDepsL dsk kv.2)))
              (keysOpt.map fun ks => sdedup (flattenL ks)) →
          k ∈ dkeys rv) :=
  ⟨fun keysSet k => fuseReducible_mem dsk hnd keysSet k,
   fun logA fuel keysOpt depsOpt awOpt mwOpt mhOpt mdneOpt rk rv dout hres k hk hk0 =>
     fuseF_no_delete logA fuel dsk keysOpt depsOpt awOpt mwOpt mhOpt mdneOpt rk rv dout
       hres k hk hk0⟩

/-- Witness for claim C6: the characterization applied to the concrete graph
`exG6`. -/
theorem C6_witness :
    (dkeys exG6).Nodup
    ∧ ((∀ (keysSet : Option SSet) (k : Key),
        k ∈ fuseReducible exG6 (exG6.map fun kv => (kv.1, getDepsL exG6 kv.2)) keysSet
          ↔ amendedCandidate exG6 keysSet k = true)
      ∧ (∀ (logA : Frac → Frac) (fuel : Nat) (keysOpt : Option (List Key))
          (depsOpt : Option (List (Key × List Key))) (awOpt mwOpt mhOpt mdneOpt : Option Frac)
          (rk : RenameArg) (rv : Graph) (dout : DepsOut),
          fuseF logA fuel exG6 keysOpt depsOpt awOpt mwOpt mhOpt mdneOpt rk = some (rv, dout) →
          ∀ k, k ∈ dkeys exG6 →
            k ∉ fuseReducible exG6
                (depsOpt.getD (exG6.map fun kv => (kv.1, getDepsL exG6 kv.2)))
                (keysOpt.map fun ks => sdedup (flattenL ks)) →
            k ∈ dkeys rv)) :=
  ⟨by decide, C6_reducible_characterization exG6 (by decide)⟩

end Dag

namespace Dag

/-! Correctness of `_toposort` (claim C4). -/

/-- Edge of the dependency dict handed to the traversal. -/
def EdgeD (deps : DepsS) (u v : Key) : Prop :=
  ∃ l, dlookup deps u = some l ∧ v ∈ l

theorem dlookup_map_val {α β : Type} (f : Key → α → β) :
    ∀ (d : List (Key × α)) (k : Key),
    dlookup (d.map fun kv => (kv.1, f kv.1 kv.2)) k = (dlookup d k).map (fun v => f k v) := by
  intro d
  induction d with
  | nil => intro k; simp [dlookup]
  | cons kv rest ih =>
      intro k
      obtain ⟨k1, v1⟩ := kv
      by_cases h : k1 = k
      · subst h
        simp [dlookup]
      · simp only [List.map, dlookup, if_neg h]
        exact ih k

theorem dlookup_graphDepsS (dsk : Graph) (u : Key) :
    dlookup (graphDepsS dsk) u = (dlookup dsk u).map (getDepsS dsk) :=
  dlookup_map_val (fun _ w => getDepsS dsk w) dsk u

theorem EdgeD_graphDeps_iff (dsk : Graph) (u v : Key) :
    EdgeD (graphDepsS dsk) u v ↔ Edge dsk u v := by
  constructor
  · rintro ⟨l, hl, hv⟩
    rw [dlookup_graphDepsS] at hl
    cases hw : dlookup dsk u with
    | none => rw [hw] at hl; exact absurd hl (by exact Option.noConfusion)
    | some w =>
        rw [hw] at hl
        simp at hl
        subst hl
        rw [getDepsS, mem_sdedup] at hv
        rw [Edge, depsOfKey_of_lookup hw]
        exact hv
  · intro hv
    rw [Edge] at hv
    cases hw : dlookup dsk u with
    | none => rw [depsOfKey, hw] at hv; simp at hv
    | some w =>
        rw [depsOfKey_of_lookup hw] at hv
        refine ⟨getDepsS dsk w, ?_, (mem_sdedup _ v).mpr hv⟩
        rw [dlookup_graphDepsS, hw]
        rfl

theorem mem_sadd (s : SSet) (y x : Key) : x ∈ sadd s y ↔ x ∈ s ∨ x = y := by
  simp only [sadd]
  by_cases h : y ∈ s
  · rw [if_pos h]
    constructor
    · exact Or.inl
    · rintro (h2 | rfl)
      · exact h2
      · exact h
  · rw [if_neg h]
    simp [List.mem_append]

theorem sadd_of_mem (s : SSet) (y : Key) (h : y ∈ s) : sadd s y = s := by
  simp [sadd, h]

theorem scanDeps_ok (completed seen nodes : List Key) :
    ∀ (dc next : List Key), scanDeps completed seen nodes dc = .ok next →
    (∀ d ∈ dc, d ∈ completed ∨ d ∈ next)
    ∧ (∀ x ∈ next, x ∈ dc ∧ x ∉ completed ∧ x ∉ seen) := by
  intro dc
  induction dc with
  | nil =>
      intro next h
      simp only [scanDeps] at h
      injection h with h2
      subst h2
      exact ⟨fun d hd => absurd hd (List.not_mem_nil d), fun x hx => absurd hx (List.not_mem_nil x)⟩
  | cons nxt rest ih =>
      intro next h
      simp only [scanDeps] at h
      by_cases h1 : nxt ∈ completed
      · rw [if_pos h1] at h
        obtain ⟨ha, hb⟩ := ih next h
        refine ⟨?_, ?_⟩
        · intro d hd
          rcases List.mem_cons.mp hd with rfl | hd2
          · exact Or.inl h1
          · exact ha d hd2
        · intro x hx
          obtain ⟨hc, hd2, he⟩ := hb x hx
          exact ⟨List.mem_cons_of_mem _ hc, hd2, he⟩
      · rw [if_neg h1] at h
        by_cases h2 : nxt ∈ seen
        · rw [if_pos h2] at h
          simp at h
        · rw [if_neg h2] at h
          cases h3 : scanDeps completed seen nodes rest with
          | error c => rw [h3] at h; simp at h
          | ok ns =>
              rw [h3] at h
              injection h with h4
              subst h4
              obtain ⟨ha, hb⟩ := ih ns h3
              constructor
              · intro d hd
                rcases List.mem_cons.mp hd with rfl | hd2
                · exact Or.inr (List.mem_cons_self _ _)
                · rcases ha d hd2 with h5 | h5
                  · exact Or.inl h5
                  · exact Or.inr (List.mem_cons_of_mem _ h5)
              · intro x hx
                rcases List.mem_cons.mp hx with rfl | hx2
                · exact ⟨List.mem_cons_self _ _, h1, h2⟩
                · obtain ⟨hc, hd2, he⟩ := hb x hx2
                  exact ⟨List.mem_cons_of_mem _ hc, hd2, he⟩

theorem scanDeps_error (completed seen nodes : List Key) :
    ∀ (dc : List Key) (c : List Key), scanDeps completed seen nodes dc = .error c →
    ∃ nxt, nxt ∈ dc ∧ nxt ∉ completed ∧ nxt ∈ seen ∧ c = buildCycle nxt nodes := by
  intro dc
  induction dc with
  | nil => intro c h; simp [scanDeps] at h
  | cons nxt rest ih =>
      intro c h
      simp only [scanDeps] at h
      by_cases h1 : nxt ∈ completed
      · rw [if_pos h1] at h
        obtain ⟨n2, ha, hb, hc, hd⟩ := ih c h
        exact ⟨n2, List.mem_cons_of_mem _ ha, hb, hc, hd⟩
      · rw [if_neg h1] at h
        by_cases h2 : nxt ∈ seen
        · rw [if_pos h2] at h
          injection h with h3
          exact ⟨nxt, List.mem_cons_self _ _, h1, h2, h3.symm⟩
        · rw [if_neg h2] at h
          cases h3 : scanDeps completed seen nodes rest with
          | error c2 =>
              rw [h3] at h
              injection h with h4
              subst h4
              obtain ⟨n2, ha, hb, hc, hd⟩ := ih c2 h3
              exact ⟨n2, List.mem_cons_of_mem _ ha, hb, hc, hd⟩
          | ok ns => rw [h3] at h; simp at h

/-- Decomposition of the traversal stack: the open chain (head = deepest)
interleaved with pending blocks, each pending cell being a dependency of the
open node directly below it and absent from the chain at or below it. -/
inductive SD (deps : DepsS) : List Key → List Key → Prop where
  | base (cells : List Key) : SD deps [] cells
  | level (q : Key) (chain block rest : List Key)
      (hrest : SD deps chain rest)
      (hq : ∀ q2 c2, chain = q2 :: c2 → EdgeD deps q2 q)
      (hqc : q ∉ chain)
      (hblock : ∀ c ∈ block, EdgeD deps q c ∧ c ∉ q :: chain) :
      SD deps (q :: chain) (block ++ q :: rest)

theorem SD_nil (deps : DepsS) : ∀ chain ns, SD deps chain ns → ns = [] → chain = [] := by
  intro chain ns h
  cases h with
  | base => intro _; rfl
  | level q chain block rest hrest hq hqc hblock =>
      intro hn
      exact absurd hn (by simp)

theorem SD_nodup (deps : DepsS) : ∀ chain ns, SD deps chain ns → chain.Nodup := by
  intro chain ns h
  induction h with
  | base => exact List.nodup_nil
  | level q chain block rest hrest hq hqc hblock ih => exact List.nodup_cons.mpr ⟨hqc, ih⟩

theorem SD_chain_mem (deps : DepsS) : ∀ chain ns, SD deps chain ns → ∀ x ∈ chain, x ∈ ns := by
  intro chain ns h
  induction h with
  | base => intro x hx; exact absurd hx (List.not_mem_nil x)
  | level q chain block rest hrest hq hqc hblock ih =>
      intro x hx
      rcases List.mem_cons.mp hx with rfl | hx2
      · exact List.mem_append_right _ (List.mem_cons_self _ _)
      · exact List.mem_append_right _ (List.mem_cons_of_mem _ (ih x hx2))

theorem SD_chain_rtg (deps : DepsS) : ∀ chain ns, SD deps chain ns →
    ∀ q c2, chain = q :: c2 → ∀ x ∈ chain, Relation.ReflTransGen (EdgeD deps) x q := by
  intro chain ns h
  induction h with
  | base => intro q c2 hq; simp at hq
  | level q chain block rest hrest hq hqc hblock ih =>
      intro q2 c2 heq x hx
      injection heq with hq2 hc2
      subst hq2
      subst hc2
      rcases List.mem_cons.mp hx with rfl | hx2
      · exact Relation.ReflTransGen.refl
      · cases hch : chain with
        | nil => rw [hch] at hx2; exact absurd hx2 (List.not_mem_nil x)
        | cons q3 c3 =>
            have hpath := ih q3 c3 hch x (hch ▸ hx2)
            exact hpath.tail (hq q3 c3 hch)

theorem SD_cons_inversion (deps : DepsS) (chain : List Key) (cur : Key)
    (rest ns : List Key) (h : SD deps chain ns) (hns : ns = cur :: rest) :
    (∃ chain2, chain = cur :: chain2 ∧ SD deps chain2 rest
      ∧ (∀ q2 c2, chain2 = q2 :: c2 → EdgeD deps q2 cur) ∧ cur ∉ chain2)
    ∨ (SD deps chain rest ∧ cur ∉ chain
      ∧ (∀ q2 c2, chain = q2 :: c2 → EdgeD deps q2 cur)) := by
  cases h with
  | base =>
      exact Or.inr ⟨SD.base rest, List.not_mem_nil cur, by intro q2 c2 h2; simp at h2⟩
  | level q chain2 block rest2 hrest hq hqc hblock =>
      cases block with
      | nil =>
          rw [List.nil_append] at hns
          injection hns with h1 h2
          subst h1
          subst h2
          exact Or.inl ⟨chain2, rfl, hrest, hq, hqc⟩
      | cons c blockRest =>
          rw [List.cons_append] at hns
          injection hns with h1 h2
          subst h1
          subst h2
          obtain ⟨hce, hcn⟩ := hblock c (List.mem_cons_self _ _)
          refine Or.inr ⟨SD.level q chain2 blockRest rest2 hrest hq hqc ?_, hcn, ?_⟩
          · intro c2 hc2
            exact hblock c2 (List.mem_cons_of_mem _ hc2)
          · intro q2 c2 heq
            injection heq with h3 h4
            subst h3
            exact hce

theorem append_singleton_split {α : Type} (l l1 l2 : List α) (a k : α)
    (h : l ++ [a] = l1 ++ k :: l2) :
    (∃ l2x, l = l1 ++ k :: l2x ∧ l2 = l2x ++ [a]) ∨ (l1 = l ∧ k = a ∧ l2 = []) := by
  rcases List.eq_nil_or_concat l2 with rfl | ⟨l2x, b, rfl⟩
  · right
    have h2 : l ++ [a] = l1 ++ [k] := h
    have hlen : l.length = l1.length := by
      have := congrArg List.length h2
      simp at this
      omega
    obtain ⟨h3, h4⟩ := List.append_inj h2 hlen
    injection h4 with h5
    exact ⟨h3.symm, h5.symm, rfl⟩
  · left
    rw [List.concat_eq_append] at h ⊢
    rw [show l1 ++ k :: (l2x ++ [b]) = (l1 ++ k :: l2x) ++ [b] by simp] at h
    have hlen : l.length = (l1 ++ k :: l2x).length := by
      have := congrArg List.length h
      simp at this
      simp
      omega
    obtain ⟨h3, h4⟩ := List.append_inj h hlen
    injection h4 with h5
    exact ⟨l2x, h3, by rw [h5]⟩

/-- Master invariant of the `_toposort` traversal: the completed set is
dependency-closed and consists of keys of the dependency dict; the ordered
list enumerates the completed set without duplicates, each key after its
dependencies; the stack decomposes into the open chain (tracked by `seen`)
and pending blocks; and every stack cell satisfies the reachability
predicate `R`. -/
def TInv (deps : DepsS) (R : Key → Prop) (st : TopoSt) (nodes : List Key) : Prop :=
  (∀ k ∈ st.completed, ∀ l, dlookup deps k = some l → ∀ d ∈ l, d ∈ st.completed)
  ∧ (∀ k ∈ st.completed, (dlookup deps k).isSome = true)
  ∧ st.ordered.Nodup
  ∧ (∀ k, k ∈ st.ordered ↔ k ∈ st.completed)
  ∧ (∀ l1 k l2, st.ordered = l1 ++ k :: l2 → ∀ l, dlookup deps k = some l → ∀ d ∈ l, d ∈ l1)
  ∧ (∃ chain, SD deps chain nodes ∧ (∀ x, x ∈ st.seen ↔ x ∈ chain)
      ∧ (∀ x ∈ chain, x ∉ st.completed))
  ∧ (∀ c ∈ nodes, R c)

theorem topoLoop_spec (deps : DepsS) (R : Key → Prop)
    (hR : ∀ u v, R u → EdgeD deps u v → R v) :
    ∀ (fuel : Nat) (st : TopoSt) (nodes : List Key) (r : Except (List Key) TopoSt),
    TInv deps R st nodes → topoLoop deps fuel st nodes = some r →
    (∀ st2, r = .ok st2 → TInv deps R st2 []
      ∧ (∀ x ∈ st.completed, x ∈ st2.completed)
      ∧ (∀ c ∈ nodes, c ∈ st2.completed))
    ∧ (∀ cyc, r = .error cyc →
        (∃ x, R x ∧ Relation.TransGen (EdgeD deps) x x)
        ∧ ∃ nxt mid, cyc = nxt :: mid ++ [nxt]) := by
  intro fuel
  induction fuel with
  | zero => intro st nodes r _ h; simp [topoLoop] at h
  | succ fuel ih =>
      intro st nodes r hinv hres
      cases nodes with
      | nil =>
          simp only [topoLoop, Option.some.injEq] at hres
          subst hres
          refine ⟨?_, ?_⟩
          · intro st2 hok
            injection hok with h2
            subst h2
            exact ⟨hinv, fun x hx => hx, fun c hc => absurd hc (List.not_mem_nil c)⟩
          · intro cyc hcyc
            exact absurd hcyc (by simp)
      | cons cur rest =>
          simp only [topoLoop] at hres
          obtain ⟨A1, A2, B1, B2, B3, ⟨chain, hSD, hseen, hEchain⟩, F⟩ := hinv
          by_cases hc : cur ∈ st.completed
          · rw [if_pos hc] at hres
            have hSDr : SD deps chain rest := by
              rcases SD_cons_inversion deps chain cur rest _ hSD rfl with
                ⟨chain2, hch, _, _, _⟩ | ⟨hr, _, _⟩
              · exact absurd hc (hEchain cur (by rw [hch]; exact List.mem_cons_self _ _))
              · exact hr
            have hinv2 : TInv deps R st rest :=
              ⟨A1, A2, B1, B2, B3, ⟨chain, hSDr, hseen, hEchain⟩,
                fun c hc2 => F c (List.mem_cons_of_mem _ hc2)⟩
            obtain ⟨hok, herr⟩ := ih st rest r hinv2 hres
            refine ⟨?_, herr⟩
            intro st2 h2
            obtain ⟨ha, hb, hcc⟩ := hok st2 h2
            refine ⟨ha, hb, ?_⟩
            intro c hc2
            rcases List.mem_cons.mp hc2 with rfl | hc3
            · exact hb c hc
            · exact hcc c hc3
          · rw [if_neg hc] at hres
            cases hdc : dlookup deps cur with
            | none => rw [hdc] at hres; simp at hres
            | some dc =>
                rw [hdc] at hres
                simp only [] at hres
                cases hscan : scanDeps st.completed (sadd st.seen cur) (cur :: rest) dc with
                | error cyc =>
                    rw [hscan] at hres
                    simp only [Option.some.injEq] at hres
                    subst hres
                    refine ⟨fun st2 h2 => absurd h2 (by simp), ?_⟩
                    intro cyc2 hcyc
                    injection hcyc with h2
                    subst h2
                    obtain ⟨nxt, hnxtdc, hnxtc, hnxts, hcycEq⟩ :=
                      scanDeps_error _ _ _ dc cyc hscan
                    have hEcur : EdgeD deps cur nxt := ⟨dc, hdc, hnxtdc⟩
                    constructor
                    · rcases (mem_sadd st.seen cur nxt).mp hnxts with hns | rfl
                      · have hnchain : nxt ∈ chain := (hseen nxt).mp hns
                        have hrtg : Relation.ReflTransGen (EdgeD deps) nxt cur := by
                          rcases SD_cons_inversion deps chain cur rest _ hSD rfl with
                            ⟨chain2, hch, _, _, _⟩ | ⟨_, _, hq⟩
                          · exact SD_chain_rtg deps chain _ hSD cur chain2 hch nxt hnchain
                          · cases hch2 : chain with
                            | nil => rw [hch2] at hnchain; exact absurd hnchain (by simp)
                            | cons q2 c2 =>
                                have h3 := SD_chain_rtg deps chain _ hSD q2 c2 hch2 nxt
                                  (hch2 ▸ hnchain)
                                exact h3.tail (hq q2 c2 hch2)
                        refine ⟨nxt, ?_, Relation.TransGen.tail' hrtg hEcur⟩
                        exact F nxt (SD_chain_mem deps chain _ hSD nxt hnchain)
                      · exact ⟨nxt, F nxt (List.mem_cons_self _ _),
                          Relation.TransGen.single hEcur⟩
                    · exact ⟨nxt, (cur :: rest).takeWhile (· ≠ nxt) |>.reverse, by
                        rw [hcycEq]; rfl⟩
                | ok next =>
                    rw [hscan] at hres
                    simp only [] at hres
                    obtain ⟨hsOK1, hsOK2⟩ := scanDeps_ok _ _ _ dc next hscan
                    by_cases hne : next.isEmpty = true
                    · rw [if_pos hne] at hres
                      have hnext : next = [] := by
                        cases next with
                        | nil => rfl
                        | cons a b => simp [List.isEmpty] at hne
                      subst hnext
                      have hdcc : ∀ d ∈ dc, d ∈ st.completed := by
                        intro d hd
                        rcases hsOK1 d hd with h2 | h2
                        · exact h2
                        · exact absurd h2 (List.not_mem_nil d)
                      have hcurO : cur ∉ st.ordered := fun h2 => hc ((B2 cur).mp h2)
                      have hinv2 : TInv deps R
                          { ordered := st.ordered ++ [cur],
                            completed := sadd st.completed cur,
                            seen := sdiscard (sadd st.seen cur) cur } rest := by
                        refine ⟨?_, ?_, ?_, ?_, ?_, ?_, ?_⟩
                        · intro k hk l hl d hd
                          rcases (mem_sadd st.completed cur k).mp hk with hk2 | rfl
                          · exact (mem_sadd _ _ _).mpr (Or.inl (A1 k hk2 l hl d hd))
                          · rw [hdc] at hl
                            injection hl with hl2
                            subst hl2
                            exact (mem_sadd _ _ _).mpr (Or.inl (hdcc d hd))
                        · intro k hk
                          rcases (mem_sadd st.completed cur k).mp hk with hk2 | rfl
                          · exact A2 k hk2
                          · rw [hdc]; rfl
                        · rw [List.nodup_append]
                          exact ⟨B1, List.nodup_singleton cur, fun a ha hb =>
                            (by rw [List.mem_singleton] at hb; rw [hb] at ha; exact hcurO ha)⟩
                        · intro k
                          rw [List.mem_append, List.mem_singleton, mem_sadd, B2]
                        · intro l1 k l2 hsplit l hl d hd
                          rcases append_singleton_split st.ordered l1 l2 cur k hsplit with
                            ⟨l2x, hord, _⟩ | ⟨hl1, rfl, _⟩
                          · exact B3 l1 k l2x hord l hl d hd
                          · rw [hdc] at hl
                            injection hl with hl2
                            subst hl2
                            rw [hl1]
                            exact (B2 d).mpr (hdcc d hd)
                        · rcases SD_cons_inversion deps chain cur rest _ hSD rfl with
                            ⟨chain2, hch, hSD2, hq2, hqc2⟩ | ⟨hSDr, hncur, hq⟩
                          · refine ⟨chain2, hSD2, ?_, ?_⟩
                            · intro x
                              rw [mem_sdiscard, mem_sadd]
                              constructor
                              · rintro ⟨hx1 | rfl, hx2⟩
                                · have := (hseen x).mp hx1
                                  rw [hch] at this
                                  rcases List.mem_cons.mp this with rfl | h3
                                  · exact absurd rfl hx2
                                  · exact h3
                                · exact absurd rfl hx2
                              · intro hx
                                have hxc : x ∈ chain := by
                                  rw [hch]; exact List.mem_cons_of_mem _ hx
                                refine ⟨Or.inl ((hseen x).mpr hxc), ?_⟩
                                intro h3
                                rw [h3] at hx
                                exact hqc2 hx
                            · intro x hx
                              rw [mem_sadd]
                              rintro (h3 | rfl)
                              · exact hEchain x (by rw [hch]; exact List.mem_cons_of_mem _ hx) h3
                              · exact hqc2 hx
                          · refine ⟨chain, hSDr, ?_, ?_⟩
                            · intro x
                              rw [mem_sdiscard, mem_sadd]
                              constructor
                              · rintro ⟨hx1 | rfl, hx2⟩
                                · exact (hseen x).mp hx1
                                · exact absurd rfl hx2
                              · intro hx
                                refine ⟨Or.inl ((hseen x).mpr hx), ?_⟩
                                intro h3
                                rw [h3] at hx
                                exact hncur hx
                            · intro x hx
                              rw [mem_sadd]
                              rintro (h3 | rfl)
                              · exact hEchain x hx h3
                              · exact hncur hx
                        · intro c hc2
                          exact F c (List.mem_cons_of_mem _ hc2)
                      obtain ⟨hok, herr⟩ := ih _ rest r hinv2 hres
                      refine ⟨?_, herr⟩
                      intro st2 h2
                      obtain ⟨ha, hb, hcc⟩ := hok st2 h2
                      refine ⟨ha, ?_, ?_⟩
                      · intro x hx
                        exact hb x ((mem_sadd _ _ _).mpr (Or.inl hx))
                      · intro c hc2
                        rcases List.mem_cons.mp hc2 with rfl | hc3
                        · exact hb c ((mem_sadd _ _ _).mpr (Or.inr rfl))
                        · exact hcc c hc3
                    · rw [if_neg hne] at hres
                      have hblockOK : ∀ c ∈ next.reverse,
                          EdgeD deps cur c ∧ c ∉ sadd st.seen cur := by
                        intro c hc2
                        rw [List.mem_reverse] at hc2
                        obtain ⟨h3, _, h5⟩ := hsOK2 c hc2
                        refine ⟨⟨dc, hdc, h3⟩, ?_⟩
                        obtain ⟨_, _, h6⟩ := hsOK2 c hc2
                        exact h6
                      have hinv2 : TInv deps R { st with seen := sadd st.seen cur }
                          (next.reverse ++ cur :: rest) := by
                        refine ⟨A1, A2, B1, B2, B3, ?_, ?_⟩
                        · rcases SD_cons_inversion deps chain cur rest _ hSD rfl with
                            ⟨chain2, hch, hSD2, hq2, hqc2⟩ | ⟨hSDr, hncur, hq⟩
                          · refine ⟨chain, ?_, ?_, hEchain⟩
                            · rw [hch]
                              refine SD.level cur chain2 next.reverse rest hSD2 hq2 hqc2 ?_
                              intro c hc2
                              obtain ⟨hE, hns⟩ := hblockOK c hc2
                              refine ⟨hE, ?_⟩
                              rw [← hch]
                              intro h3
                              exact hns ((mem_sadd _ _ _).mpr
                                (Or.inl ((hseen c).mpr h3)))
                            · intro x
                              rw [mem_sadd]
                              constructor
                              · rintro (h3 | rfl)
                                · exact (hseen x).mp h3
                                · rw [hch]; exact List.mem_cons_self _ _
                              · intro h3
                                exact Or.inl ((hseen x).mpr h3)
                          · refine ⟨cur :: chain, ?_, ?_, ?_⟩
                            · refine SD.level cur chain next.reverse rest hSDr hq hncur ?_
                              intro c hc2
                              obtain ⟨hE, hns⟩ := hblockOK c hc2
                              refine ⟨hE, ?_⟩
                              intro h3
                              rcases List.mem_cons.mp h3 with rfl | h4
                              · exact hns ((mem_sadd _ _ _).mpr (Or.inr rfl))
                              · exact hns ((mem_sadd _ _ _).mpr
                                  (Or.inl ((hseen c).mpr h4)))
                            · intro x
                              rw [mem_sadd, List.mem_cons]
                              constructor
                              · rintro (h3 | rfl)
                                · exact Or.inr ((hseen x).mp h3)
                                · exact Or.inl rfl
                              · rintro (rfl | h3)
                                · exact Or.inr rfl
                                · exact Or.inl ((hseen x).mpr h3)
                            · intro x hx
                              rcases List.mem_cons.mp hx with rfl | h3
                              · exact hc
                              · exact hEchain x h3
                        · intro c hc2
                          rcases List.mem_append.mp hc2 with h3 | h3
                          · obtain ⟨hE, _⟩ := hblockOK c h3
                            exact hR cur c (F cur (List.mem_cons_self _ _)) hE
                          · exact F c h3
                      obtain ⟨hok, herr⟩ := ih _ _ r hinv2 hres
                      refine ⟨?_, herr⟩
                      intro st2 h2
                      obtain ⟨ha, hb, hcc⟩ := hok st2 h2
                      refine ⟨ha, hb, ?_⟩
                      intro c hc2
                      exact hcc c (List.mem_append_right _ hc2)

theorem topoKeys_spec (deps : DepsS) (R : Key → Prop)
    (hR : ∀ u v, R u → EdgeD deps u v → R v) (fuel : Nat) :
    ∀ (keys : List Key) (st : TopoSt) (r : Except (List Key) TopoSt),
    TInv deps R st [] → (∀ k ∈ keys, R k) →
    topoKeys deps fuel st keys = some r →
    (∀ st2, r = .ok st2 → TInv deps R st2 []
      ∧ (∀ x ∈ st.completed, x ∈ st2.completed)
      ∧ (∀ k ∈ keys, k ∈ st2.completed))
    ∧ (∀ cyc, r = .error cyc →
        (∃ x, R x ∧ Relation.TransGen (EdgeD deps) x x)
        ∧ ∃ nxt mid, cyc = nxt :: mid ++ [nxt]) := by
  intro keys
  induction keys with
  | nil =>
      intro st r hinv _ hres
      simp only [topoKeys, Option.some.injEq] at hres
      subst hres
      refine ⟨?_, fun cyc hcyc => absurd hcyc (by simp)⟩
      intro st2 hok
      injection hok with h
      subst h
      exact ⟨hinv, fun x hx => hx, by simp⟩
  | cons k ks ihk =>
      intro st r hinv hRk hres
      simp only [topoKeys] at hres
      by_cases hkc : k ∈ st.completed
      · rw [if_pos hkc] at hres
        obtain ⟨hok, herr⟩ := ihk st r hinv
          (fun k2 hk2 => hRk k2 (List.mem_cons_of_mem _ hk2)) hres
        refine ⟨?_, herr⟩
        intro st2 h2
        obtain ⟨ha, hb, hcc⟩ := hok st2 h2
        refine ⟨ha, hb, ?_⟩
        intro k2 hk2
        rcases List.mem_cons.mp hk2 with rfl | h3
        · exact hb k2 hkc
        · exact hcc k2 h3
      · rw [if_neg hkc] at hres
        obtain ⟨A1, A2, B1, B2, B3, ⟨chain, hSD, hseen, hEchain⟩, _⟩ := hinv
        have hch : chain = [] := SD_nil deps chain [] hSD rfl
        subst hch
        have hinv1 : TInv deps R st [k] := by
          refine ⟨A1, A2, B1, B2, B3, ⟨[], SD.base [k], hseen, hEchain⟩, ?_⟩
          intro c hc
          rw [List.mem_singleton] at hc
          subst hc
          exact hRk c (List.mem_cons_self _ _)
        cases hloop : topoLoop deps fuel st [k] with
        | none => rw [hloop] at hres; simp at hres
        | some r2 =>
            rw [hloop] at hres
            obtain ⟨hok1, herr1⟩ := topoLoop_spec deps R hR fuel st [k] r2 hinv1 hloop
            cases r2 with
            | error c =>
                simp only [Option.some.injEq] at hres
                subst hres
                refine ⟨fun st2 h2 => absurd h2 (by simp), ?_⟩
                intro cyc hcyc
                injection hcyc with h2
                subst h2
                exact herr1 c rfl
            | ok st1 =>
                simp only [] at hres
                obtain ⟨ha, hb, hcc⟩ := hok1 st1 rfl
                obtain ⟨hok2, herr2⟩ := ihk st1 r ha
                  (fun k2 hk2 => hRk k2 (List.mem_cons_of_mem _ hk2)) hres
                refine ⟨?_, herr2⟩
                intro st2 h2
                obtain ⟨hd, he, hf⟩ := hok2 st2 h2
                refine ⟨hd, fun x hx => he x (hb x hx), ?_⟩
                intro k2 hk2
                rcases List.mem_cons.mp hk2 with rfl | h3
                · exact he k2 (hcc k2 (List.mem_singleton.mpr rfl))
                · exact hf k2 h3

theorem nodup_split_unique {α : Type} (x : α) :
    ∀ (a b c d : List α), (a ++ x :: b).Nodup → a ++ x :: b = c ++ x :: d →
    a = c ∧ b = d := by
  intro a
  induction a with
  | nil =>
      intro b c d hnd h
      cases c with
      | nil =>
          rw [List.nil_append] at h
          injection h with _ h2
          exact ⟨rfl, h2⟩
      | cons y c2 =>
          rw [List.nil_append, List.cons_append] at h
          injection h with h1 h2
          subst h1
          rw [List.nil_append, List.nodup_cons] at hnd
          exact absurd (by rw [h2]; exact List.mem_append_right _ (List.mem_cons_self _ _))
            hnd.1
  | cons y a2 ih =>
      intro b c d hnd h
      cases c with
      | nil =>
          rw [List.cons_append, List.nil_append] at h
          injection h with h1 h2
          subst h1
          rw [List.cons_append, List.nodup_cons] at hnd
          exact absurd (List.mem_append_right _ (List.mem_cons_self _ _)) hnd.1
      | cons z c2 =>
          rw [List.cons_append, List.cons_append] at h
          injection h with h1 h2
          subst h1
          rw [List.cons_append, List.nodup_cons] at hnd
          obtain ⟨ha, hb⟩ := ih b c2 d hnd.2 h2
          exact ⟨by rw [ha], hb⟩

/-- Strictly-before relation induced by the ordered output list. -/
def OrdB (ordered : List Key) (u v : Key) : Prop :=
  ∃ l1 l2, ordered = l1 ++ v :: l2 ∧ u ∈ l1

theorem OrdB_trans (ordered : List Key) (hnd : ordered.Nodup) (u v w : Key)
    (h1 : OrdB ordered u v) (h2 : OrdB ordered v w) : OrdB ordered u w := by
  obtain ⟨l1, l2, hs1, hu⟩ := h1
  obtain ⟨m1, m2, hs2, hv⟩ := h2
  obtain ⟨p, q, hpq⟩ := List.append_of_mem hv
  rw [hpq] at hs2
  rw [show (p ++ v :: q) ++ w :: m2 = p ++ v :: (q ++ w :: m2) by simp] at hs2
  have hnd2 : (l1 ++ v :: l2).Nodup := hs1 ▸ hnd
  obtain ⟨hpe, hqe⟩ := nodup_split_unique v l1 l2 p (q ++ w :: m2) hnd2 (hs1.symm.trans hs2)
  refine ⟨l1 ++ v :: q, m2, ?_, List.mem_append_left _ hu⟩
  rw [hs1, hqe]
  simp

theorem OrdB_irrefl (ordered : List Key) (hnd : ordered.Nodup) (u : Key)
    (h : OrdB ordered u u) : False := by
  obtain ⟨l1, l2, hs, hu⟩ := h
  rw [hs, List.nodup_append] at hnd
  exact hnd.2.2 hu (List.mem_cons_self _ _)

theorem TInv_completed_closed (deps : DepsS) (R : Key → Prop) (st : TopoSt)
    (hinv : TInv deps R st []) :
    ∀ x y, Relation.ReflTransGen (EdgeD deps) x y → x ∈ st.completed →
    y ∈ st.completed := by
  obtain ⟨A1, _, _, _, _, _, _⟩ := hinv
  intro x y hre
  induction hre with
  | refl => exact fun h => h
  | tail hab hbc ih2 =>
      intro hx
      obtain ⟨l, hl, hml⟩ := hbc
      exact A1 _ (ih2 hx) l hl _ hml

theorem TInv_completed_acyclic (deps : DepsS) (R : Key → Prop) (st : TopoSt)
    (hinv : TInv deps R st []) :
    ∀ x ∈ st.completed, ¬ Relation.TransGen (EdgeD deps) x x := by
  have hclosed := TInv_completed_closed deps R st hinv
  obtain ⟨A1, A2, B1, B2, B3, _, _⟩ := hinv
  have hstep : ∀ u d, u ∈ st.completed → EdgeD deps u d → OrdB st.ordered d u := by
    intro u d hu hE
    obtain ⟨l, hl, hdl⟩ := hE
    obtain ⟨l1, l2, hs⟩ := List.append_of_mem ((B2 u).mpr hu)
    exact ⟨l1, l2, hs, B3 l1 u l2 hs l hl d hdl⟩
  have hrtg : ∀ u w, Relation.ReflTransGen (EdgeD deps) u w → u ∈ st.completed →
      w = u ∨ OrdB st.ordered w u := by
    intro u w hre
    induction hre with
    | refl => exact fun _ => Or.inl rfl
    | tail hab hbc ih2 =>
        intro hu
        rename_i b c
        have hbcomp : b ∈ st.completed := hclosed u b hab hu
        have hcb : OrdB st.ordered c b := hstep b c hbcomp hbc
        rcases ih2 hu with rfl | h2
        · exact Or.inr hcb
        · exact Or.inr (OrdB_trans st.ordered B1 c b u hcb h2)
  intro x hx hcyc
  obtain ⟨w, hxw, hwx⟩ := Relation.TransGen.tail'_iff.mp hcyc
  rcases hrtg x w hxw hx with rfl | h2
  · exact OrdB_irrefl st.ordered B1 w (hstep w w hx hwx)
  · have hwc := hclosed x w hxw hx
    have h3 := hstep w x hwc hwx
    exact OrdB_irrefl st.ordered B1 x (OrdB_trans st.ordered B1 x w x h3 h2)

theorem dkeys_graphDepsS (dsk : Graph) : dkeys (graphDepsS dsk) = dkeys dsk := by
  rw [dkeys, graphDepsS, List.map_map]
  rfl

theorem get_mem_take_lt (l : List Key) (hnd : l.Nodup) (i j : Fin l.length)
    (h : l.get i ∈ l.take j.val) : i.val < j.val := by
  rw [List.mem_iff_getElem] at h
  obtain ⟨m, hm, hget⟩ := h
  rw [List.getElem_take] at hget
  have hmj : m < j.val := by
    rw [List.length_take] at hm
    omega
  have hml : m < l.length := lt_trans hmj j.isLt
  have hmi : m = i.val := by
    rw [List.get_eq_getElem] at hget
    exact (List.Nodup.getElem_inj_iff hnd).mp hget
  omega

theorem topoKeys_graph (dsk : Graph) (fuel : Nat) (keys : List Key)
    (r : Except (List Key) TopoSt)
    (hres : topoKeys (graphDepsS dsk) fuel ⟨[], [], []⟩ keys = some r) :
    (∀ st2, r = .ok st2 →
      TInv (graphDepsS dsk) (fun x => ∃ t ∈ keys, Reaches dsk t x) st2 []
      ∧ (∀ k ∈ keys, k ∈ st2.completed))
    ∧ (∀ cyc, r = .error cyc →
      (∃ x, (∃ t ∈ keys, Reaches dsk t x) ∧ OnCycle dsk x)
      ∧ ∃ nxt mid, cyc = nxt :: mid ++ [nxt]) := by
  have hR : ∀ u v, (∃ t ∈ keys, Reaches dsk t u) → EdgeD (graphDepsS dsk) u v →
      ∃ t ∈ keys, Reaches dsk t v := by
    rintro u v ⟨t, ht, hr⟩ hE
    exact ⟨t, ht, hr.tail ((EdgeD_graphDeps_iff dsk u v).mp hE)⟩
  have hinit : TInv (graphDepsS dsk) (fun x => ∃ t ∈ keys, Reaches dsk t x) ⟨[], [], []⟩ [] := by
    refine ⟨?_, ?_, List.nodup_nil, fun k => Iff.rfl, ?_, ⟨[], SD.base [], fun x => Iff.rfl, ?_⟩, ?_⟩
    · intro k hk
      exact absurd hk (List.not_mem_nil k)
    · intro k hk
      exact absurd hk (List.not_mem_nil k)
    · intro l1 k l2 h2
      exact absurd h2.symm (by simp)
    · intro x hx
      exact absurd hx (List.not_mem_nil x)
    · intro c hc
      exact absurd hc (List.not_mem_nil c)
  have hRk : ∀ k ∈ keys, ∃ t ∈ keys, Reaches dsk t k :=
    fun k hk => ⟨k, hk, Relation.ReflTransGen.refl⟩
  obtain ⟨hok, herr⟩ := topoKeys_spec (graphDepsS dsk) _ hR fuel keys _ r hinit hRk hres
  constructor
  · intro st2 h2
    obtain ⟨ha, _, hc⟩ := hok st2 h2
    exact ⟨ha, hc⟩
  · intro cyc h2
    obtain ⟨⟨x, hRx, hcyc⟩, hshape⟩ := herr cyc h2
    refine ⟨⟨x, hRx, ?_⟩, hshape⟩
    exact Relation.TransGen.mono (fun a b h => (EdgeD_graphDeps_iff dsk a b).mp h) hcyc

/-- Claim C4 (amended): whenever `toposort` returns without error it returns
a permutation of the graph keys in which every key appears after each of its
dependencies; whenever it raises the cycle error, a genuine dependency cycle
is reachable from the graph keys and the reported sequence begins and ends
with the re-encountered key (though it need not itself be a cycle path); and
`isdag(d, keys)` returns `true` exactly when no dependency cycle is
reachable from `keys`. -/
theorem C4_toposort_correct :
    (∀ (fuel : Nat) (dsk : Graph), (dkeys dsk).Nodup → ∀ l : List Key,
      toposortF fuel dsk none = some (.ok l) → TopoOrder dsk l)
    ∧ (∀ (fuel : Nat) (dsk : Graph) (cyc : List Key),
      toposortF fuel dsk none = some (.error cyc) →
      (∃ x, (∃ t ∈ dkeys dsk, Reaches dsk t x) ∧ OnCycle dsk x)
      ∧ ∃ nxt mid, cyc = nxt :: mid ++ [nxt])
    ∧ (∀ (fuel : Nat) (d : Graph) (keys : List Key) (b : Bool),
      isdagF fuel d keys = some b →
      (b = true ↔ ¬ ∃ x, (∃ t ∈ keys, Reaches d t x) ∧ OnCycle d x)) := by
  refine ⟨?_, ?_, ?_⟩
  · intro fuel dsk hnd l hres
    simp only [toposortF, Option.getD_none] at hres
    cases hk : topoKeys (graphDepsS dsk) fuel ⟨[], [], []⟩ (dkeys dsk) with
    | none => rw [hk] at hres; simp at hres
    | some r2 =>
        rw [hk] at hres
        cases r2 with
        | error c => simp [Except.map] at hres
        | ok st2 =>
            simp only [Option.map_some, Except.map, Option.some.injEq] at hres
            have hl : st2.ordered = l := by
              injection hres with h2
              injection h2 with h3
            subst hl
            obtain ⟨hokPart, _⟩ := topoKeys_graph dsk fuel (dkeys dsk) _ hk
            obtain ⟨hinvF, hcomp⟩ := hokPart st2 rfl
            obtain ⟨A1, A2, B1, B2, B3, _, _⟩ := hinvF
            have hmem : ∀ k, k ∈ st2.ordered ↔ k ∈ dkeys dsk := by
              intro k
              constructor
              · intro h
                have h2 := (B2 k).mp h
                have h3 := A2 k h2
                rw [dlookup_isSome_iff_mem, dkeys_graphDepsS] at h3
                exact h3
              · intro h
                exact (B2 k).mpr (hcomp k h)
            refine ⟨(List.perm_ext_iff_of_nodup B1 hnd).mpr hmem, ?_⟩
            intro i j hij
            have hkj : st2.ordered.get j ∈ dkeys dsk :=
              (hmem _).mp (List.get_mem st2.ordered j.val j.isLt)
            obtain ⟨v, hv⟩ := Option.isSome_iff_exists.mp
              ((dlookup_isSome_iff_mem dsk (st2.ordered.get j)).mpr hkj)
            have hlst : dlookup (graphDepsS dsk) (st2.ordered.get j)
                = some (getDepsS dsk v) := by
              rw [dlookup_graphDepsS, hv]
              rfl
            have hdmem : st2.ordered.get i ∈ getDepsS dsk v := by
              rw [getDepsS, mem_sdedup]
              rw [depsOfKey_of_lookup hv] at hij
              exact hij
            have hsplit : st2.ordered = st2.ordered.take j.val
                ++ st2.ordered.get j :: st2.ordered.drop (j.val + 1) := by
              conv_lhs => rw [← List.take_append_drop j.val st2.ordered]
              congr 1
              rw [List.drop_eq_getElem_cons j.isLt]
              rfl
            have hdin := B3 (st2.ordered.take j.val) (st2.ordered.get j)
              (st2.ordered.drop (j.val + 1)) hsplit _ hlst (st2.ordered.get i) hdmem
            exact get_mem_take_lt st2.ordered B1 i j hdin
  · intro fuel dsk cyc hres
    simp only [toposortF, Option.getD_none] at hres
    cases hk : topoKeys (graphDepsS dsk) fuel ⟨[], [], []⟩ (dkeys dsk) with
    | none => rw [hk] at hres; simp at hres
    | some r2 =>
        rw [hk] at hres
        cases r2 with
        | ok st2 => simp [Except.map] at hres
        | error c =>
            simp only [Option.map_some, Except.map, Option.some.injEq] at hres
            have hc : c = cyc := by
              injection hres with h2
              injection h2 with h3
            subst hc
            obtain ⟨_, herrPart⟩ := topoKeys_graph dsk fuel (dkeys dsk) _ hk
            exact herrPart c rfl
  · intro fuel d keys b hres
    simp only [isdagF, getcycleF] at hres
    cases hk : topoKeys (graphDepsS d) fuel ⟨[], [], []⟩ keys with
    | none => rw [hk] at hres; simp at hres
    | some r2 =>
        rw [hk] at hres
        obtain ⟨hokPart, herrPart⟩ := topoKeys_graph d fuel keys _ hk
        cases r2 with
        | ok st2 =>
            have hb : true = b := by simpa using hres
            subst hb
            obtain ⟨hinvF, hcomp⟩ := hokPart st2 rfl
            refine iff_of_true rfl ?_
            rintro ⟨x, ⟨t, ht, hreach⟩, hcyc⟩
            have htc : t ∈ st2.completed := hcomp t ht
            have hxc : x ∈ st2.completed :=
              TInv_completed_closed _ _ _ hinvF t x
                (Relation.ReflTransGen.mono
                  (fun a b h => (EdgeD_graphDeps_iff d a b).mpr h) hreach) htc
            exact TInv_completed_acyclic _ _ _ hinvF x hxc
              (Relation.TransGen.mono
                (fun a b h => (EdgeD_graphDeps_iff d a b).mpr h) hcyc)
        | error c =>
            obtain ⟨hex, ⟨nxt, mid, hcshape⟩⟩ := herrPart c rfl
            have hb : false = b := by
              rw [hcshape] at hres
              simpa using hres
            subst hb
            exact iff_of_false (by simp) (not_not_intro hex)

/-- Witness for claim C4: the acyclic doctest graph and the cyclic graph
`exGc`. -/
theorem C4_witness :
    TopoOrder exCull [PyVal.str "x", PyVal.str "y", PyVal.str "out"]
    ∧ ((∃ x, (∃ t ∈ dkeys exGc, Reaches exGc t x) ∧ OnCycle exGc x)
      ∧ ∃ nxt mid, ([PyVal.str "b", PyVal.str "c1", PyVal.str "c", PyVal.str "b"] : List Key)
          = nxt :: mid ++ [nxt]) :=
  ⟨C4_toposort_correct.1 30 exCull (by decide)
      [PyVal.str "x", PyVal.str "y", PyVal.str "out"] (by rfl),
   C4_toposort_correct.2.1 30 exGc
      [PyVal.str "b", PyVal.str "c1", PyVal.str "c", PyVal.str "b"] (by rfl)⟩

end Dag

namespace Dag

/-! Behaviour of `get` (claim C9). -/

/-- The requested output keys: elements of a (nested) list request, else the
single requested key. -/
def outKeysOf : PyVal → List Key
  | .list es => flattenL es
  | v => [v]

theorem getF_eq (app : Nat → List PyVal → PyVal) (fuel : Nat) (dsk : Graph) (out : PyVal)
    (cacheOpt : Option Graph) (skOpt : Option (List Key)) :
    getF app fuel dsk out cacheOpt skOpt =
      match (outKeysOf out).find? (fun k => ! dmem dsk k) with
      | some k => some (.error (.missingOutput k))
      | none =>
          match (match skOpt with
                 | some sk => some (Except.ok sk)
                 | none => toposortF fuel dsk none : Option (Except (List Key) (List Key))) with
          | none => none
          | some (.error c) => some (.error (.cycle c))
          | some (.ok sortkeys) =>
              match evalKeys app dsk sortkeys (cacheOpt.getD []) with
              | .error e => some (.error e)
              | .ok cache2 =>
                  some (.ok (match out with
                    | .list _ => lists_to_tuples (execute_task app cache2 out) out
                    | _ => execute_task app cache2 out)) := by
  cases out <;> rfl

theorem evalKeys_error_shape (app : Nat → List PyVal → PyVal) (dsk : Graph) :
    ∀ (ks : List Key) (cache : Graph) (e : PyErr),
    evalKeys app dsk ks cache = .error e → ∃ k, e = .keyError k := by
  intro ks
  induction ks with
  | nil => intro cache e h; simp [evalKeys] at h
  | cons k ks2 ih =>
      intro cache e h
      simp only [evalKeys] at h
      cases hl : dlookup dsk k with
      | none =>
          rw [hl] at h
          injection h with h2
          exact ⟨k, h2.symm⟩
      | some task =>
          rw [hl] at h
          exact ih _ e h

theorem evalKeys_ok (app : Nat → List PyVal → PyVal) (dsk : Graph) :
    ∀ (ks : List Key) (cache : Graph), (∀ k ∈ ks, k ∈ dkeys dsk) →
    ∃ c2, evalKeys app dsk ks cache = .ok c2 := by
  intro ks
  induction ks with
  | nil => intro cache _; exact ⟨cache, rfl⟩
  | cons k ks2 ih =>
      intro cache hks
      obtain ⟨task, htask⟩ := Option.isSome_iff_exists.mp
        ((dlookup_isSome_iff_mem dsk k).mpr (hks k (List.mem_cons_self _ _)))
      obtain ⟨c2, hc2⟩ := ih (dinsert cache k (execute_task app cache task))
        (fun k2 hk2 => hks k2 (List.mem_cons_of_mem _ hk2))
      refine ⟨c2, ?_⟩
      simp only [evalKeys, htask]
      exact hc2

theorem toposortF_ok_mem (fuel : Nat) (dsk : Graph) (l : List Key)
    (h : toposortF fuel dsk none = some (.ok l)) : ∀ k ∈ l, k ∈ dkeys dsk := by
  simp only [toposortF, Option.getD_none] at h
  cases hk : topoKeys (graphDepsS dsk) fuel ⟨[], [], []⟩ (dkeys dsk) with
  | none => rw [hk] at h; simp at h
  | some r2 =>
      rw [hk] at h
      cases r2 with
      | error c => simp [Except.map] at h
      | ok st2 =>
          simp only [Option.map_some, Except.map, Option.some.injEq] at h
          have hl : st2.ordered = l := by
            injection h with h2
            injection h2 with h3
          subst hl
          obtain ⟨hokPart, _⟩ := topoKeys_graph dsk fuel (dkeys dsk) _ hk
          obtain ⟨hinvF, _⟩ := hokPart st2 rfl
          obtain ⟨_, A2, _, B2, _, _, _⟩ := hinvF
          intro k hkm
          have h2 := A2 k ((B2 k).mp hkm)
          rw [dlookup_isSome_iff_mem, dkeys_graphDepsS] at h2
          exact h2

theorem toposortF_error_cycle (fuel : Nat) (dsk : Graph) (c : List Key)
    (h : toposortF fuel dsk none = some (.error c)) :
    ∃ x, (∃ t ∈ dkeys dsk, Reaches dsk t x) ∧ OnCycle dsk x := by
  simp only [toposortF, Option.getD_none] at h
  cases hk : topoKeys (graphDepsS dsk) fuel ⟨[], [], []⟩ (dkeys dsk) with
  | none => rw [hk] at h; simp at h
  | some r2 =>
      rw [hk] at h
      cases r2 with
      | ok st2 => simp [Except.map] at h
      | error c2 =>
          obtain ⟨_, herrPart⟩ := topoKeys_graph dsk fuel (dkeys dsk) _ hk
          exact (herrPart c2 rfl).1

/-- Claim C9 (amended): `get` raises the missing-key error iff some
requested output key (after flattening a list request) is absent from the
graph; that check precedes the topological sort and any task execution, so
the outcome is then independent of the evaluator, the fuel, the cache and
the sort keys; and when every requested output is present, `get` succeeds
whenever the sort keys are supplied and valid, or no sort keys are supplied,
the sort terminates and no dependency cycle is reachable. -/
theorem C9_get_missing_key :
    (∀ (app : Nat → List PyVal → PyVal) (fuel : Nat) (dsk : Graph) (out : PyVal)
      (cacheOpt : Option Graph) (skOpt : Option (List Key)),
      ((∃ k, k ∈ outKeysOf out ∧ k ∉ dkeys dsk)
        ↔ ∃ k2, getF app fuel dsk out cacheOpt skOpt = some (.error (.missingOutput k2))))
    ∧ (∀ (app app2 : Nat → List PyVal → PyVal) (fuel fuel2 : Nat) (dsk : Graph)
      (out : PyVal) (c1 c2 : Option Graph) (s1 s2 : Option (List Key)),
      (∃ k, k ∈ outKeysOf out ∧ k ∉ dkeys dsk) →
      getF app fuel dsk out c1 s1 = getF app2 fuel2 dsk out c2 s2)
    ∧ (∀ (app : Nat → List PyVal → PyVal) (fuel : Nat) (dsk : Graph) (out : PyVal)
      (cacheOpt : Option Graph),
      (∀ k ∈ outKeysOf out, k ∈ dkeys dsk) →
      ∀ r, toposortF fuel dsk none = some r →
      (¬ ∃ x, (∃ t ∈ dkeys dsk, Reaches dsk t x) ∧ OnCycle dsk x) →
      ∃ v, getF app fuel dsk out cacheOpt none = some (.ok v))
    ∧ (∀ (app : Nat → List PyVal → PyVal) (fuel : Nat) (dsk : Graph) (out : PyVal)
      (cacheOpt : Option Graph) (sk : List Key),
      (∀ k ∈ outKeysOf out, k ∈ dkeys dsk) → (∀ k ∈ sk, k ∈ dkeys dsk) →
      ∃ v, getF app fuel dsk out cacheOpt (some sk) = some (.ok v)) := by
  have hfind_eq : ∀ (dsk : Graph) (out : PyVal), (∃ k, k ∈ outKeysOf out ∧ k ∉ dkeys dsk) →
      ∃ k2, (outKeysOf out).find? (fun k => ! dmem dsk k) = some k2 := by
    rintro dsk out ⟨k, hkm, hka⟩
    have hd : dmem dsk k = false := by
      rw [← Bool.not_eq_true]
      exact fun hc => hka ((dmem_iff_mem_dkeys dsk k).mp hc)
    refine Option.isSome_iff_exists.mp (List.find?_isSome.mpr ⟨k, hkm, ?_⟩)
    rw [hd]
    rfl
  have hfind_none : ∀ (dsk : Graph) (out : PyVal), (∀ k ∈ outKeysOf out, k ∈ dkeys dsk) →
      (outKeysOf out).find? (fun k => ! dmem dsk k) = none := by
    intro dsk out hall
    rw [List.find?_eq_none]
    intro k hk
    rw [(dmem_iff_mem_dkeys dsk k).mpr (hall k hk)]
    simp
  refine ⟨?_, ?_, ?_, ?_⟩
  · intro app fuel dsk out cacheOpt skOpt
    constructor
    · intro hex
      obtain ⟨k2, hfind⟩ := hfind_eq dsk out hex
      refine ⟨k2, ?_⟩
      rw [getF_eq, hfind]
    · rintro ⟨k2, hres⟩
      cases hfind : (outKeysOf out).find? (fun k => ! dmem dsk k) with
      | some k =>
          refine ⟨k, List.mem_of_find?_eq_some hfind, ?_⟩
          have hp := List.find?_some hfind
          intro hc
          rw [(dmem_iff_mem_dkeys dsk k).mpr hc] at hp
          simp at hp
      | none =>
          exfalso
          rw [getF_eq, hfind] at hres
          simp only [] at hres
          cases skOpt with
          | some sk =>
              simp only [] at hres
              cases heval : evalKeys app dsk sk (cacheOpt.getD []) with
              | error e =>
                  rw [heval] at hres
                  obtain ⟨k3, hk3⟩ := evalKeys_error_shape app dsk sk _ e heval
                  rw [hk3] at hres
                  simp at hres
              | ok cache2 =>
                  rw [heval] at hres
                  simp at hres
          | none =>
              simp only [] at hres
              cases hsort : toposortF fuel dsk none with
              | none => rw [hsort] at hres; simp at hres
              | some r2 =>
                  rw [hsort] at hres
                  cases r2 with
                  | error c => simp at hres
                  | ok sortkeys =>
                      simp only [] at hres
                      cases heval : evalKeys app dsk sortkeys (cacheOpt.getD []) with
                      | error e =>
                          rw [heval] at hres
                          obtain ⟨k3, hk3⟩ := evalKeys_error_shape app dsk sortkeys _ e heval
                          rw [hk3] at hres
                          simp at hres
                      | ok cache2 =>
                          rw [heval] at hres
                          simp at hres
  · intro app app2 fuel fuel2 dsk out c1 c2 s1 s2 hex
    obtain ⟨k2, hfind⟩ := hfind_eq dsk out hex
    rw [getF_eq, getF_eq, hfind]
  · intro app fuel dsk out cacheOpt hall r hr hnc
    cases r with
    | error c => exact absurd (toposortF_error_cycle fuel dsk c hr) hnc
    | ok l =>
        obtain ⟨cache2, heval⟩ := evalKeys_ok app dsk l (cacheOpt.getD [])
          (toposortF_ok_mem fuel dsk l hr)
        refine ⟨(match out with
          | PyVal.list _ => lists_to_tuples (execute_task app cache2 out) out
          | _ => execute_task app cache2 out), ?_⟩
        rw [getF_eq, hfind_none dsk out hall]
        simp only []
        rw [hr]
        simp only []
        rw [heval]
        cases out <;> rfl
  · intro app fuel dsk out cacheOpt sk hall hsk
    obtain ⟨cache2, heval⟩ := evalKeys_ok app dsk sk (cacheOpt.getD []) hsk
    refine ⟨(match out with
      | PyVal.list _ => lists_to_tuples (execute_task app cache2 out) out
      | _ => execute_task app cache2 out), ?_⟩
    rw [getF_eq, hfind_none dsk out hall]
    simp only []
    rw [heval]
    cases out <;> rfl

/-- Witness for claim C9: a missing requested output on `exG1` is reported
identically for every evaluator, fuel, cache and sort keys; and `get`
succeeds on `exCull` with explicit valid sort keys. -/
theorem C9_witness :
    getF applyStd 3 exG1 (.str "zz") none none
      = getF applyStd 99 exG1 (.str "zz") none (some [])
    ∧ ∃ v, getF applyStd 5 exCull (.str "out") none
        (some [PyVal.str "x", PyVal.str "out"]) = some (.ok v) :=
  ⟨C9_get_missing_key.2.1 applyStd applyStd 3 99 exG1 (.str "zz") none none none (some [])
      ⟨.str "zz", by decide, by decide⟩,
   C9_get_missing_key.2.2.2 applyStd 5 exCull (.str "out") none
      [PyVal.str "x", PyVal.str "out"] (by decide) (by decide)⟩

end Dag

namespace Dag

/-! Key-count accounting for `fuse` (claim C3): the working graph of the
region loop never grows beyond the size of the input graph. -/

theorem derase_sublist {α : Type} : ∀ (d d2 : List (Key × α)) (k : Key),
    derase d k = some d2 → d2.Sublist d := by
  intro d
  induction d with
  | nil => intro d2 k h; simp [derase] at h
  | cons kv rest ih =>
      intro d2 k h
      obtain ⟨k1, v1⟩ := kv
      by_cases h1 : k1 = k
      · subst h1
        simp only [derase, if_pos, Option.some.injEq] at h
        subst h
        exact List.Sublist.cons _ (List.Sublist.refl rest)
      · simp only [derase, if_neg h1] at h
        cases h2 : derase rest k with
        | none => rw [h2] at h; simp at h
        | some r2 =>
            rw [h2] at h
            simp at h
            subst h
            exact List.Sublist.cons₂ _ (ih r2 k h2)

theorem dpopD_sublist {α : Type} : ∀ (d : List (Key × α)) (k : Key),
    (dpopD d k).Sublist d := by
  intro d
  induction d with
  | nil => intro k; simp [dpopD]
  | cons kv rest ih =>
      intro k
      obtain ⟨k1, v1⟩ := kv
      by_cases h1 : k1 = k
      · simp only [dpopD, if_pos h1]
        exact List.Sublist.cons _ (List.Sublist.refl rest)
      · simp only [dpopD, if_neg h1]
        exact List.Sublist.cons₂ _ (ih k)

theorem not_mem_dkeys_derase {α : Type} : ∀ (d d2 : List (Key × α)) (k : Key),
    (dkeys d).Nodup → derase d k = some d2 → k ∉ dkeys d2 := by
  intro d
  induction d with
  | nil => intro d2 k _ h; simp [derase] at h
  | cons kv rest ih =>
      intro d2 k hnd h
      obtain ⟨k1, v1⟩ := kv
      rw [dkeys_cons, List.nodup_cons] at hnd
      by_cases h1 : k1 = k
      · subst h1
        simp only [derase, if_pos, Option.some.injEq] at h
        subst h
        exact hnd.1
      · simp only [derase, if_neg h1] at h
        cases h2 : derase rest k with
        | none => rw [h2] at h; simp at h
        | some r2 =>
            rw [h2] at h
            simp at h
            subst h
            rw [dkeys_cons]
            intro hc
            rcases List.mem_cons.mp hc with h3 | h3
            · exact h1 h3.symm
            · exact ih r2 k hnd.2 h2 h3

end Dag

namespace Dag

end Dag

namespace Dag

end Dag

namespace Dag

/-! Claim C8: chains selected by `_inplace_fuse_subgraphs` wrapped in a
`SubgraphCallable` compute, on the inputs the outer graph would supply, the
same value the pre-fusion graph computes for the chain head.  First a
structural characterization of `get_dependencies`. -/

mutual

/-- Structural reading of the `get_dependencies` work loop: tasks contribute
their arguments, lists their elements, anything else is a leaf candidate. -/
def depsV (dsk : Graph) : PyVal → List Key
  | .list es => depsVL dsk es
  | .tup (f :: args) =>
      if pycallable f then depsVL dsk args else depsLeaf dsk (.tup (f :: args))
  | w => depsLeaf dsk w

/-- `depsV` summed over a list of values. -/
def depsVL (dsk : Graph) : List PyVal → List Key
  | [] => []
  | a :: l => depsV dsk a ++ depsVL dsk l

end

theorem depsV_step (dsk : Graph) (x : PyVal) :
    ∀ k, k ∈ depsV dsk x ↔ k ∈ (depsStep dsk x).1 ++ depsVL dsk (depsStep dsk x).2 := by
  intro k
  match x with
  | .list es => simp [depsV, depsStep, depsVL]
  | .tup (f :: args) =>
      by_cases hf : pycallable f
      · simp [depsV, depsStep, hf, depsVL]
      · simp [depsV, depsStep, hf, depsVL]
  | .tup [] => simp [depsV, depsStep, depsVL]
  | .str s => simp [depsV, depsStep, depsVL]
  | .int n => simp [depsV, depsStep, depsVL]
  | .fn i => simp [depsV, depsStep, depsVL]

theorem mem_depsVL_iff (dsk : Graph) : ∀ (l : List PyVal) (k : Key),
    k ∈ depsVL dsk l ↔ ∃ x ∈ l, k ∈ depsV dsk x := by
  intro l
  induction l with
  | nil => intro k; simp [depsVL]
  | cons a rest ih =>
      intro k
      simp only [depsVL, List.mem_append, ih, List.mem_cons]
      constructor
      · rintro (h | ⟨x, hx, hk⟩)
        · exact ⟨a, Or.inl rfl, h⟩
        · exact ⟨x, Or.inr hx, hk⟩
      · rintro ⟨x, hx | hx, hk⟩
        · exact Or.inl (hx ▸ hk)
        · exact Or.inr ⟨x, hx, hk⟩

theorem mem_getDepsWorkF_iff (dsk : Graph) : ∀ (fuel : Nat) (work : List PyVal),
    sizeW work < fuel →
    ∀ k, k ∈ getDepsWorkF dsk fuel work ↔ k ∈ depsVL dsk work := by
  intro fuel
  induction fuel with
  | zero => intro work h; omega
  | succ n ih =>
      intro work h k
      match work with
      | [] => simp [getDepsWorkF, depsVL]
      | w :: rest =>
          have hr := sizeW_round_le dsk (w :: rest)
          have hn : sizeW (((w :: rest).map fun x => (depsStep dsk x).2).flatten) < n := by
            simp only [List.length] at hr
            omega
          simp only [getDepsWorkF, List.mem_append, ih _ hn k]
          have hflat : ∀ k2 : Key,
              k2 ∈ (((w :: rest).map fun x => (depsStep dsk x).1).flatten : List Key)
              ↔ ∃ x ∈ w :: rest, k2 ∈ (depsStep dsk x).1 := by
            intro k2
            simp [List.mem_flatten]
          have hflat2 : ∀ k2 : Key,
              k2 ∈ depsVL dsk (((w :: rest).map fun x => (depsStep dsk x).2).flatten)
              ↔ ∃ x ∈ w :: rest, k2 ∈ depsVL dsk (depsStep dsk x).2 := by
            intro k2
            simp only [mem_depsVL_iff, List.mem_flatten, List.mem_map]
            constructor
            · rintro ⟨y, ⟨l2, ⟨x, hx, rfl⟩, hyl⟩, hk2⟩
              exact ⟨x, hx, y, hyl, hk2⟩
            · rintro ⟨x, hx, y, hy, hk2⟩
              exact ⟨y, ⟨_, ⟨x, hx, rfl⟩, hy⟩, hk2⟩
          rw [hflat, hflat2, mem_depsVL_iff]
          constructor
          · rintro (⟨x, hx, hk⟩ | ⟨x, hx, hk⟩)
            · exact ⟨x, hx, (depsV_step dsk x k).mpr (List.mem_append.mpr (Or.inl hk))⟩
            · exact ⟨x, hx, (depsV_step dsk x k).mpr (List.mem_append.mpr (Or.inr hk))⟩
          · rintro ⟨x, hx, hk⟩
            rcases List.mem_append.mp ((depsV_step dsk x k).mp hk) with h4 | h4
            · exact Or.inl ⟨x, hx, h4⟩
            · exact Or.inr ⟨x, hx, h4⟩

theorem mem_getDepsL_iff (dsk : Graph) (v : PyVal) (k : Key) :
    k ∈ getDepsL dsk v ↔ k ∈ depsV dsk v := by
  rw [getDepsL, mem_getDepsWorkF_iff dsk (sizeW [v] + 1) [v] (by omega) k]
  simp [depsVL]

end Dag

namespace Dag

theorem dlookup_eq_none_of_not_mem {α : Type} (d : List (Key × α)) (k : Key)
    (h : k ∉ dkeys d) : dlookup d k = none := by
  rcases ho : dlookup d k with _ | v
  · rfl
  · exact absurd ((dlookup_isSome_iff_mem d k).mp (by rw [ho]; rfl)) h

theorem dlookup_mem_pairs {α : Type} : ∀ (d : List (Key × α)) (k : Key) (v : α),
    dlookup d k = some v → (k, v) ∈ d := by
  intro d
  induction d with
  | nil => intro k v h; simp [dlookup] at h
  | cons kv rest ih =>
      intro k v h
      obtain ⟨k1, v1⟩ := kv
      by_cases h1 : k1 = k
      · subst h1
        simp only [dlookup, if_pos] at h
        injection h with h2
        subst h2
        exact List.mem_cons_self _ _
      · simp only [dlookup, if_neg h1] at h
        exact List.mem_cons_of_mem _ (ih k v h)

theorem mem_dinsert_pairs {α : Type} : ∀ (d : List (Key × α)) (k : Key) (v : α)
    (k2 : Key) (v2 : α), (k2, v2) ∈ dinsert d k v → (k2 = k ∧ v2 = v) ∨ (k2, v2) ∈ d := by
  intro d
  induction d with
  | nil =>
      intro k v k2 v2 h
      simp only [dinsert, List.mem_singleton, Prod.mk.injEq] at h
      exact Or.inl h
  | cons kv rest ih =>
      intro k v k2 v2 h
      obtain ⟨k1, v1⟩ := kv
      by_cases h1 : k1 = k
      · subst h1
        simp only [dinsert, if_pos, List.mem_cons, Prod.mk.injEq] at h
        rcases h with ⟨rfl, rfl⟩ | h
        · exact Or.inl ⟨rfl, rfl⟩
        · exact Or.inr (List.mem_cons_of_mem _ h)
      · simp only [dinsert, if_neg h1, List.mem_cons] at h
        rcases h with h | h
        · exact Or.inr (by rw [h]; exact List.mem_cons_self _ _)
        · rcases ih k v k2 v2 h with h2 | h2
          · exact Or.inl h2
          · exact Or.inr (List.mem_cons_of_mem _ h2)

theorem execute_task_leaf (app : Nat → List PyVal → PyVal) (c : Graph) (v : PyVal)
    (hnl : PyVal.isList v = false) (hnt : istask v = false) :
    execute_task app c v = (if ishashable v = true then
      (match dlookup c v with | some r => r | none => v) else v) := by
  match v with
  | .str s => rfl
  | .int n => rfl
  | .fn i => rfl
  | .tup [] => rfl
  | .tup (.str s :: args) => rfl
  | .tup (.int n :: args) => rfl
  | .tup (.tup es :: args) => rfl
  | .tup (.list es :: args) => rfl
  | .tup (.fn i :: args) => simp [istask, pycallable] at hnt
  | .list es => simp [PyVal.isList] at hnl

theorem depsV_leaf (dsk : Graph) (v : PyVal)
    (hnl : PyVal.isList v = false) (hnt : istask v = false) :
    depsV dsk v = depsLeaf dsk v := by
  match v with
  | .str s => rfl
  | .int n => rfl
  | .fn i => rfl
  | .tup [] => rfl
  | .tup (.str s :: args) => simp [depsV, pycallable]
  | .tup (.int n :: args) => simp [depsV, pycallable]
  | .tup (.tup es :: args) => simp [depsV, pycallable]
  | .tup (.list es :: args) => simp [depsV, pycallable]
  | .tup (.fn i :: args) => simp [istask, pycallable] at hnt
  | .list es => simp [PyVal.isList] at hnl

theorem execute_agree_leaf (app : Nat → List PyVal → PyVal) (dsk c1 c2 : Graph)
    (hd1 : ∀ w, w ∈ dkeys c1 → w ∈ dkeys dsk) (hd2 : ∀ w, w ∈ dkeys c2 → w ∈ dkeys dsk)
    (v : PyVal) (hnl : PyVal.isList v = false) (hnt : istask v = false)
    (h : ∀ w ∈ depsLeaf dsk v, dlookup c1 w = dlookup c2 w) :
    execute_task app c1 v = execute_task app c2 v := by
  rw [execute_task_leaf app c1 v hnl hnt, execute_task_leaf app c2 v hnl hnt]
  by_cases hh : ishashable v = true
  · rw [if_pos hh, if_pos hh]
    by_cases hm : dmem dsk v = true
    · have hv : v ∈ depsLeaf dsk v := by simp [depsLeaf, hh, hm]
      rw [h v hv]
    · have hnm : v ∉ dkeys dsk := fun hc => hm ((dmem_iff_mem_dkeys dsk v).mpr hc)
      have h1 : dlookup c1 v = none :=
        dlookup_eq_none_of_not_mem c1 v (fun hc => hnm (hd1 v hc))
      have h2 : dlookup c2 v = none :=
        dlookup_eq_none_of_not_mem c2 v (fun hc => hnm (hd2 v hc))
      rw [h1, h2]
  · rw [if_neg hh, if_neg hh]

mutual

theorem execute_task_agree (app : Nat → List PyVal → PyVal) (dsk c1 c2 : Graph)
    (hd1 : ∀ w, w ∈ dkeys c1 → w ∈ dkeys dsk)
    (hd2 : ∀ w, w ∈ dkeys c2 → w ∈ dkeys dsk) :
    ∀ (v : PyVal), (∀ w ∈ depsV dsk v, dlookup c1 w = dlookup c2 w) →
      execute_task app c1 v = execute_task app c2 v
  | .list es, h => by
      have hl := executeList_agree app dsk c1 c2 hd1 hd2 es
        (by simpa [depsV] using h)
      simp only [execute_task, hl]
  | .tup (.fn i :: args), h => by
      have hl := executeList_agree app dsk c1 c2 hd1 hd2 args
        (by simpa [depsV, pycallable] using h)
      simp only [execute_task, hl]
  | .str s, h => execute_agree_leaf app dsk c1 c2 hd1 hd2 _ rfl rfl
      (by simpa [depsV_leaf] using h)
  | .int n, h => execute_agree_leaf app dsk c1 c2 hd1 hd2 _ rfl rfl
      (by simpa [depsV_leaf] using h)
  | .fn i, h => execute_agree_leaf app dsk c1 c2 hd1 hd2 _ rfl rfl
      (by simpa [depsV_leaf] using h)
  | .tup [], h => execute_agree_leaf app dsk c1 c2 hd1 hd2 _ rfl rfl
      (by simpa [depsV_leaf] using h)
  | .tup (.str s :: args), h => execute_agree_leaf app dsk c1 c2 hd1 hd2 _ rfl rfl
      (by simpa [depsV_leaf dsk (PyVal.tup (PyVal.str s :: args)) rfl rfl] using h)
  | .tup (.int n :: args), h => execute_agree_leaf app dsk c1 c2 hd1 hd2 _ rfl rfl
      (by simpa [depsV_leaf dsk (PyVal.tup (PyVal.int n :: args)) rfl rfl] using h)
  | .tup (.tup es :: args), h => execute_agree_leaf app dsk c1 c2 hd1 hd2 _ rfl rfl
      (by simpa [depsV_leaf dsk (PyVal.tup (PyVal.tup es :: args)) rfl rfl] using h)
  | .tup (.list es :: args), h => execute_agree_leaf app dsk c1 c2 hd1 hd2 _ rfl rfl
      (by simpa [depsV_leaf dsk (PyVal.tup (PyVal.list es :: args)) rfl rfl] using h)

theorem executeList_agree (app : Nat → List PyVal → PyVal) (dsk c1 c2 : Graph)
    (hd1 : ∀ w, w ∈ dkeys c1 → w ∈ dkeys dsk)
    (hd2 : ∀ w, w ∈ dkeys c2 → w ∈ dkeys dsk) :
    ∀ (l : List PyVal), (∀ w ∈ depsVL dsk l, dlookup c1 w = dlookup c2 w) →
      executeList app c1 l = executeList app c2 l
  | [], _ => rfl
  | a :: rest, h => by
      have h1 := execute_task_agree app dsk c1 c2 hd1 hd2 a
        (fun w hw => h w (by simp only [depsVL, List.mem_append]; exact Or.inl hw))
      have h2 := executeList_agree app dsk c1 c2 hd1 hd2 rest
        (fun w hw => h w (by simp only [depsVL, List.mem_append]; exact Or.inr hw))
      simp only [executeList, h1, h2]

end

end Dag

namespace Dag

theorem depsLeaf_mono (sub dsk : Graph)
    (hm : ∀ w, dmem sub w = true → dmem dsk w = true) (w : PyVal) (k : Key)
    (h : k ∈ depsLeaf sub w) : k ∈ depsLeaf dsk w := by
  simp only [depsLeaf] at h ⊢
  by_cases hc : (ishashable w && dmem sub w) = true
  · rw [if_pos hc] at h
    simp only [List.mem_singleton] at h
    subst h
    rw [Bool.and_eq_true] at hc
    rw [if_pos (by rw [Bool.and_eq_true]; exact ⟨hc.1, hm k hc.2⟩)]
    exact List.mem_singleton.mpr rfl
  · rw [if_neg hc] at h
    exact absurd h (List.not_mem_nil k)

theorem depsLeaf_transfer (sub dsk : Graph) (w : PyVal) (k : Key)
    (h : k ∈ depsLeaf dsk w) (hk : dmem sub k = true) : k ∈ depsLeaf sub w := by
  simp only [depsLeaf] at h ⊢
  by_cases hc : (ishashable w && dmem dsk w) = true
  · rw [if_pos hc] at h
    simp only [List.mem_singleton] at h
    subst h
    rw [Bool.and_eq_true] at hc
    rw [if_pos (by rw [Bool.and_eq_true]; exact ⟨hc.1, hk⟩)]
    exact List.mem_singleton.mpr rfl
  · rw [if_neg hc] at h
    exact absurd h (List.not_mem_nil k)

mutual

theorem depsV_mono (sub dsk : Graph)
    (hm : ∀ w, dmem sub w = true → dmem dsk w = true) :
    ∀ (v : PyVal) (k : Key), k ∈ depsV sub v → k ∈ depsV dsk v
  | .list es, k, h => by
      simp only [depsV] at h ⊢
      exact depsVL_mono sub dsk hm es k h
  | .tup (f :: args), k, h => by
      by_cases hf : pycallable f = true
      · simp only [depsV, hf, if_pos] at h ⊢
        exact depsVL_mono sub dsk hm args k h
      · simp only [depsV, hf, Bool.false_eq_true, if_neg, not_false_iff] at h ⊢
        exact depsLeaf_mono sub dsk hm _ k h
  | .tup [], k, h => by
      simp only [depsV] at h ⊢
      exact depsLeaf_mono sub dsk hm _ k h
  | .str s, k, h => by
      simp only [depsV] at h ⊢
      exact depsLeaf_mono sub dsk hm _ k h
  | .int n, k, h => by
      simp only [depsV] at h ⊢
      exact depsLeaf_mono sub dsk hm _ k h
  | .fn i, k, h => by
      simp only [depsV] at h ⊢
      exact depsLeaf_mono sub dsk hm _ k h

theorem depsVL_mono (sub dsk : Graph)
    (hm : ∀ w, dmem sub w = true → dmem dsk w = true) :
    ∀ (l : List PyVal) (k : Key), k ∈ depsVL sub l → k ∈ depsVL dsk l
  | [], k, h => h
  | a :: rest, k, h => by
      simp only [depsVL, List.mem_append] at h ⊢
      rcases h with h | h
      · exact Or.inl (depsV_mono sub dsk hm a k h)
      · exact Or.inr (depsVL_mono sub dsk hm rest k h)

end

mutual

theorem depsV_transfer (sub dsk : Graph) :
    ∀ (v : PyVal) (k : Key), k ∈ depsV dsk v → dmem sub k = true → k ∈ depsV sub v
  | .list es, k, h, hk => by
      simp only [depsV] at h ⊢
      exact depsVL_transfer sub dsk es k h hk
  | .tup (f :: args), k, h, hk => by
      by_cases hf : pycallable f = true
      · simp only [depsV, hf, if_pos] at h ⊢
        exact depsVL_transfer sub dsk args k h hk
      · simp only [depsV, hf, Bool.false_eq_true, if_neg, not_false_iff] at h ⊢
        exact depsLeaf_transfer sub dsk _ k h hk
  | .tup [], k, h, hk => by
      simp only [depsV] at h ⊢
      exact depsLeaf_transfer sub dsk _ k h hk
  | .str s, k, h, hk => by
      simp only [depsV] at h ⊢
      exact depsLeaf_transfer sub dsk _ k h hk
  | .int n, k, h, hk => by
      simp only [depsV] at h ⊢
      exact depsLeaf_transfer sub dsk _ k h hk
  | .fn i, k, h, hk => by
      simp only [depsV] at h ⊢
      exact depsLeaf_transfer sub dsk _ k h hk

theorem depsVL_transfer (sub dsk : Graph) :
    ∀ (l : List PyVal) (k : Key), k ∈ depsVL dsk l → dmem sub k = true → k ∈ depsVL sub l
  | [], k, h, _ => h
  | a :: rest, k, h, hk => by
      simp only [depsVL, List.mem_append] at h ⊢
      rcases h with h | h
      · exact Or.inl (depsV_transfer sub dsk a k h hk)
      · exact Or.inr (depsVL_transfer sub dsk rest k h hk)

end

end Dag

namespace Dag

/-! TopoOrder tooling shared by the subgraph round trip. -/

theorem toposortF_ok_topoOrder (fuel : Nat) (dsk : Graph) (hnd : (dkeys dsk).Nodup)
    (l : List Key) (hres : toposortF fuel dsk none = some (.ok l)) : TopoOrder dsk l := by
  simp only [toposortF, Option.getD_none] at hres
  cases hk : topoKeys (graphDepsS dsk) fuel ⟨[], [], []⟩ (dkeys dsk) with
  | none => rw [hk] at hres; simp at hres
  | some r2 =>
      rw [hk] at hres
      cases r2 with
      | error c => simp [Except.map] at hres
      | ok st2 =>
          simp only [Option.map_some, Except.map, Option.some.injEq] at hres
          have hl : st2.ordered = l := by
            injection hres with h2
            injection h2 with h3
          subst hl
          obtain ⟨hokPart, _⟩ := topoKeys_graph dsk fuel (dkeys dsk) _ hk
          obtain ⟨hinvF, hcomp⟩ := hokPart st2 rfl
          obtain ⟨A1, A2, B1, B2, B3, _, _⟩ := hinvF
          have hmem : ∀ k, k ∈ st2.ordered ↔ k ∈ dkeys dsk := by
            intro k
            constructor
            · intro h
              have h2 := (B2 k).mp h
              have h3 := A2 k h2
              rw [dlookup_isSome_iff_mem, dkeys_graphDepsS] at h3
              exact h3
            · intro h
              exact (B2 k).mpr (hcomp k h)
          refine ⟨(List.perm_ext_iff_of_nodup B1 hnd).mpr hmem, ?_⟩
          intro i j hij
          have hkj : st2.ordered.get j ∈ dkeys dsk :=
            (hmem _).mp (List.get_mem st2.ordered j.val j.isLt)
          obtain ⟨v, hv⟩ := Option.isSome_iff_exists.mp
            ((dlookup_isSome_iff_mem dsk (st2.ordered.get j)).mpr hkj)
          have hlst : dlookup (graphDepsS dsk) (st2.ordered.get j)
              = some (getDepsS dsk v) := by
            rw [dlookup_graphDepsS, hv]
            rfl
          have hdmem : st2.ordered.get i ∈ getDepsS dsk v := by
            rw [getDepsS, mem_sdedup]
            rw [depsOfKey_of_lookup hv] at hij
            exact hij
          have hsplit : st2.ordered = st2.ordered.take j.val
              ++ st2.ordered.get j :: st2.ordered.drop (j.val + 1) := by
            conv_lhs => rw [← List.take_append_drop j.val st2.ordered]
            congr 1
            rw [List.drop_eq_getElem_cons j.isLt]
            rfl
          have hdin := B3 (st2.ordered.take j.val) (st2.ordered.get j)
            (st2.ordered.drop (j.val + 1)) hsplit _ hlst (st2.ordered.get i) hdmem
          exact get_mem_take_lt st2.ordered B1 i j hdin

theorem topoOrder_nodup {dsk : Graph} {ord : List Key} (ht : TopoOrder dsk ord)
    (hnd : (dkeys dsk).Nodup) : ord.Nodup := ht.1.nodup_iff.mpr hnd

theorem topoOrder_deps_before {g : Graph} {ord : List Key} (ht : TopoOrder g ord)
    (hnd : (dkeys g).Nodup) : ∀ (d : List Key) (k : Key) (r : List Key),
    ord = d ++ k :: r → ∀ w ∈ depsOfKey g k, w ∈ d := by
  intro d k r hsplit w hw
  have hword : w ∈ ord := by
    rw [ht.1.mem_iff]
    rcases hl : dlookup g k with _ | v
    · rw [depsOfKey, hl] at hw
      simp at hw
    · rw [depsOfKey_of_lookup hl] at hw
      exact getDepsL_mem g v w hw
  obtain ⟨i, hi, hgi⟩ := List.mem_iff_getElem.mp hword
  have hjlt : d.length < ord.length := by
    rw [hsplit, List.length_append, List.length_cons]
    omega
  have hgj : ord.get ⟨d.length, hjlt⟩ = k := by
    simp only [List.get_eq_getElem, hsplit]
    rw [List.getElem_append_right (le_refl d.length)]
    simp
  have hij := ht.2 ⟨i, hi⟩ ⟨d.length, hjlt⟩ (by
    simp only [List.get_eq_getElem] at hgj ⊢
    rw [hgi, hgj]
    exact hw)
  simp only [] at hij
  have htake : ord.take d.length = d := by
    rw [hsplit]
    exact List.take_left d (k :: r)
  have h3 : i < (ord.take d.length).length := by
    rw [List.length_take]
    omega
  have h4 : (ord.take d.length)[i] = w := by
    rw [List.getElem_take]
    exact hgi
  have hmem2 : w ∈ ord.take d.length := by
    rw [← h4]
    exact List.getElem_mem h3
  rw [htake] at hmem2
  exact hmem2

theorem topoOrder_edge_lt {dsk : Graph} {ord : List Key} (ht : TopoOrder dsk ord) :
    ∀ u v, Edge dsk u v → ord.indexOf v < ord.indexOf u := by
  intro u v hE
  have hud : u ∈ dkeys dsk := by
    rcases hl : dlookup dsk u with _ | w
    · rw [Edge, depsOfKey, hl] at hE
      simp at hE
    · exact (dlookup_isSome_iff_mem dsk u).mp (by rw [hl]; rfl)
  have hvd : v ∈ dkeys dsk := by
    rcases hl : dlookup dsk u with _ | w
    · rw [Edge, depsOfKey, hl] at hE
      simp at hE
    · rw [Edge, depsOfKey_of_lookup hl] at hE
      exact getDepsL_mem dsk w v hE
  have huo : u ∈ ord := ht.1.mem_iff.mpr hud
  have hvo : v ∈ ord := ht.1.mem_iff.mpr hvd
  have hiu : ord.indexOf u < ord.length := List.indexOf_lt_length.mpr huo
  have hiv : ord.indexOf v < ord.length := List.indexOf_lt_length.mpr hvo
  have h2 := ht.2 ⟨ord.indexOf v, hiv⟩ ⟨ord.indexOf u, hiu⟩ (by
    simp only [List.get_eq_getElem, List.getElem_indexOf]
    exact hE)
  exact h2

theorem transGen_rank {g : Graph} {f : Key → Nat}
    (hf : ∀ u v, Edge g u v → f v < f u) :
    ∀ u v, Relation.TransGen (Edge g) u v → f v < f u := by
  intro u v h
  induction h with
  | single h1 => exact hf _ _ h1
  | tail h1 h2 ih => exact lt_trans (hf _ _ h2) ih

theorem topoOrder_no_cycle {dsk : Graph} {ord : List Key} (ht : TopoOrder dsk ord)
    (x : Key) : ¬ OnCycle dsk x := fun hcyc =>
  lt_irrefl _ (transGen_rank (topoOrder_edge_lt ht) x x hcyc)

theorem depsOfKey_mono (sub dsk : Graph)
    (hsub : ∀ k, k ∈ dkeys sub → k ∈ dkeys dsk)
    (hval : ∀ k, k ∈ dkeys sub → dlookup sub k = dlookup dsk k) :
    ∀ u v, v ∈ depsOfKey sub u → v ∈ depsOfKey dsk u := by
  intro u v hv
  rcases hl : dlookup sub u with _ | w
  · rw [depsOfKey, hl] at hv
    simp at hv
  · have hu : u ∈ dkeys sub := (dlookup_isSome_iff_mem sub u).mp (by rw [hl]; rfl)
    have hl2 : dlookup dsk u = some w := by rw [← hval u hu, hl]
    rw [depsOfKey_of_lookup hl] at hv
    rw [depsOfKey_of_lookup hl2]
    rw [mem_getDepsL_iff] at hv ⊢
    exact depsV_mono sub dsk
      (fun w2 hw2 => (dmem_iff_mem_dkeys dsk w2).mpr
        (hsub w2 ((dmem_iff_mem_dkeys sub w2).mp hw2))) w v hv

theorem edge_mono (sub dsk : Graph)
    (hsub : ∀ k, k ∈ dkeys sub → k ∈ dkeys dsk)
    (hval : ∀ k, k ∈ dkeys sub → dlookup sub k = dlookup dsk k) :
    ∀ u v, Edge sub u v → Edge dsk u v :=
  fun u v h => depsOfKey_mono sub dsk hsub hval u v h

theorem sub_no_cycle {dsk sub : Graph} {ord : List Key} (ht : TopoOrder dsk ord)
    (hsub : ∀ k, k ∈ dkeys sub → k ∈ dkeys dsk)
    (hval : ∀ k, k ∈ dkeys sub → dlookup sub k = dlookup dsk k) :
    ∀ x, ¬ OnCycle sub x := by
  intro x hcyc
  exact topoOrder_no_cycle ht x
    (Relation.TransGen.mono (edge_mono sub dsk hsub hval) hcyc)

end Dag

namespace Dag

theorem dictOfZip_lookup (f : Key → PyVal) : ∀ (ks : List Key) (w : Key),
    dlookup (dictOfZip ks (ks.map f)) w = if w ∈ ks then some (f w) else none := by
  intro ks
  induction ks with
  | nil => intro w; simp [dictOfZip, dlookup]
  | cons k rest ih =>
      intro w
      simp only [List.map_cons, dictOfZip]
      by_cases hw : w = k
      · subst hw
        rw [dlookup_dinsert_self]
        simp
      · rw [dlookup_dinsert_ne _ _ _ _ hw, ih w]
        simp only [List.mem_cons]
        by_cases hw2 : w ∈ rest
        · rw [if_pos hw2, if_pos (Or.inr hw2)]
        · rw [if_neg hw2, if_neg (by rintro (h | h); exact hw h; exact hw2 h)]

/-- Self-coherence of the cache produced by a full topological evaluation:
every key holds the value of executing its task against the final cache. -/
theorem evalKeys_coherent (app : Nat → List PyVal → PyVal) (dsk : Graph)
    (ord : List Key) (hnd : (dkeys dsk).Nodup) (hto : TopoOrder dsk ord) :
    ∀ (rest done : List Key) (cache C : Graph),
      ord = done ++ rest →
      (∀ x, x ∈ dkeys cache ↔ x ∈ done) →
      (∀ p ∈ done, ∃ v, dlookup dsk p = some v
        ∧ dlookup cache p = some (execute_task app cache v)) →
      evalKeys app dsk rest cache = .ok C →
      (∀ x, x ∈ dkeys C ↔ x ∈ ord) ∧
      (∀ p ∈ ord, ∃ v, dlookup dsk p = some v
        ∧ dlookup C p = some (execute_task app C v)) := by
  intro rest
  induction rest with
  | nil =>
      intro done cache C hsplit hdom hcoh hev
      simp only [evalKeys] at hev
      injection hev with h
      subst h
      rw [List.append_nil] at hsplit
      subst hsplit
      exact ⟨hdom, hcoh⟩
  | cons k ks ih =>
      intro done cache C hsplit hdom hcoh hev
      have hkord : k ∈ ord := by
        rw [hsplit]
        exact List.mem_append_right _ (List.mem_cons_self _ _)
      have hkdsk : k ∈ dkeys dsk := hto.1.mem_iff.mp hkord
      obtain ⟨v, hv⟩ := Option.isSome_iff_exists.mp
        ((dlookup_isSome_iff_mem dsk k).mpr hkdsk)
      simp only [evalKeys, hv] at hev
      have hndord : ord.Nodup := topoOrder_nodup hto hnd
      have hknd : k ∉ done := by
        rw [hsplit] at hndord
        have hd := (List.nodup_append.mp hndord).2.2
        exact fun hc => hd hc (List.mem_cons_self _ _)
      have hkcache : k ∉ dkeys cache := fun hc => hknd ((hdom k).mp hc)
      have hdone_sub : ∀ x ∈ done, x ∈ ord := by
        intro x hx
        rw [hsplit]
        exact List.mem_append_left _ hx
      have hcd1 : ∀ w, w ∈ dkeys cache → w ∈ dkeys dsk := fun w hw =>
        hto.1.mem_iff.mp (hdone_sub w ((hdom w).mp hw))
      have hdepsk : ∀ w ∈ depsOfKey dsk k, w ∈ done :=
        topoOrder_deps_before hto hnd done k ks hsplit
      have hcd1p : ∀ w, w ∈ dkeys (dinsert cache k (execute_task app cache v))
          → w ∈ dkeys dsk := by
        intro w hw
        rcases (mem_dkeys_dinsert _ _ _ _).mp hw with h4 | h4
        · exact hcd1 w h4
        · exact h4 ▸ hkdsk
      have hstep_agree : ∀ (wv : PyVal), (∀ u, u ∈ depsV dsk wv → u ∈ done) →
          execute_task app cache wv
            = execute_task app (dinsert cache k (execute_task app cache v)) wv := by
        intro wv hdeps
        refine execute_task_agree app dsk cache _ hcd1 hcd1p wv ?_
        intro u hu
        have hune : u ≠ k := fun hc => hknd (hc ▸ hdeps u hu)
        rw [dlookup_dinsert_ne _ _ _ _ hune]
      have hdom2 : ∀ x, x ∈ dkeys (dinsert cache k (execute_task app cache v))
          ↔ x ∈ done ++ [k] := by
        intro x
        rw [mem_dkeys_dinsert, List.mem_append, List.mem_singleton, hdom]
      have hcoh2 : ∀ p ∈ done ++ [k], ∃ w, dlookup dsk p = some w
          ∧ dlookup (dinsert cache k (execute_task app cache v)) p
            = some (execute_task app (dinsert cache k (execute_task app cache v)) w) := by
        intro p hp
        rcases List.mem_append.mp hp with hp | hp
        · obtain ⟨w, hw1, hw2⟩ := hcoh p hp
          have hpne : p ≠ k := fun hc => hknd (hc ▸ hp)
          refine ⟨w, hw1, ?_⟩
          rw [dlookup_dinsert_ne _ _ _ _ hpne, hw2]
          congr 1
          obtain ⟨d1, d2, hdsplit⟩ := List.append_of_mem hp
          have hsplit2 : ord = d1 ++ p :: (d2 ++ k :: ks) := by
            rw [hsplit, hdsplit]
            simp
          have hdeps_p : ∀ u ∈ depsOfKey dsk p, u ∈ done := by
            intro u hu
            have := topoOrder_deps_before hto hnd d1 p (d2 ++ k :: ks) hsplit2 u hu
            rw [hdsplit]
            exact List.mem_append_left _ this
          refine hstep_agree w ?_
          intro u hu
          refine hdeps_p u ?_
          rw [depsOfKey_of_lookup hw1, mem_getDepsL_iff]
          exact hu
        · rw [List.mem_singleton] at hp
          subst hp
          refine ⟨v, hv, ?_⟩
          rw [dlookup_dinsert_self]
          congr 1
          refine hstep_agree v ?_
          intro u hu
          refine hdepsk u ?_
          rw [depsOfKey_of_lookup hv, mem_getDepsL_iff]
          exact hu
      have hsplit3 : ord = (done ++ [k]) ++ ks := by
        rw [hsplit]
        simp
      exact ih (done ++ [k]) _ C hsplit3 hdom2 hcoh2 hev

end Dag

namespace Dag

/-- Evaluating a self-contained subgraph in a topological order, starting
from a cache that agrees with the full-graph cache `C` on the external
input keys, reproduces the `C` values on every subgraph key. -/
theorem evalKeys_agree (app : Nat → List PyVal → PyVal) (dsk sub C : Graph)
    (ext : List Key)
    (hsubk : ∀ x, x ∈ dkeys sub → x ∈ dkeys dsk)
    (hsubv : ∀ x, x ∈ dkeys sub → dlookup sub x = dlookup dsk x)
    (hCdom : ∀ x, x ∈ dkeys C → x ∈ dkeys dsk)
    (hCcoh : ∀ p, p ∈ dkeys dsk → ∃ v, dlookup dsk p = some v
      ∧ dlookup C p = some (execute_task app C v))
    (hext : ∀ x ∈ ext, x ∈ dkeys dsk)
    (hP5 : ∀ k, k ∈ dkeys sub → ∀ w ∈ depsOfKey dsk k, w ∈ dkeys sub ∨ w ∈ ext)
    (hndsub : (dkeys sub).Nodup)
    (lsub : List Key) (hts : TopoOrder sub lsub) :
    ∀ (rest done : List Key) (cache : Graph),
      lsub = done ++ rest →
      (∀ x, x ∈ dkeys cache ↔ (x ∈ ext ∨ x ∈ done)) →
      (∀ x, x ∈ dkeys cache → dlookup cache x = dlookup C x) →
      ∃ CF, evalKeys app sub rest cache = .ok CF
        ∧ (∀ x, x ∈ dkeys CF ↔ (x ∈ ext ∨ x ∈ lsub))
        ∧ (∀ x, x ∈ dkeys CF → dlookup CF x = dlookup C x) := by
  intro rest
  induction rest with
  | nil =>
      intro done cache hsplit hdom hagr
      rw [List.append_nil] at hsplit
      subst hsplit
      exact ⟨cache, rfl, hdom, hagr⟩
  | cons k ks ih =>
      intro done cache hsplit hdom hagr
      have hklsub : k ∈ lsub := by
        rw [hsplit]
        exact List.mem_append_right _ (List.mem_cons_self _ _)
      have hksub : k ∈ dkeys sub := hts.1.mem_iff.mp hklsub
      have hkdsk : k ∈ dkeys dsk := hsubk k hksub
      obtain ⟨vk, hvk⟩ := Option.isSome_iff_exists.mp
        ((dlookup_isSome_iff_mem sub k).mpr hksub)
      have hvkdsk : dlookup dsk k = some vk := by rw [← hsubv k hksub, hvk]
      simp only [evalKeys, hvk]
      obtain ⟨v2, hv2, hCk⟩ := hCcoh k hkdsk
      have hv2eq : v2 = vk := by
        rw [hvkdsk] at hv2
        injection hv2 with h
        exact h.symm
      rw [hv2eq] at hCk
      have hndlsub : lsub.Nodup := topoOrder_nodup hts hndsub
      have hknd : k ∉ done := by
        rw [hsplit] at hndlsub
        have hd := (List.nodup_append.mp hndlsub).2.2
        exact fun hc => hd hc (List.mem_cons_self _ _)
      have hdone_sub : ∀ x ∈ done, x ∈ lsub := by
        intro x hx
        rw [hsplit]
        exact List.mem_append_left _ hx
      have hcd1 : ∀ w, w ∈ dkeys cache → w ∈ dkeys dsk := by
        intro w hw
        rcases (hdom w).mp hw with h4 | h4
        · exact hext w h4
        · exact hsubk w (hts.1.mem_iff.mp (hdone_sub w h4))
      have hdeps_agree : ∀ u, u ∈ depsV dsk vk → dlookup cache u = dlookup C u := by
        intro u hu
        have hudep : u ∈ depsOfKey dsk k := by
          rw [depsOfKey_of_lookup hvkdsk, mem_getDepsL_iff]
          exact hu
        have hmem : u ∈ dkeys cache := by
          rcases hP5 k hksub u hudep with h4 | h4
          · have husub : u ∈ depsOfKey sub k := by
              rw [depsOfKey_of_lookup hvk, mem_getDepsL_iff]
              exact depsV_transfer sub dsk vk u hu ((dmem_iff_mem_dkeys sub u).mpr h4)
            have hudone : u ∈ done :=
              topoOrder_deps_before hts hndsub done k ks hsplit u husub
            exact (hdom u).mpr (Or.inr hudone)
          · exact (hdom u).mpr (Or.inl h4)
        exact hagr u hmem
      have hval_eq : execute_task app cache vk = execute_task app C vk :=
        execute_task_agree app dsk cache C hcd1 hCdom vk hdeps_agree
      have hnewval : dlookup C k = some (execute_task app cache vk) := by
        rw [hCk, hval_eq]
      have hdom2 : ∀ x, x ∈ dkeys (dinsert cache k (execute_task app cache vk))
          ↔ (x ∈ ext ∨ x ∈ done ++ [k]) := by
        intro x
        rw [mem_dkeys_dinsert, hdom, List.mem_append, List.mem_singleton]
        tauto
      have hagr2 : ∀ x, x ∈ dkeys (dinsert cache k (execute_task app cache vk)) →
          dlookup (dinsert cache k (execute_task app cache vk)) x = dlookup C x := by
        intro x hx
        by_cases hxk : x = k
        · subst hxk
          rw [dlookup_dinsert_self, hnewval]
        · rw [dlookup_dinsert_ne _ _ _ _ hxk]
          refine hagr x ?_
          rcases (mem_dkeys_dinsert _ _ _ _).mp hx with h4 | h4
          · exact h4
          · exact absurd h4 hxk
      have hsplit3 : lsub = (done ++ [k]) ++ ks := by
        rw [hsplit]
        simp
      exact ih (done ++ [k]) _ hsplit3 hdom2 hagr2

end Dag

namespace Dag

/-- Property of the `child2parent` map built by the chain scan: each entry
records that the parent's dependency set is exactly the singleton child. -/
def C2P (deps : DepsS) (m : List (Key × Key)) : Prop :=
  ∀ c p, (c, p) ∈ m → dlookup deps p = some [c]

/-- The mirrored property for the `parent2child` map. -/
def P2C (deps : DepsS) (m : List (Key × Key)) : Prop :=
  ∀ p c, (p, c) ∈ m → dlookup deps p = some [c]

theorem getLast?_mem2 {α : Type} : ∀ (l : List α) (a : α), l.getLast? = some a → a ∈ l := by
  intro l
  induction l with
  | nil => intro a h; simp at h
  | cons x rest ih =>
      intro a h
      cases rest with
      | nil =>
          simp only [List.getLast?_singleton, Option.some.injEq] at h
          rw [h]
          exact List.mem_cons_self _ _
      | cons y rest2 =>
          rw [List.getLast?_cons_cons] at h
          exact List.mem_cons_of_mem _ (ih a h)

theorem chainScanDeps_c2p (deps : DepsS) (keysSet : Option SSet) (parent : Key)
    (manyChildren : Bool) :
    ∀ (children : List Key) (c2p : List (Key × Key)) (unf : SSet),
      C2P deps c2p →
      (manyChildren = false → ∀ ch ∈ children, dlookup deps parent = some [ch]) →
      C2P deps (chainScanDeps keysSet parent manyChildren children c2p unf).1 := by
  intro children
  induction children with
  | nil => intro c2p unf h _; exact h
  | cons child rest ih =>
      intro c2p unf hc2p hsingle
      have hsingle2 : manyChildren = false → ∀ ch ∈ rest, dlookup deps parent = some [ch] :=
        fun hm ch hch => hsingle hm ch (List.mem_cons_of_mem _ hch)
      have hrest2 : ∀ (c2p2 : List (Key × Key)) (unf2 : SSet), (C2P deps c2p2 →
          C2P deps (chainScanDeps keysSet parent manyChildren rest c2p2 unf2).1) :=
        fun c2p2 unf2 h2 => ih c2p2 unf2 h2 hsingle2
      have hins : C2P deps (dinsert c2p child parent) → manyChildren = true ∨
          C2P deps (dinsert c2p child parent) := fun h2 => Or.inr h2
      have hinsOK : manyChildren = false → C2P deps (dinsert c2p child parent) := by
        intro hmf c p hcp
        rcases mem_dinsert_pairs c2p child parent c p hcp with ⟨h3, h4⟩ | h3
        · rw [h4, h3]
          exact hsingle hmf child (List.mem_cons_self _ _)
        · exact hc2p c p h3
      have hpop : C2P deps (dpopD c2p child) := fun c p hcp =>
        hc2p c p ((dpopD_sublist c2p child).subset hcp)
      simp only [chainScanDeps]
      rcases keysSet with _ | ks
      · simp only []
        rw [if_neg Bool.false_ne_true]
        by_cases hdm : dmem c2p child = true
        · rw [if_pos hdm]
          exact hrest2 _ _ hpop
        · rw [if_neg hdm]
          by_cases hmany : manyChildren = true
          · rw [if_pos hmany]
            exact hrest2 _ _ hc2p
          · rw [if_neg hmany]
            by_cases hunf : child ∈ unf
            · rw [if_pos hunf]
              exact hrest2 _ _ hc2p
            · rw [if_neg hunf]
              refine hrest2 _ _ (hinsOK ?_)
              cases manyChildren
              · rfl
              · exact absurd rfl hmany
      · simp only []
        by_cases hmem : child ∈ ks
        · rw [if_pos (decide_eq_true hmem)]
          exact hrest2 _ _ hc2p
        · rw [if_neg (fun hc => hmem (of_decide_eq_true hc))]
          by_cases hdm : dmem c2p child = true
          · rw [if_pos hdm]
            exact hrest2 _ _ hpop
          · rw [if_neg hdm]
            by_cases hmany : manyChildren = true
            · rw [if_pos hmany]
              exact hrest2 _ _ hc2p
            · rw [if_neg hmany]
              by_cases hunf : child ∈ unf
              · rw [if_pos hunf]
                exact hrest2 _ _ hc2p
              · rw [if_neg hunf]
                refine hrest2 _ _ (hinsOK ?_)
                cases manyChildren
                · rfl
                · exact absurd rfl hmany

theorem chainScan_c2p (deps : DepsS) (keysSet : Option SSet) :
    ∀ (parents : List Key) (c2p : List (Key × Key)) (unf : SSet)
      (out : List (Key × Key) × SSet),
      chainScan deps keysSet parents c2p unf = some out →
      C2P deps c2p → C2P deps out.1 := by
  intro parents
  induction parents with
  | nil =>
      intro c2p unf out h hc2p
      simp only [chainScan, Option.some.injEq] at h
      rw [← h]
      exact hc2p
  | cons parent rest ih =>
      intro c2p unf out h hc2p
      simp only [chainScan] at h
      cases hl : dlookup deps parent with
      | none => rw [hl] at h; simp at h
      | some depsL =>
          rw [hl] at h
          simp only [] at h
          refine ih _ _ out h ?_
          refine chainScanDeps_c2p deps keysSet parent _ depsL c2p unf hc2p ?_
          intro hm ch hch
          have hle : ¬ depsL.length > 1 := of_decide_eq_false hm
          rw [hl]
          congr 1
          match depsL, hch with
          | [x], hch =>
              rw [List.mem_singleton] at hch
              rw [hch]
          | x :: y :: rest2, _ => simp at hle

theorem foldl_dinsert_p2c (deps : DepsS) : ∀ (l : List (Key × Key))
    (acc : List (Key × Key)), C2P deps l → P2C deps acc →
    P2C deps (l.foldl (fun acc2 kv => dinsert acc2 kv.2 kv.1) acc) := by
  intro l
  induction l with
  | nil => intro acc _ h2; exact h2
  | cons kv rest ih =>
      intro acc h1 h2
      simp only [List.foldl_cons]
      refine ih _ (fun c p hcp => h1 c p (List.mem_cons_of_mem _ hcp)) ?_
      intro p c hpc
      rcases mem_dinsert_pairs acc kv.2 kv.1 p c hpc with ⟨h3, h4⟩ | h3
      · subst h3
        subst h4
        refine h1 kv.1 kv.2 ?_
        have : (kv.1, kv.2) = kv := rfl
        rw [this]
        exact List.mem_cons_self _ _
      · exact h2 p c h3

theorem chainUp_spec (deps : DepsS) : ∀ (fuel : Nat) (c2p p2c : List (Key × Key))
    (parent : Key) (chain : List Key)
    (out : List Key × List (Key × Key) × List (Key × Key)),
    chainUp fuel c2p p2c parent chain = some out →
    C2P deps c2p → P2C deps p2c →
    List.Chain' (fun a b => dlookup deps b = some [a]) chain →
    chain.getLast? = some parent →
    List.Chain' (fun a b => dlookup deps b = some [a]) out.1
    ∧ out.1.head? = chain.head?
    ∧ C2P deps out.2.1 ∧ P2C deps out.2.2 := by
  intro fuel
  induction fuel with
  | zero => intro c2p p2c parent chain out h; simp [chainUp] at h
  | succ n ih =>
      intro c2p p2c parent chain out h hc2p hp2c hch hlast
      simp only [chainUp] at h
      cases hl : dlookup c2p parent with
      | none =>
          rw [hl] at h
          injection h with h2
          subst h2
          exact ⟨hch, rfl, hc2p, hp2c⟩
      | some gp =>
          rw [hl] at h
          simp only [] at h
          cases hd : derase p2c gp with
          | none => rw [hd] at h; simp at h
          | some p2c2 =>
              rw [hd] at h
              simp only [] at h
              have hgp : dlookup deps gp = some [parent] :=
                hc2p parent gp (dlookup_mem_pairs _ _ _ hl)
              have hne : chain ≠ [] := by
                intro hc
                rw [hc] at hlast
                simp at hlast
              have hch2 : List.Chain' (fun a b => dlookup deps b = some [a])
                  (chain ++ [gp]) := by
                rw [List.chain'_append]
                refine ⟨hch, List.chain'_singleton _, ?_⟩
                intro x hx y hy
                rw [hlast, Option.mem_def, Option.some.injEq] at hx
                rw [Option.mem_def, List.head?_cons, Option.some.injEq] at hy
                rw [← hx, ← hy]
                exact hgp
              have hlast2 : (chain ++ [gp]).getLast? = some gp := by
                rw [List.getLast?_concat]
              obtain ⟨ha, hb, hc, hd2⟩ := ih _ _ gp (chain ++ [gp]) out h
                (fun c p hcp => hc2p c p ((dpopD_sublist c2p parent).subset hcp))
                (fun p c hpc => hp2c p c ((derase_sublist p2c p2c2 gp hd).subset hpc))
                hch2 hlast2
              refine ⟨ha, ?_, hc, hd2⟩
              rw [hb]
              cases chain with
              | nil => exact absurd rfl hne
              | cons c0 crest => simp

theorem chainDown_spec (deps : DepsS) : ∀ (fuel : Nat) (c2p p2c : List (Key × Key))
    (child : Key) (chain : List Key)
    (out : List Key × List (Key × Key) × List (Key × Key)),
    chainDown fuel c2p p2c child chain = some out →
    C2P deps c2p → P2C deps p2c →
    List.Chain' (fun a b => dlookup deps a = some [b]) chain →
    chain.getLast? = some child →
    List.Chain' (fun a b => dlookup deps a = some [b]) out.1
    ∧ out.1.head? = chain.head?
    ∧ C2P deps out.2.1 ∧ P2C deps out.2.2 := by
  intro fuel
  induction fuel with
  | zero => intro c2p p2c child chain out h; simp [chainDown] at h
  | succ n ih =>
      intro c2p p2c child chain out h hc2p hp2c hch hlast
      simp only [chainDown] at h
      cases hl : dlookup p2c child with
      | none =>
          rw [hl] at h
          injection h with h2
          subst h2
          exact ⟨hch, rfl, hc2p, hp2c⟩
      | some ch2 =>
          rw [hl] at h
          simp only [] at h
          cases hd : derase c2p ch2 with
          | none => rw [hd] at h; simp at h
          | some c2p2 =>
              rw [hd] at h
              simp only [] at h
              have hgp : dlookup deps child = some [ch2] :=
                hp2c child ch2 (dlookup_mem_pairs _ _ _ hl)
              have hne : chain ≠ [] := by
                intro hc
                rw [hc] at hlast
                simp at hlast
              have hch2 : List.Chain' (fun a b => dlookup deps a = some [b])
                  (chain ++ [ch2]) := by
                rw [List.chain'_append]
                refine ⟨hch, List.chain'_singleton _, ?_⟩
                intro x hx y hy
                rw [hlast, Option.mem_def, Option.some.injEq] at hx
                rw [Option.mem_def, List.head?_cons, Option.some.injEq] at hy
                rw [← hx, ← hy]
                exact hgp
              have hlast2 : (chain ++ [ch2]).getLast? = some ch2 := by
                rw [List.getLast?_concat]
              obtain ⟨ha, hb, hc, hd2⟩ := ih _ _ ch2 (chain ++ [ch2]) out h
                (fun c p hcp => hc2p c p ((derase_sublist c2p c2p2 ch2 hd).subset hcp))
                (fun p c hpc => hp2c p c ((dpopD_sublist p2c child).subset hpc))
                hch2 hlast2
              refine ⟨ha, ?_, hc, hd2⟩
              rw [hb]
              cases chain with
              | nil => exact absurd rfl hne
              | cons c0 crest => simp

theorem buildChains_adj (deps : DepsS) : ∀ (fuel : Nat) (c2p p2c : List (Key × Key))
    (acc out : List (List Key)),
    buildChains fuel c2p p2c acc = some out →
    C2P deps c2p → P2C deps p2c →
    (∀ ch ∈ acc, List.Chain' (fun a b => dlookup deps a = some [b]) ch) →
    ∀ ch ∈ out, List.Chain' (fun a b => dlookup deps a = some [b]) ch := by
  intro fuel
  induction fuel with
  | zero => intro c2p p2c acc out h; simp [buildChains] at h
  | succ n ih =>
      intro c2p p2c acc out h hc2p hp2c hacc
      simp only [buildChains] at h
      cases hgl : c2p.getLast? with
      | none =>
          rw [hgl] at h
          injection h with h2
          subst h2
          exact hacc
      | some cp =>
          obtain ⟨child, parent⟩ := cp
          rw [hgl] at h
          simp only [] at h
          cases hup : chainUp n c2p.dropLast p2c parent [child, parent] with
          | none => rw [hup] at h; simp at h
          | some trip1 =>
              obtain ⟨chain1, c2p1, p2c1⟩ := trip1
              rw [hup] at h
              simp only [] at h
              cases hdn : chainDown n c2p1 p2c1 child chain1.reverse with
              | none => rw [hdn] at h; simp at h
              | some trip2 =>
                  obtain ⟨chain3, c2p2, p2c2⟩ := trip2
                  rw [hdn] at h
                  have hcp_mem : (child, parent) ∈ c2p := getLast?_mem2 c2p _ hgl
                  have hedge : dlookup deps parent = some [child] :=
                    hc2p child parent hcp_mem
                  have hch0 : List.Chain' (fun a b => dlookup deps b = some [a])
                      [child, parent] := by
                    rw [List.chain'_cons]
                    exact ⟨hedge, List.chain'_singleton _⟩
                  obtain ⟨ha1, hb1, hc1, hd1⟩ := chainUp_spec deps n c2p.dropLast p2c
                    parent [child, parent] _ hup
                    (fun c p hcp => hc2p c p (List.dropLast_sublist c2p |>.subset hcp))
                    hp2c hch0 rfl
                  have hrev : List.Chain' (fun a b => dlookup deps a = some [b])
                      chain1.reverse := by
                    rw [List.chain'_reverse]
                    exact ha1
                  have hrevlast : chain1.reverse.getLast? = some child := by
                    rw [List.getLast?_reverse, hb1]
                    rfl
                  obtain ⟨ha2, hb2, hc2, hd2⟩ := chainDown_spec deps n c2p1 p2c1
                    child chain1.reverse _ hdn hc1 hd1 hrev hrevlast
                  refine ih _ _ _ out h hc2 hd2 ?_
                  intro ch hch
                  rcases List.mem_append.mp hch with h4 | h4
                  · exact hacc ch h4
                  · rw [List.mem_singleton] at h4
                    rw [h4]
                    exact ha2

theorem filterChains_sub (dsk : Graph) : ∀ (chains out : List (List Key)),
    filterChains dsk chains = some out → ∀ c ∈ out, c ∈ chains := by
  intro chains
  induction chains with
  | nil =>
      intro out h c hc
      simp only [filterChains, Option.some.injEq] at h
      rw [← h] at hc
      exact absurd hc (List.not_mem_nil c)
  | cons c2 rest ih =>
      intro out h c hc
      simp only [filterChains] at h
      cases ht : chainHasTwoTasks dsk c2 0 with
      | none => rw [ht] at h; simp at h
      | some b =>
          rw [ht] at h
          cases hf : filterChains dsk rest with
          | none => rw [hf] at h; simp at h
          | some l2 =>
              rw [hf] at h
              have h2 : (if b = true then c2 :: l2 else l2) = out := by
                simpa using h
              rw [← h2] at hc
              by_cases hb : b = true
              · rw [if_pos hb] at hc
                rcases List.mem_cons.mp hc with h4 | h4
                · rw [h4]
                  exact List.mem_cons_self _ _
                · exact List.mem_cons_of_mem _ (ih l2 hf c h4)
              · rw [if_neg hb] at hc
                exact List.mem_cons_of_mem _ (ih l2 hf c hc)

theorem subgraphChains_adj (fuel : Nat) (dsk : Graph) (keysSet : Option SSet)
    (deps : DepsS) (chains : List (List Key))
    (h : subgraphChains fuel dsk keysSet deps = some chains) :
    ∀ c ∈ chains, List.Chain' (fun a b => dlookup deps a = some [b]) c := by
  simp only [subgraphChains] at h
  cases hs : chainScan deps keysSet (dkeys dsk) [] [] with
  | none => rw [hs] at h; simp at h
  | some p =>
      obtain ⟨c2p, unf⟩ := p
      rw [hs] at h
      simp only [] at h
      cases hb : buildChains fuel c2p
          (c2p.foldl (fun acc kv => dinsert acc kv.2 kv.1) []) [] with
      | none => rw [hb] at h; simp at h
      | some allChains =>
          rw [hb] at h
          intro c hc
          have hc2p : C2P deps c2p :=
            chainScan_c2p deps keysSet (dkeys dsk) [] [] (c2p, unf) hs
              (fun c2 p2 hcp => absurd hcp (List.not_mem_nil _))
          have hp2c : P2C deps (c2p.foldl (fun acc kv => dinsert acc kv.2 kv.1) []) :=
            foldl_dinsert_p2c deps c2p [] hc2p
              (fun p2 c2 hpc => absurd hpc (List.not_mem_nil _))
          exact buildChains_adj deps fuel c2p _ [] allChains hb hc2p hp2c
            (fun ch hch => absurd hch (List.not_mem_nil _)) c
            (filterChains_sub dsk allChains chains h c hc)

theorem buildSubgraphAcc_spec (dsk : Graph) : ∀ (chain : List Key) (acc sub : Graph),
    buildSubgraphAcc dsk chain acc = some sub →
    (∀ k, k ∈ dkeys acc → dlookup acc k = dlookup dsk k) →
    (dkeys acc).Nodup →
    (∀ k, k ∈ dkeys sub → dlookup sub k = dlookup dsk k) ∧
    (∀ k, k ∈ dkeys sub → (k ∈ chain ∨ k ∈ dkeys acc)) ∧
    (∀ k ∈ chain, k ∈ dkeys sub) ∧
    (∀ k ∈ dkeys acc, k ∈ dkeys sub) ∧
    (dkeys sub).Nodup := by
  intro chain
  induction chain with
  | nil =>
      intro acc sub h hagr hnd
      simp only [buildSubgraphAcc, Option.some.injEq] at h
      subst h
      exact ⟨hagr, fun k hk => Or.inr hk, by simp, fun k hk => hk, hnd⟩
  | cons k rest ih =>
      intro acc sub h hagr hnd
      simp only [buildSubgraphAcc] at h
      cases hl : dlookup dsk k with
      | none => rw [hl] at h; simp at h
      | some v =>
          rw [hl] at h
          have hagr2 : ∀ x, x ∈ dkeys (dinsert acc k v)
              → dlookup (dinsert acc k v) x = dlookup dsk x := by
            intro x hx
            by_cases hxk : x = k
            · subst hxk
              rw [dlookup_dinsert_self, hl]
            · rw [dlookup_dinsert_ne _ _ _ _ hxk]
              refine hagr x ?_
              rcases (mem_dkeys_dinsert _ _ _ _).mp hx with h4 | h4
              · exact h4
              · exact absurd h4 hxk
          obtain ⟨ha, hb, hc, hd, he⟩ := ih (dinsert acc k v) sub h hagr2
            (nodup_dkeys_dinsert _ _ _ hnd)
          refine ⟨ha, ?_, ?_, ?_, he⟩
          · intro x hx
            rcases hb x hx with h4 | h4
            · exact Or.inl (List.mem_cons_of_mem _ h4)
            · rcases (mem_dkeys_dinsert _ _ _ _).mp h4 with h5 | h5
              · exact Or.inr h5
              · exact Or.inl (h5 ▸ List.mem_cons_self _ _)
          · intro x hx
            rcases List.mem_cons.mp hx with h4 | h4
            · exact hd x (h4 ▸ (mem_dkeys_dinsert _ _ _ _).mpr (Or.inr rfl))
            · exact hc x h4
          · intro x hx
            exact hd x (mem_dkeys_dinsert_of_mem _ _ _ _ hx)

end Dag

namespace Dag

theorem outKeysOf_not_list (v : PyVal) (hnl : PyVal.isList v = false) :
    outKeysOf v = [v] := by
  cases v with
  | list es => simp [PyVal.isList] at hnl
  | str s => rfl
  | int n => rfl
  | fn i => rfl
  | tup es => rfl

theorem chain'_mem_next {R : Key → Key → Prop} : ∀ (l : List Key) (k : Key),
    List.Chain' R l → k ∈ l → l.getLast? = some k ∨ ∃ nxt, nxt ∈ l ∧ R k nxt := by
  intro l
  induction l with
  | nil => intro k _ hk; exact absurd hk (List.not_mem_nil k)
  | cons a rest ih =>
      intro k hch hk
      cases rest with
      | nil =>
          rw [List.mem_singleton] at hk
          subst hk
          exact Or.inl rfl
      | cons b rest2 =>
          rw [List.chain'_cons] at hch
          rcases List.mem_cons.mp hk with h4 | h4
          · subst h4
            exact Or.inr ⟨b, List.mem_cons_of_mem _ (List.mem_cons_self _ _), hch.1⟩
          · rcases ih k hch.2 h4 with h5 | ⟨nxt, h6, h7⟩
            · rw [List.getLast?_cons_cons]
              exact Or.inl h5
            · exact Or.inr ⟨nxt, List.mem_cons_of_mem _ h6, h7⟩

/-- Claim C8: a chain selected by `_inplace_fuse_subgraphs`, wrapped in its
`SubgraphCallable`, computes on the outer evaluations of its input keys
exactly the value the pre-fusion graph computes for the chain head. -/
theorem C8_subgraph_callable_roundtrip
    (app : Nat → List PyVal → PyVal) (dsk : Graph) (keysSet : Option SSet)
    (fuelS fuelO fuelC : Nat) (chains : List (List Key)) (chain : List Key)
    (sc : SubgraphCallable) (ord : List Key) (C : Graph)
    (r : Except (List Key) (List Key))
    (hnd : (dkeys dsk).Nodup)
    (hkeys : ∀ k ∈ dkeys dsk, PyVal.isList k = false ∧ istask k = false)
    (hchains : subgraphChains fuelS dsk keysSet (graphDepsS dsk) = some chains)
    (hmemc : chain ∈ chains)
    (hcc : chainCallable dsk (graphDepsS dsk) chain = some sc)
    (hordr : toposortF fuelO dsk none = some (.ok ord))
    (hev : evalKeys app dsk ord [] = .ok C)
    (hsort : toposortF fuelC sc.dsk none = some r) :
    ∃ v, SubgraphCallable.call app fuelC sc
        (sc.inkeys.map fun k => (dlookup C k).getD (.int 0)) = some (.ok v)
      ∧ getF app fuelO dsk sc.outkey none none = some (.ok v) := by
  have hto : TopoOrder dsk ord := toposortF_ok_topoOrder fuelO dsk hnd ord hordr
  simp only [chainCallable] at hcc
  cases hchn : chain with
  | nil =>
      rw [hchn] at hcc
      simp at hcc
  | cons outkey chainRest =>
      rw [hchn] at hcc
      simp only [] at hcc
      cases hgl : (outkey :: chainRest).getLast? with
      | none => simp at hgl
      | some term =>
          rw [hgl] at hcc
          simp only [] at hcc
          cases hterm : dlookup (graphDepsS dsk) term with
          | none => rw [hterm] at hcc; simp at hcc
          | some inkeysSet =>
              cases hsubE : buildSubgraphAcc dsk (outkey :: chainRest) [] with
              | none => rw [hterm, hsubE] at hcc; simp at hcc
              | some sub =>
                  rw [hterm, hsubE] at hcc
                  simp only [Option.some.injEq] at hcc
                  subst hcc
                  obtain ⟨hsubv, hsubmem, hchainsub, _, hndsub⟩ :=
                    buildSubgraphAcc_spec dsk (outkey :: chainRest) [] sub hsubE
                      (fun k hk => absurd hk (by simp [dkeys]))
                      (by simp [dkeys])
                  have hsubchain : ∀ k, k ∈ dkeys sub → k ∈ outkey :: chainRest := by
                    intro k hk
                    rcases hsubmem k hk with h4 | h4
                    · exact h4
                    · simp [dkeys] at h4
                  have hsubk : ∀ k, k ∈ dkeys sub → k ∈ dkeys dsk := by
                    intro k hk
                    have h4 := hsubv k hk
                    have h5 := (dlookup_isSome_iff_mem sub k).mpr hk
                    rw [h4] at h5
                    exact (dlookup_isSome_iff_mem dsk k).mp h5
                  have hadj : List.Chain'
                      (fun a b => dlookup (graphDepsS dsk) a = some [b])
                      (outkey :: chainRest) :=
                    subgraphChains_adj fuelS dsk keysSet (graphDepsS dsk) chains
                      hchains (outkey :: chainRest) (hchn ▸ hmemc)
                  obtain ⟨hCdomIff, hCcohOrd⟩ :=
                    evalKeys_coherent app dsk ord hnd hto ord [] [] C rfl
                      (by intro x; simp [dkeys])
                      (by intro p hp; exact absurd hp (List.not_mem_nil p)) hev
                  have hCdom : ∀ x, x ∈ dkeys C → x ∈ dkeys dsk :=
                    fun x hx => hto.1.mem_iff.mp ((hCdomIff x).mp hx)
                  have hCcoh : ∀ p, p ∈ dkeys dsk → ∃ v, dlookup dsk p = some v
                      ∧ dlookup C p = some (execute_task app C v) :=
                    fun p hp => hCcohOrd p (hto.1.mem_iff.mpr hp)
                  have hCmem : ∀ x, x ∈ dkeys dsk → x ∈ dkeys C :=
                    fun x hx => (hCdomIff x).mpr (hto.1.mem_iff.mpr hx)
                  have htermdsk : ∃ vterm, dlookup dsk term = some vterm
                      ∧ inkeysSet = getDepsS dsk vterm := by
                    rw [dlookup_graphDepsS] at hterm
                    cases hvt : dlookup dsk term with
                    | none => rw [hvt] at hterm; simp at hterm
                    | some vterm =>
                        rw [hvt] at hterm
                        simp at hterm
                        exact ⟨vterm, rfl, hterm.symm⟩
                  obtain ⟨vterm, hvt, hinkeys⟩ := htermdsk
                  have hext : ∀ x ∈ inkeysSet, x ∈ dkeys dsk := by
                    intro x hx
                    rw [hinkeys, getDepsS, mem_sdedup] at hx
                    exact getDepsL_mem dsk vterm x hx
                  have hP5 : ∀ k, k ∈ dkeys sub → ∀ w ∈ depsOfKey dsk k,
                      w ∈ dkeys sub ∨ w ∈ inkeysSet := by
                    intro k hk w hw
                    have hkch : k ∈ outkey :: chainRest := hsubchain k hk
                    rcases chain'_mem_next (outkey :: chainRest) k hadj hkch with
                      hlastk | ⟨nxt, hnxt, hR⟩
                    · rw [hgl] at hlastk
                      injection hlastk with h4
                      subst h4
                      right
                      rw [hinkeys, getDepsS, mem_sdedup]
                      rw [depsOfKey_of_lookup hvt] at hw
                      exact hw
                    · rw [dlookup_graphDepsS] at hR
                      cases hvk : dlookup dsk k with
                      | none => rw [hvk] at hR; simp at hR
                      | some vk =>
                          rw [hvk] at hR
                          simp at hR
                          rw [depsOfKey_of_lookup hvk] at hw
                          have hw2 : w ∈ getDepsS dsk vk := by
                            rw [getDepsS, mem_sdedup]
                            exact hw
                          rw [hR, List.mem_singleton] at hw2
                          left
                          rw [hw2]
                          exact hchainsub nxt hnxt
                  cases r with
                  | error cyc =>
                      exfalso
                      obtain ⟨x, _, hcyc⟩ := toposortF_error_cycle fuelC sub cyc hsort
                      exact sub_no_cycle hto hsubk hsubv x hcyc
                  | ok lsub =>
                      have hts : TopoOrder sub lsub :=
                        toposortF_ok_topoOrder fuelC sub hndsub lsub hsort
                      have hcacheLk := dictOfZip_lookup
                        (fun k => (dlookup C k).getD (.int 0)) inkeysSet
                      have hcdom : ∀ x, x ∈ dkeys (dictOfZip inkeysSet (inkeysSet.map
                          (fun k => (dlookup C k).getD (.int 0))))
                          ↔ (x ∈ inkeysSet ∨ x ∈ ([] : List Key)) := by
                        intro x
                        rw [← dlookup_isSome_iff_mem, hcacheLk x]
                        by_cases hx : x ∈ inkeysSet
                        · simp [hx]
                        · simp [hx]
                      have hcagr : ∀ x, x ∈ dkeys (dictOfZip inkeysSet (inkeysSet.map
                          (fun k => (dlookup C k).getD (.int 0)))) →
                          dlookup (dictOfZip inkeysSet (inkeysSet.map
                            (fun k => (dlookup C k).getD (.int 0)))) x = dlookup C x := by
                        intro x hx
                        have hx2 : x ∈ inkeysSet := by
                          rcases (hcdom x).mp hx with h | h
                          · exact h
                          · exact absurd h (List.not_mem_nil x)
                        rw [hcacheLk x, if_pos hx2]
                        obtain ⟨vx, hvx⟩ := Option.isSome_iff_exists.mp
                          ((dlookup_isSome_iff_mem C x).mpr (hCmem x (hext x hx2)))
                        rw [hvx]
                        rfl
                      obtain ⟨CF, hevs, hCFdom, hCFagr⟩ := evalKeys_agree app dsk sub C
                        inkeysSet hsubk hsubv hCdom hCcoh hext hP5 hndsub lsub hts
                        lsub [] _ rfl hcdom hcagr
                      have houtsub : outkey ∈ dkeys sub :=
                        hchainsub outkey (List.mem_cons_self _ _)
                      have houtdsk : outkey ∈ dkeys dsk := hsubk outkey houtsub
                      obtain ⟨hnl, hnt⟩ := hkeys outkey houtdsk
                      have houtCF : outkey ∈ dkeys CF :=
                        (hCFdom outkey).mpr (Or.inr (hts.1.mem_iff.mpr houtsub))
                      have hlkeq : dlookup CF outkey = dlookup C outkey :=
                        hCFagr outkey houtCF
                      have hexe : execute_task app CF outkey = execute_task app C outkey := by
                        rw [execute_task_leaf app CF outkey hnl hnt,
                          execute_task_leaf app C outkey hnl hnt, hlkeq]
                      refine ⟨execute_task app C outkey, ?_, ?_⟩
                      · show SubgraphCallable.call app fuelC
                            ⟨sub, outkey, inkeysSet, "subgraph_callable"⟩
                            (inkeysSet.map fun k => (dlookup C k).getD (.int 0))
                            = some (.ok (execute_task app C outkey))
                        simp only [SubgraphCallable.call]
                        rw [if_neg (by simp)]
                        rw [getF_eq]
                        rw [outKeysOf_not_list outkey hnl]
                        have hdm : dmem sub outkey = true :=
                          (dmem_iff_mem_dkeys sub outkey).mpr houtsub
                        have hfind : List.find? (fun k => ! dmem sub k) [outkey] = none := by
                          rw [List.find?_eq_none]
                          intro x hx
                          rw [List.mem_singleton] at hx
                          subst hx
                          rw [hdm]
                          simp
                        rw [hfind]
                        simp only []
                        rw [hsort]
                        simp only []
                        rw [Option.getD_some]
                        rw [hevs]
                        simp only []
                        refine congrArg some (congrArg Except.ok ?_)
                        rw [← hexe]
                        cases outkey with
                        | list es => simp [PyVal.isList] at hnl
                        | str s => rfl
                        | int n => rfl
                        | fn i => rfl
                        | tup es => rfl
                      · show getF app fuelO dsk outkey none none
                            = some (.ok (execute_task app C outkey))
                        rw [getF_eq]
                        rw [outKeysOf_not_list outkey hnl]
                        have hdm : dmem dsk outkey = true :=
                          (dmem_iff_mem_dkeys dsk outkey).mpr houtdsk
                        have hfind : List.find? (fun k => ! dmem dsk k) [outkey] = none := by
                          rw [List.find?_eq_none]
                          intro x hx
                          rw [List.mem_singleton] at hx
                          subst hx
                          rw [hdm]
                          simp
                        rw [hfind]
                        simp only []
                        rw [hordr]
                        simp only [Option.getD_none]
                        rw [hev]
                        simp only []
                        refine congrArg some (congrArg Except.ok ?_)
                        cases outkey with
                        | list es => simp [PyVal.isList] at hnl
                        | str s => rfl
                        | int n => rfl
                        | fn i => rfl
                        | tup es => rfl

end Dag

namespace Dag

/-- Graph of claim C8's witness: the chain `c → b → a` is selected whole by
the subgraph pass and wrapped in a callable with no external inputs. -/
def exC8 : Graph :=
  [(.str "a", .int 1), (.str "b", .tup [.fn 0, .str "a"]),
   (.str "c", .tup [.fn 0, .str "b"])]

/-- Witness for claim C8: on `exC8` the selected chain's callable, invoked
with the (empty) outer inputs, returns the value `get` computes for the
chain head `c` on the original graph. -/
theorem C8_witness :
    ∃ v, SubgraphCallable.call applyStd 20
        ⟨[(PyVal.str "c", PyVal.tup [.fn 0, .str "b"]),
          (PyVal.str "b", PyVal.tup [.fn 0, .str "a"]),
          (PyVal.str "a", PyVal.int 1)], PyVal.str "c", [], "subgraph_callable"⟩
        (([] : List Key).map fun k => (dlookup
          [(PyVal.str "a", PyVal.int 1), (PyVal.str "b", PyVal.int 2),
           (PyVal.str "c", PyVal.int 3)] k).getD (.int 0)) = some (.ok v)
      ∧ getF applyStd 20 exC8 (PyVal.str "c") none none = some (.ok v) :=
  C8_subgraph_callable_roundtrip applyStd exC8 none 20 20 20
    [[PyVal.str "c", PyVal.str "b", PyVal.str "a"]]
    [PyVal.str "c", PyVal.str "b", PyVal.str "a"]
    ⟨[(PyVal.str "c", PyVal.tup [.fn 0, .str "b"]),
      (PyVal.str "b", PyVal.tup [.fn 0, .str "a"]),
      (PyVal.str "a", PyVal.int 1)], PyVal.str "c", [], "subgraph_callable"⟩
    [PyVal.str "a", PyVal.str "b", PyVal.str "c"]
    [(PyVal.str "a", PyVal.int 1), (PyVal.str "b", PyVal.int 2),
     (PyVal.str "c", PyVal.int 3)]
    (.ok [PyVal.str "a", PyVal.str "b", PyVal.str "c"])
    (by decide) (by decide) (by rfl) (by decide) (by rfl) (by rfl) (by rfl) (by rfl)

end Dag
